import Mathlib

/-!
Verification of the `lex-flow` incremental JSON tokenizer (`src/lexer.ts`),
the streaming extraction state machine (`src/streaming-results-json-parser.ts`)
and the one-shot recursive-descent parser (`src/parser.ts`).

The JavaScript source is embedded shallowly:

* a JS string is a `List Char`; the tokenizer's buffer/position pair is kept
  as a `List Char` together with a `Nat` cursor, and the character-scanning
  helpers work on the suffix `buffer.drop pos`;
* JS `number` values that are used as counters are `Nat` (cursor) or `Int`
  (the brace counter, which the code can drive below zero);
* a JS method that can fail (`return null` / `return undefined` / `throw`)
  returns an `Option`;
* the decoded payload of a numeric token is kept as its source lexeme
  (the exact character span matched by `readNumber`); decoding that lexeme
  with the runtime's `Number` conversion to an IEEE double is outside the
  scope of this model, and the `isNaN` test of the source is modelled by the
  recognizer `jsNumberWf` below.
-/

/-- The whitespace class of the regular expression `/\s/` used by
`Lexer.skipWhitespace`: ASCII whitespace plus the Unicode space separators,
line separators and the BOM recognized by ECMAScript. -/
def isJsWs (c : Char) : Bool :=
  c = ' ' ∨ c = '\t' ∨ c = '\n' ∨ c = '\r' ∨ c = '\x0b' ∨ c = '\x0c' ∨
  c = ' ' ∨ c = ' ' ∨ (' ' ≤ c ∧ c ≤ ' ') ∨
  c = ' ' ∨ c = ' ' ∨ c = ' ' ∨ c = ' ' ∨
  c = '　' ∨ c = '﻿'

/-- Token type of `src/types.ts`.  The `string` payload is the decoded string
value; the `number` payload is the matched numeric lexeme (see the header
comment); `litValue` is the `value` token carrying `true` / `false` / `null`
(`none` encodes `null`). -/
inductive Token where
  | beginObject
  | endObject
  | beginArray
  | endArray
  | nameSeparator
  | valueSeparator
  | string (value : List Char)
  | number (lexeme : List Char)
  | litValue (v : Option Bool)
deriving DecidableEq, Repr

/-- Number of leading JS-whitespace characters of a suffix
(the loop of `Lexer.skipWhitespace`). -/
def countWs : List Char → Nat
  | [] => 0
  | c :: rest => if isJsWs c then countWs rest + 1 else 0

/-- Cursor position after `skipWhitespace` has run from position `pos`. -/
def skipWsPos (buffer : List Char) (pos : Nat) : Nat :=
  pos + countWs (buffer.drop pos)

/-- Decide whether a character is one of the four hex digits accepted by the
`/^[0-9a-fA-F]\x7b4\x7d$/` test of `Lexer.readString`. -/
def isHexDigit (c : Char) : Bool :=
  ('0' ≤ c ∧ c ≤ '9') ∨ ('a' ≤ c ∧ c ≤ 'f') ∨ ('A' ≤ c ∧ c ≤ 'F')

/-- Numeric value of a hex digit. -/
def hexVal (c : Char) : Nat :=
  if '0' ≤ c ∧ c ≤ '9' then c.toNat - '0'.toNat
  else if 'a' ≤ c ∧ c ≤ 'f' then c.toNat - 'a'.toNat + 10
  else if 'A' ≤ c ∧ c ≤ 'F' then c.toNat - 'A'.toNat + 10
  else 0

/-- The `String.fromCharCode(parseInt(hex, 16))` step of the `\u` escape.
A JS string may hold a lone UTF-16 code unit that is not a scalar value;
`Char.ofNat` maps those to `'\0'`, which is adequate here because no claim
depends on the decoded value of a `\u` escape. -/
def fromCharCode (h1 h2 h3 h4 : Char) : Char :=
  Char.ofNat (((hexVal h1 * 16 + hexVal h2) * 16 + hexVal h3) * 16 + hexVal h4)

/-- Body loop of `Lexer.readString`, running on the characters after the
opening quote.  `acc` is the decoded `result` accumulator.  Returns the
decoded value together with the unconsumed suffix after the closing quote, or
`none` when the attempt fails (unterminated string, truncated escape, or a
malformed `\u` escape) — in the source all these paths restore the cursor to
the string's start.

The `\u` case mirrors the source exactly: after checking
`position + 5 >= buffer.length` (six characters from the backslash must be
buffered) and the four hex digits, the source advances the cursor by
`5 + 2 = 7` characters in total, i.e. one character beyond the six-character
escape, so the character following the escape is dropped.  When the escape
sits at the very end of the buffer the cursor lands one past the buffer end,
the loop exits and the attempt fails — the `[]` branch below. -/
def readStrAux : List Char → List Char → Option (List Char × List Char)
  | [], _ => none
  | '\\' :: rest, acc =>
    match rest with
    | [] => none
    | esc :: rest2 =>
      if esc = 'n' then readStrAux rest2 (acc ++ ['\n'])
      else if esc = '"' then readStrAux rest2 (acc ++ ['"'])
      else if esc = '\\' then readStrAux rest2 (acc ++ ['\\'])
      else if esc = 'b' then readStrAux rest2 (acc ++ ['\x08'])
      else if esc = 'f' then readStrAux rest2 (acc ++ ['\x0c'])
      else if esc = 'r' then readStrAux rest2 (acc ++ ['\r'])
      else if esc = 't' then readStrAux rest2 (acc ++ ['\t'])
      else if esc = 'u' then
        match rest2 with
        | h1 :: h2 :: h3 :: h4 :: rest3 =>
          if isHexDigit h1 ∧ isHexDigit h2 ∧ isHexDigit h3 ∧ isHexDigit h4 then
            match rest3 with
            | [] => none
            | _ :: rest4 => readStrAux rest4 (acc ++ [fromCharCode h1 h2 h3 h4])
          else none
        | _ => none
      else readStrAux rest2 (acc ++ [esc])
  | '"' :: rest, acc => some (acc, rest)
  | c :: rest, acc => readStrAux rest (acc ++ [c])

/-- `Lexer.readString`: `pos` points at the opening quote.  On failure the
cursor is restored to `pos` (the `startPosition` of the source). -/
def readString (buffer : List Char) (pos : Nat) : Option Token × Nat :=
  match readStrAux ((buffer.drop pos).drop 1) [] with
  | some (value, rest) => (some (Token.string value), buffer.length - rest.length)
  | none => (none, pos)

/-- The scanning loop of `Lexer.readNumber`.  Arguments mirror the mutable
flags `hasDigit`, `hasDecimal`, `hasExponent`; the result is the number of
characters consumed paired with the final value of `hasDigit`. -/
def readNumAux : List Char → Bool → Bool → Bool → Nat × Bool
  | [], hd, _, _ => (0, hd)
  | c :: rest, hd, hdec, hexp =>
    if '0' ≤ c ∧ c ≤ '9' then
      let r := readNumAux rest true hdec hexp
      (r.1 + 1, r.2)
    else if c = '.' ∧ ¬hdec ∧ ¬hexp then
      let r := readNumAux rest hd true hexp
      (r.1 + 1, r.2)
    else if (c = 'e' ∨ c = 'E') ∧ ¬hexp ∧ hd then
      match rest with
      | s :: rest2 =>
        if s = '+' ∨ s = '-' then
          let r := readNumAux rest2 false hdec true
          (r.1 + 2, r.2)
        else
          let r := readNumAux (s :: rest2) false hdec true
          (r.1 + 1, r.2)
      | [] => (1, false)
    else (0, hd)

/-- Leading decimal digits of a suffix, as characters. -/
def spanDigits : List Char → List Char × List Char
  | [] => ([], [])
  | c :: rest =>
    if '0' ≤ c ∧ c ≤ '9' then
      let r := spanDigits rest
      (c :: r.1, r.2)
    else ([], c :: rest)

/-- Exponent part of the `Number()` string grammar: empty, or `e`/`E`, an
optional sign and at least one digit, consuming the whole remainder. -/
def wfExpPart : List Char → Bool
  | [] => true
  | c :: rest =>
    if c = 'e' ∨ c = 'E' then
      let rest2 := match rest with
        | s :: r2 => if s = '+' ∨ s = '-' then r2 else s :: r2
        | [] => []
      let d := spanDigits rest2
      !d.1.isEmpty && d.2.isEmpty
    else false

/-- Recognizer modelling the `isNaN(Number(numStr))` test of
`Lexer.readNumber` on the lexemes its loop can produce (digits, one optional
dot, one optional exponent with optional sign; never a leading sign):
`Number(numStr)` is not `NaN` exactly when the lexeme matches
`digits '.'? digits` with at least one mantissa digit, followed by an
optional well-formed exponent. -/
def jsNumberWf (l : List Char) : Bool :=
  let m := spanDigits l
  match m.2 with
  | '.' :: r2 =>
    let f := spanDigits r2
    !(m.1.isEmpty && f.1.isEmpty) && wfExpPart f.2
  | r => !m.1.isEmpty && wfExpPart r

/-- `Lexer.readNumber`: `pos` points at the first character of the run.  The
three failure exits (`run reaches the end of the buffer`, `no digit seen`,
`Number(...)` is `NaN`) all restore the cursor to `pos`. -/
def readNumber (buffer : List Char) (pos : Nat) : Option Token × Nat :=
  let r := readNumAux (buffer.drop pos) false false false
  if pos + r.1 = buffer.length then (none, pos)
  else if ¬r.2 then (none, pos)
  else
    let lexeme := (buffer.drop pos).take r.1
    if ¬jsNumberWf lexeme then (none, pos)
    else (some (Token.number lexeme), pos + r.1)

/-- `Lexer.startsWith`: `buffer.slice(pos, pos + s.length) === s`. -/
def startsWithAt (buffer : List Char) (pos : Nat) (s : List Char) : Bool :=
  (buffer.drop pos).take s.length = s

/-- The classification step of `Lexer.nextToken`, after `skipWhitespace`
has already run: `p` points at the first non-whitespace character. -/
def nextTokenAt (buffer : List Char) (p : Nat) : Option Token × Nat :=
  match (buffer.drop p).head? with
  | none => (none, p)
  | some ch =>
    if ch = '\x7b' then (some Token.beginObject, p + 1)
    else if ch = '\x7d' then (some Token.endObject, p + 1)
    else if ch = '[' then (some Token.beginArray, p + 1)
    else if ch = ']' then (some Token.endArray, p + 1)
    else if ch = ':' then (some Token.nameSeparator, p + 1)
    else if ch = ',' then (some Token.valueSeparator, p + 1)
    else if ch = '"' then readString buffer p
    else if ch = '-' ∨ ('0' ≤ ch ∧ ch ≤ '9') then readNumber buffer p
    else if startsWithAt buffer p "true".toList then (some (Token.litValue (some true)), p + 4)
    else if startsWithAt buffer p "false".toList then (some (Token.litValue (some false)), p + 5)
    else if startsWithAt buffer p "null".toList then (some (Token.litValue none), p + 4)
    else (none, p)

/-- `Lexer.nextToken`.  Returns the recognized token (or `none`) together
with the final cursor position.  Whitespace skipped by `skipWhitespace` stays
consumed even when no token is produced. -/
def nextToken (buffer : List Char) (pos : Nat) : Option Token × Nat :=
  nextTokenAt buffer (skipWsPos buffer pos)

/-- JSON values (`src/types.ts` `JSONValue`).  An object keeps its fields as
an ordered association list (JS objects preserve insertion order); a numeric
value is kept as its source lexeme, consistently with `Token.number`. -/
inductive JVal where
  | str (s : List Char)
  | num (lexeme : List Char)
  | bool (b : Bool)
  | null
  | obj (fields : List (List Char × JVal))
  | arr (elems : List JVal)

/-- Whitespace of the JSON grammar (RFC 8259) used by `JSON.parse`. -/
def jsonWsChar (c : Char) : Bool :=
  c = ' ' ∨ c = '\t' ∨ c = '\n' ∨ c = '\r'

/-- Drop leading JSON whitespace. -/
def jskipWs (l : List Char) : List Char :=
  l.dropWhile jsonWsChar

/-- Modelled from the spec: the built-in `JSON.parse` used by
`StreamingJSONParser.handleParsingArrayEntry` to decode a completed element
slice ("decode it as a standalone JSON value") is not part of the repository;
this is its string body per the ECMAScript / RFC 8259 JSON grammar: verbatim
characters above `0x1f` except quote and backslash, the short escapes
`\" \\ \/ \b \f \n \r \t` and six-character `\uXXXX` escapes. -/
def jstrAux : List Char → List Char → Option (List Char × List Char)
  | [], _ => none
  | '\\' :: rest, acc =>
    match rest with
    | [] => none
    | e :: r2 =>
      if e = '"' then jstrAux r2 (acc ++ ['"'])
      else if e = '\\' then jstrAux r2 (acc ++ ['\\'])
      else if e = '/' then jstrAux r2 (acc ++ ['/'])
      else if e = 'b' then jstrAux r2 (acc ++ ['\x08'])
      else if e = 'f' then jstrAux r2 (acc ++ ['\x0c'])
      else if e = 'n' then jstrAux r2 (acc ++ ['\n'])
      else if e = 'r' then jstrAux r2 (acc ++ ['\r'])
      else if e = 't' then jstrAux r2 (acc ++ ['\t'])
      else if e = 'u' then
        match r2 with
        | h1 :: h2 :: h3 :: h4 :: r3 =>
          if isHexDigit h1 ∧ isHexDigit h2 ∧ isHexDigit h3 ∧ isHexDigit h4 then
            jstrAux r3 (acc ++ [fromCharCode h1 h2 h3 h4])
          else none
        | _ => none
      else none
  | '"' :: rest, acc => some (acc, rest)
  | c :: rest, acc =>
    if c.toNat < 0x20 then none else jstrAux rest (acc ++ [c])

/-- Modelled from the spec (continuation of the `JSON.parse` model): the JSON
number grammar `-? (0 | [1-9] digits) ('.' digits+)? ([eE] [+-]? digits+)?`;
the matched lexeme is the value payload. -/
def jnum (l : List Char) : Option (List Char × List Char) :=
  let sign : List Char × List Char :=
    match l with
    | '-' :: r => (['-'], r)
    | _ => ([], l)
  match sign.2 with
  | '0' :: r => jnumFrac (sign.1 ++ ['0']) r
  | c :: r =>
    if '1' ≤ c ∧ c ≤ '9' then
      let d := spanDigits r
      jnumFrac (sign.1 ++ c :: d.1) d.2
    else none
  | [] => none
where
  /-- Optional fraction part, then the optional exponent part. -/
  jnumFrac (acc : List Char) : List Char → Option (List Char × List Char)
    | '.' :: r =>
      let d := spanDigits r
      if d.1 = [] then none else jnumExp (acc ++ '.' :: d.1) d.2
    | r => jnumExp acc r
  /-- Optional exponent part. -/
  jnumExp (acc : List Char) : List Char → Option (List Char × List Char)
    | c :: r =>
      if c = 'e' ∨ c = 'E' then
        let sr : List Char × List Char :=
          match r with
          | s :: r2 => if s = '+' ∨ s = '-' then ([s], r2) else ([], s :: r2)
          | [] => ([], [])
        let d := spanDigits sr.2
        if d.1 = [] then none else some (acc ++ c :: sr.1 ++ d.1, d.2)
      else some (acc, c :: r)
    | [] => some (acc, [])

mutual

/-- Modelled from the spec (continuation of the `JSON.parse` model): parse
one JSON value from the front of `l`, returning it with the unconsumed
suffix.  `fuel` only bounds the recursion depth; `jsonParse` below supplies
a sufficient amount. -/
def jparseV : Nat → List Char → Option (JVal × List Char)
  | 0, _ => none
  | fuel + 1, l =>
    match jskipWs l with
    | [] => none
    | c :: r =>
      if c = '\x7b' then
        match jskipWs r with
        | '\x7d' :: r2 => some (.obj [], r2)
        | _ => jparseFields fuel r []
      else if c = '[' then
        match jskipWs r with
        | ']' :: r2 => some (.arr [], r2)
        | _ => jparseItems fuel r []
      else if c = '"' then
        match jstrAux r [] with
        | some (s, rest) => some (.str s, rest)
        | none => none
      else if c = '-' ∨ ('0' ≤ c ∧ c ≤ '9') then
        match jnum (c :: r) with
        | some (lx, rest) => some (.num lx, rest)
        | none => none
      else if (c :: r).take 4 = "true".toList then some (.bool true, (c :: r).drop 4)
      else if (c :: r).take 5 = "false".toList then some (.bool false, (c :: r).drop 5)
      else if (c :: r).take 4 = "null".toList then some (.null, (c :: r).drop 4)
      else none

/-- Member list of a non-empty JSON object, after the opening brace. -/
def jparseFields : Nat → List Char → List (List Char × JVal) →
    Option (JVal × List Char)
  | 0, _, _ => none
  | fuel + 1, l, acc =>
    match jskipWs l with
    | '"' :: r =>
      match jstrAux r [] with
      | none => none
      | some (k, r2) =>
        match jskipWs r2 with
        | ':' :: r3 =>
          match jparseV fuel r3 with
          | none => none
          | some (v, r4) =>
            match jskipWs r4 with
            | ',' :: r5 => jparseFields fuel r5 (acc ++ [(k, v)])
            | '\x7d' :: r5 => some (.obj (acc ++ [(k, v)]), r5)
            | _ => none
        | _ => none
    | _ => none

/-- Element list of a non-empty JSON array, after the opening bracket. -/
def jparseItems : Nat → List Char → List JVal → Option (JVal × List Char)
  | 0, _, _ => none
  | fuel + 1, l, acc =>
    match jparseV fuel l with
    | none => none
    | some (v, r) =>
      match jskipWs r with
      | ',' :: r2 => jparseItems fuel r2 (acc ++ [v])
      | ']' :: r2 => some (.arr (acc ++ [v]), r2)
      | _ => none

end

/-- Modelled from the spec: `JSON.parse` on a complete string — one JSON
value, possibly surrounded by whitespace, with nothing after it. -/
def jsonParse (l : List Char) : Option JVal :=
  match jparseV (l.length + 1) l with
  | some (v, rest) => if jskipWs rest = [] then some v else none
  | none => none

/-- Parse states of `StreamingJSONParser` (`ParserState` in the source).
`parsingArrayEntry` carries `bracketCount` (an `Int`: the code can drive it
below zero after a decode failure) and `startPosition`. -/
inductive PState where
  | expectObjectStart
  | scanningForResults
  | expectColonAfterResults
  | expectArrayStart
  | parsingResultsArray
  | parsingArrayEntry (bracketCount : Int) (startPosition : Nat)
  | done
deriving DecidableEq, Repr

/-- Observable events of a parser run: an `onNewEntry` callback invocation,
or the `console.error` log emitted when `JSON.parse` fails on a completed
element slice. -/
inductive POut where
  | entry (v : JVal)
  | decodeError

/-- Whole state of a `StreamingJSONParser` together with its owned `Lexer`:
the lexer's `buffer` and `position`, the parser's `state`, and the ordered
log of observable events. -/
structure Config where
  buffer : List Char
  pos : Nat
  state : PState
  out : List POut

/-- `nextSignificantToken(peek)` of `StreamingJSONParser`: runs
`lexer.nextToken()` and, when peeking and a token was produced, restores the
cursor to its value before the call.  When no token is produced the cursor
keeps whatever `nextToken` left (whitespace may have been consumed). -/
def nextSig (buffer : List Char) (pos : Nat) (peek : Bool) : Option Token × Nat :=
  let r := nextToken buffer pos
  match r.1 with
  | some t => if peek then (some t, pos) else (some t, r.2)
  | none => (none, r.2)

/-- JS object-property assignment `obj[key] = value` on an ordered
association list: overwrite an existing key in place, else append. -/
def jsObjInsert (fields : List (List Char × JVal)) (k : List Char) (v : JVal) :
    List (List Char × JVal) :=
  match fields with
  | [] => [(k, v)]
  | (k', v') :: rest =>
    if k' = k then (k', v) :: rest else (k', v') :: jsObjInsert rest k v

/-- Call descriptor for the mutually recursive
`parseValue` / `parseObject` / `parseArray` methods of
`StreamingJSONParser` (and the loops inside the latter two, whose
accumulated partial results are carried in the descriptor).  The mutual
recursion is flattened into the single fuel-indexed function `parseS` so
that it reduces by plain structural recursion on the fuel. -/
inductive PCall where
  | value
  | object
  | objPairs (acc : List (List Char × JVal))
  | array
  | arrItems (acc : List JVal)

/-- `StreamingJSONParser.parseValue(discard)` and the methods it is mutually
recursive with, selected by `call`: consume one full JSON value (or the
corresponding fragment) with the lexer, returning the built value (`obj []`
stands for the discarded placeholder) and the final cursor, or `none` for
`undefined`.  `fuel` only bounds the recursion depth; every call site
supplies `buffer.length + 1`, which the consumption of at least one
character per recursion level makes sufficient. -/
def parseS : Nat → PCall → List Char → Nat → Bool → Option JVal × Nat
  | 0, _, _, pos, _ => (none, pos)
  | fuel + 1, PCall.value, buffer, pos, discard =>
    match nextSig buffer pos false with
    | (none, p) => (none, p)
    | (some (Token.string s), p) =>
      (some (if discard then JVal.obj [] else JVal.str s), p)
    | (some (Token.number lx), p) =>
      (some (if discard then JVal.obj [] else JVal.num lx), p)
    | (some (Token.litValue v), p) =>
      (some (if discard then JVal.obj []
             else match v with
               | some b => JVal.bool b
               | none => JVal.null), p)
    | (some Token.beginObject, p) => parseS fuel PCall.object buffer p discard
    | (some Token.beginArray, p) => parseS fuel PCall.array buffer p discard
    | (some _, p) => (none, p)
  | fuel + 1, PCall.object, buffer, pos, discard =>
    match nextSig buffer pos true with
    | (none, p) => (none, p)
    | (some Token.endObject, _) =>
      let r := nextSig buffer pos false
      (some (JVal.obj []), r.2)
    | (some _, _) => parseS fuel (PCall.objPairs []) buffer pos discard
  | fuel + 1, PCall.objPairs acc, buffer, pos, discard =>
    match nextSig buffer pos false with
    | (some (Token.string k), p1) =>
      match nextSig buffer p1 false with
      | (some Token.nameSeparator, p2) =>
        match parseS fuel PCall.value buffer p2 discard with
        | (none, p3) => (none, p3)
        | (some v, p3) =>
          let acc' := if discard then acc else jsObjInsert acc k v
          match nextSig buffer p3 false with
          | (none, p4) => (none, p4)
          | (some Token.endObject, p4) =>
            (some (JVal.obj (if discard then [] else acc')), p4)
          | (some Token.valueSeparator, p4) =>
            parseS fuel (PCall.objPairs acc') buffer p4 discard
          | (some _, p4) => (none, p4)
      | (_, p2) => (none, p2)
    | (_, p1) => (none, p1)
  | fuel + 1, PCall.array, buffer, pos, discard =>
    match nextSig buffer pos true with
    | (none, p) => (none, p)
    | (some Token.endArray, _) =>
      let r := nextSig buffer pos false
      (some (JVal.arr []), r.2)
    | (some _, _) => parseS fuel (PCall.arrItems []) buffer pos discard
  | fuel + 1, PCall.arrItems acc, buffer, pos, discard =>
    match parseS fuel PCall.value buffer pos discard with
    | (none, p1) => (none, p1)
    | (some v, p1) =>
      let acc' := if discard then acc else acc ++ [v]
      match nextSig buffer p1 false with
      | (none, p2) => (none, p2)
      | (some Token.endArray, p2) =>
        (some (JVal.arr (if discard then [] else acc')), p2)
      | (some Token.valueSeparator, p2) =>
        parseS fuel (PCall.arrItems acc') buffer p2 discard
      | (some _, p2) => (none, p2)

/-- `StreamingJSONParser.parseValue(discard)`. -/
def parseValueS (fuel : Nat) (buffer : List Char) (pos : Nat) (discard : Bool) :
    Option JVal × Nat :=
  parseS fuel PCall.value buffer pos discard

/-- `StreamingJSONParser.skipValue`: parse and discard one value. -/
def skipValueS (buffer : List Char) (pos : Nat) : Bool × Nat :=
  let r := parseValueS (buffer.length + 1) buffer pos true
  (r.1.isSome, r.2)

/-- `handleExpectObjectStart`. -/
def handleExpectObjectStart (c : Config) (token : Token) : Bool × Config :=
  if token = Token.beginObject then
    let r := nextSig c.buffer c.pos false
    (true, { c with pos := r.2, state := PState.scanningForResults })
  else (false, c)

/-- `handleScanningForResults`: consumes the peeked token; a `"results"` key
advances the state, any other token is treated as a key to skip (colon, one
discarded value, then a comma to continue or a closing brace to finish). -/
def handleScanningForResults (c : Config) (token : Token) : Bool × Config :=
  let r1 := nextSig c.buffer c.pos false
  let p1 := r1.2
  if token = Token.string "results".toList then
    (true, { c with pos := p1, state := PState.expectColonAfterResults })
  else
    let r2 := nextSig c.buffer p1 false
    if r2.1 ≠ some Token.nameSeparator then (false, { c with pos := r2.2 })
    else
      let r3 := skipValueS c.buffer r2.2
      if ¬r3.1 then (false, { c with pos := r3.2 })
      else
        let r4 := nextSig c.buffer r3.2 false
        match r4.1 with
        | none => (false, { c with pos := r4.2 })
        | some Token.endObject =>
          (true, { c with pos := r4.2, state := PState.done })
        | some Token.valueSeparator => (true, { c with pos := r4.2 })
        | some _ => (false, { c with pos := r4.2 })

/-- `handleExpectColon`. -/
def handleExpectColon (c : Config) (token : Token) : Bool × Config :=
  if token = Token.nameSeparator then
    let r := nextSig c.buffer c.pos false
    (true, { c with pos := r.2, state := PState.expectArrayStart })
  else (false, c)

/-- `handleExpectArrayStart`. -/
def handleExpectArrayStart (c : Config) (token : Token) : Bool × Config :=
  if token = Token.beginArray then
    let r := nextSig c.buffer c.pos false
    (true, { c with pos := r.2, state := PState.parsingResultsArray })
  else (false, c)

/-- `handleParsingResultsArray`.  On `\x7b` the recorded `startPosition` is
the cursor value before the brace is consumed. -/
def handleParsingResultsArray (c : Config) (token : Token) : Bool × Config :=
  if token = Token.endArray then
    let r := nextSig c.buffer c.pos false
    (true, { c with pos := r.2, state := PState.done })
  else if token = Token.valueSeparator then
    let r := nextSig c.buffer c.pos false
    (true, { c with pos := r.2 })
  else if token = Token.beginObject then
    let st := PState.parsingArrayEntry 1 c.pos
    let r := nextSig c.buffer c.pos false
    (true, { c with pos := r.2, state := st })
  else (false, c)

/-- `handleParsingArrayEntry`: consumes one token and updates the brace
count; on reaching zero the recorded slice is decoded with `jsonParse` and
either emitted (`onNewEntry`) or, on decode failure, a `decodeError` event is
logged and the step reports no progress with the count left at zero. -/
def handleParsingArrayEntry (c : Config) (bc : Int) (st : Nat) : Bool × Config :=
  match nextSig c.buffer c.pos false with
  | (none, p) => (false, { c with pos := p })
  | (some Token.beginObject, p) =>
    (true, { c with pos := p, state := PState.parsingArrayEntry (bc + 1) st })
  | (some Token.endObject, p) =>
    if bc - 1 = 0 then
      let objectStr := (c.buffer.drop st).take (p - st)
      match jsonParse objectStr with
      | some v =>
        (true,
          { c with
            pos := p
            state := PState.parsingResultsArray
            out := c.out ++ [POut.entry v] })
      | none =>
        (false,
          { c with
            pos := p
            state := PState.parsingArrayEntry (bc - 1) st
            out := c.out ++ [POut.decodeError] })
    else
      (true, { c with pos := p, state := PState.parsingArrayEntry (bc - 1) st })
  | (some _, p) => (true, { c with pos := p })

/-- `processNextStep`: peek one token (whitespace consumed by a failing peek
stays consumed), dispatch on the current state. -/
def processNextStep (c : Config) : Bool × Config :=
  let pk := nextSig c.buffer c.pos true
  match pk.1 with
  | none => (false, { c with pos := pk.2 })
  | some token =>
    match c.state with
    | PState.expectObjectStart => handleExpectObjectStart c token
    | PState.scanningForResults => handleScanningForResults c token
    | PState.expectColonAfterResults => handleExpectColon c token
    | PState.expectArrayStart => handleExpectArrayStart c token
    | PState.parsingResultsArray => handleParsingResultsArray c token
    | PState.parsingArrayEntry bc st => handleParsingArrayEntry c bc st
    | PState.done => (false, c)

/-- The drain loop of `parseChunk`: step until a step reports no progress or
leaves the cursor unchanged.  `fuel` only bounds the iteration count;
`parseChunk` supplies `buffer.length + 1 - pos`, which is sufficient because
every continuing iteration strictly advances the cursor, which never exceeds
the buffer length. -/
def drainLoop : Nat → Config → Config
  | 0, c => c
  | fuel + 1, c =>
    let old := c.pos
    let r := processNextStep c
    if r.1 ∧ r.2.pos ≠ old then drainLoop fuel r.2 else r.2

/-- `parseChunk`: append the chunk to the buffer and drain. -/
def parseChunk (chunk : List Char) (c : Config) : Config :=
  let c0 := { c with buffer := c.buffer ++ chunk }
  drainLoop (c0.buffer.length + 1 - c0.pos) c0

/-- A freshly constructed `StreamingJSONParser`. -/
def initConfig : Config :=
  { buffer := [], pos := 0, state := PState.expectObjectStart, out := [] }

/-- `parseStream`: deliver the chunks in order to `parseChunk`. -/
def runChunks (chunks : List (List Char)) : Config :=
  chunks.foldl (fun c ch => parseChunk ch c) initConfig

/-- Split a text into successive 3-character fragments (the "3-character
fragments" delivery pattern of the test suite); the last fragment may be
shorter. -/
def chunksOf3 : List Char → List (List Char)
  | [] => []
  | [a] => [[a]]
  | [a, b] => [[a, b]]
  | a :: b :: c :: rest => [a, b, c] :: chunksOf3 rest

/-- `Parser.nextSignificantToken(peek)` of the one-shot parser
(`src/parser.ts`).  Unlike the streaming parser's peek, this one "restores"
the cursor with `setPosition(getPosition() - 1)`, i.e. to one character
before the position reached after reading the token — which is the token's
start only for one-character tokens with no preceding whitespace. -/
def nextSigP (buffer : List Char) (pos : Nat) (peek : Bool) : Option Token × Nat :=
  let r := nextToken buffer pos
  match r.1 with
  | some t => if peek then (some t, r.2 - 1) else (some t, r.2)
  | none => (none, r.2)

/-- Call descriptor for the mutually recursive `parseValue` / `parseObject` /
`parseArray` methods of the one-shot `Parser`, flattened into the single
fuel-indexed function `parseP` (as with `parseS`). -/
inductive PCallP where
  | value
  | object
  | objLoop (acc : List (List Char × JVal))
  | array
  | arrLoop (acc : List JVal)

/-- The one-shot `Parser`'s recursive-descent core.  Faithful to the source,
including the peek behaviour of `nextSigP`: after a non-`\x7d` /
non-`]` token is peeked in `parseObject` / `parseArray`, parsing resumes
from one character before the end of the peeked token. -/
def parseP : Nat → PCallP → List Char → Nat → Option JVal × Nat
  | 0, _, _, pos => (none, pos)
  | fuel + 1, PCallP.value, buffer, pos =>
    match nextSigP buffer pos false with
    | (none, p) => (none, p)
    | (some (Token.string s), p) => (some (JVal.str s), p)
    | (some (Token.number lx), p) => (some (JVal.num lx), p)
    | (some (Token.litValue v), p) =>
      (some (match v with
        | some b => JVal.bool b
        | none => JVal.null), p)
    | (some Token.beginObject, p) => parseP fuel PCallP.object buffer p
    | (some Token.beginArray, p) => parseP fuel PCallP.array buffer p
    | (some _, p) => (none, p)
  | fuel + 1, PCallP.object, buffer, pos =>
    match nextSigP buffer pos true with
    | (some Token.endObject, p) =>
      let r := nextSigP buffer p false
      (some (JVal.obj []), r.2)
    | (_, p) => parseP fuel (PCallP.objLoop []) buffer p
  | fuel + 1, PCallP.objLoop acc, buffer, pos =>
    match nextSigP buffer pos false with
    | (some (Token.string k), p1) =>
      match nextSigP buffer p1 false with
      | (some Token.nameSeparator, p2) =>
        match parseP fuel PCallP.value buffer p2 with
        | (none, p3) => (none, p3)
        | (some v, p3) =>
          let acc' := jsObjInsert acc k v
          match nextSigP buffer p3 false with
          | (none, p4) => (none, p4)
          | (some Token.endObject, p4) => (some (JVal.obj acc'), p4)
          | (some Token.valueSeparator, p4) =>
            parseP fuel (PCallP.objLoop acc') buffer p4
          | (some _, p4) => (none, p4)
      | (_, p2) => (none, p2)
    | (_, p1) => (none, p1)
  | fuel + 1, PCallP.array, buffer, pos =>
    match nextSigP buffer pos true with
    | (some Token.endArray, p) =>
      let r := nextSigP buffer p false
      (some (JVal.arr []), r.2)
    | (_, p) => parseP fuel (PCallP.arrLoop []) buffer p
  | fuel + 1, PCallP.arrLoop acc, buffer, pos =>
    match parseP fuel PCallP.value buffer pos with
    | (none, p1) => (none, p1)
    | (some v, p1) =>
      let acc' := acc ++ [v]
      match nextSigP buffer p1 false with
      | (none, p2) => (none, p2)
      | (some Token.endArray, p2) => (some (JVal.arr acc'), p2)
      | (some Token.valueSeparator, p2) =>
        parseP fuel (PCallP.arrLoop acc') buffer p2
      | (some _, p2) => (none, p2)

/-- `Parser.parse`: feed the whole input to a fresh lexer and parse one
value; `none` models the `throw new Error('Invalid JSON')` outcome.  The
fuel `2 * length + 2` over-approximates the recursion depth (the cursor
advances by at least one character per two levels, even through the
one-character peek rewinds). -/
def parseOneShot (input : List Char) : Option JVal :=
  (parseP (2 * input.length + 2) PCallP.value input 0).1

/-- Decimal digit. -/
def isDigitCh (c : Char) : Bool :=
  '0' ≤ c ∧ c ≤ '9'

mutual

/-- Token-level canonical serialization of a JSON value: the list of
(lexeme, token) pairs that make up its compact (whitespace-free) text.
This is the reference form used to state the chunking-invariance theorem. -/
def toks : JVal → List (List Char × Token)
  | .str s => [('"' :: s ++ ['"'], Token.string s)]
  | .num lx => [(lx, Token.number lx)]
  | .bool true => [("true".toList, Token.litValue (some true))]
  | .bool false => [("false".toList, Token.litValue (some false))]
  | .null => [("null".toList, Token.litValue none)]
  | .obj fs =>
    (['\x7b'], Token.beginObject) :: (toksFields fs ++ [(['\x7d'], Token.endObject)])
  | .arr es =>
    (['['], Token.beginArray) :: (toksElems es ++ [([']'], Token.endArray)])

/-- Tokens of an object's member list (keys, colons, values, commas). -/
def toksFields : List (List Char × JVal) → List (List Char × Token)
  | [] => []
  | [(k, v)] =>
    ('"' :: k ++ ['"'], Token.string k) :: ([':'], Token.nameSeparator) :: toks v
  | (k, v) :: rest =>
    ('"' :: k ++ ['"'], Token.string k) :: ([':'], Token.nameSeparator) ::
      (toks v ++ ([','], Token.valueSeparator) :: toksFields rest)

/-- Tokens of an array's element list. -/
def toksElems : List JVal → List (List Char × Token)
  | [] => []
  | [e] => toks e
  | e :: rest => toks e ++ ([','], Token.valueSeparator) :: toksElems rest

end

/-- Compact canonical text of a JSON value. -/
def sval (v : JVal) : List Char :=
  ((toks v).map Prod.fst).flatten

/-- Characters that the canonical serialization writes into a string
literal verbatim: anything except the quote, the backslash and control
characters. -/
def rawSafe (c : Char) : Bool :=
  c ≠ '"' ∧ c ≠ '\\' ∧ 0x20 ≤ c.toNat

/-- Canonical non-negative integer numeral: `0`, or digits without a
leading zero. -/
def canonNum (lx : List Char) : Bool :=
  lx = ['0'] ∨ (¬lx.isEmpty ∧ lx.all isDigitCh ∧ lx.head? ≠ some '0')

mutual

/-- Values covered by the chunking-invariance theorem: strings (and keys)
made of `rawSafe` characters, canonical non-negative integer numerals,
booleans, `null`, and arbitrarily nested objects and arrays thereof. -/
def GoodVal : JVal → Bool
  | .str s => s.all rawSafe
  | .num lx => canonNum lx
  | .bool _ => true
  | .null => true
  | .obj fs => GoodFields fs
  | .arr es => GoodElems es

/-- `GoodVal` on an object's member list. -/
def GoodFields : List (List Char × JVal) → Bool
  | [] => true
  | (k, v) :: rest => k.all rawSafe && GoodVal v && GoodFields rest

/-- `GoodVal` on an array's element list. -/
def GoodElems : List JVal → Bool
  | [] => true
  | e :: rest => GoodVal e && GoodElems rest

end

/-- Top-level results-array elements handled by the collection state: JSON
objects. -/
def isObjVal : JVal → Bool
  | .obj _ => true
  | _ => false

/-- Compact text of the element region of the results array:
the serialized elements joined by commas. -/
def sepElems : List JVal → List Char
  | [] => []
  | [e] => sval e
  | e :: rest => sval e ++ ',' :: sepElems rest

/-- The compact document `\x7b"results":[e1,...,en]\x7d`: a top-level object
whose first (and only) key is `"results"`, holding the given elements. -/
def docText (es : List JVal) : List Char :=
  "\x7b\"results\":[".toList ++ sepElems es ++ "]\x7d".toList

/-- Control points of the state machine's walk over `docText es`, carrying
the elements already emitted (`done`) and the ones still to come (`todo`).
`inElem done e todo k` is the collection state after `k` of the tokens of
the current element `e` have been consumed. -/
inductive Prog where
  | atStart
  | atScanning
  | atColon
  | atArrayStart
  | atElem (done todo : List JVal)
  | postElem (done : List JVal) (e : JVal) (todo : List JVal)
  | inElem (done : List JVal) (e : JVal) (todo : List JVal) (k : Nat)
  | atDone (es : List JVal)

/-- Cursor position of a control point: the element region starts at
offset 12 of `docText`. -/
def posAtElem (done : List JVal) : Nat :=
  12 + (sepElems done).length + (if done.isEmpty then 0 else 1)

/-- Total text length of the first `k` tokens of a token list. -/
def tokPrefLen (ts : List (List Char × Token)) (k : Nat) : Nat :=
  ((ts.take k).map (fun t => t.1.length)).sum

/-- Brace delta of one token as tracked by `handleParsingArrayEntry`. -/
def braceDelta (t : Token) : Int :=
  match t with
  | Token.beginObject => 1
  | Token.endObject => -1
  | _ => 0

/-- Brace count after the first `k` tokens of a token list. -/
def braceCnt (ts : List (List Char × Token)) (k : Nat) : Int :=
  ((ts.take k).map (fun t => braceDelta t.2)).sum

/-- Cursor position of a control point. -/
def progPos : Prog → Nat
  | Prog.atStart => 0
  | Prog.atScanning => 1
  | Prog.atColon => 10
  | Prog.atArrayStart => 11
  | Prog.atElem done _ => posAtElem done
  | Prog.postElem done e _ => posAtElem done + (sval e).length
  | Prog.inElem done e _ k => posAtElem done + tokPrefLen (toks e) k
  | Prog.atDone es => 12 + (sepElems es).length + 1

/-- Machine state of a control point. -/
def progState : Prog → PState
  | Prog.atStart => PState.expectObjectStart
  | Prog.atScanning => PState.scanningForResults
  | Prog.atColon => PState.expectColonAfterResults
  | Prog.atArrayStart => PState.expectArrayStart
  | Prog.atElem _ _ => PState.parsingResultsArray
  | Prog.postElem _ _ _ => PState.parsingResultsArray
  | Prog.inElem done e _ k => PState.parsingArrayEntry (braceCnt (toks e) k) (posAtElem done)
  | Prog.atDone _ => PState.done

/-- Events logged up to a control point. -/
def progOut : Prog → List POut
  | Prog.atStart => []
  | Prog.atScanning => []
  | Prog.atColon => []
  | Prog.atArrayStart => []
  | Prog.atElem done _ => done.map POut.entry
  | Prog.postElem done e _ => (done ++ [e]).map POut.entry
  | Prog.inElem done _ _ _ => done.map POut.entry
  | Prog.atDone es => es.map POut.entry

/-- The machine configuration at a control point, over buffer `p`. -/
def progConfig (p : List Char) (pt : Prog) : Config :=
  { buffer := p, pos := progPos pt, state := progState pt, out := progOut pt }

/-- Well-formedness of a control point for the document `docText es`. -/
def ProgWF (es : List JVal) : Prog → Prop
  | Prog.atStart => True
  | Prog.atScanning => True
  | Prog.atColon => True
  | Prog.atArrayStart => True
  | Prog.atElem done todo => es = done ++ todo ∧ (todo = [] → done = [])
  | Prog.postElem done e todo => es = done ++ e :: todo
  | Prog.inElem done e todo k => es = done ++ e :: todo ∧ 1 ≤ k ∧ k < (toks e).length
  | Prog.atDone es' => es' = es

/-- The numeric-run grammar named by the specification for a *non-negative*
run: one or more digits, at most one decimal point, and an optional
exponent (`e`/`E`, an optional sign, one or more digits). -/
def claimNumRun (l : List Char) : Bool :=
  let m := spanDigits l
  !m.1.isEmpty &&
    (match m.2 with
     | '.' :: r2 => wfExpPart (spanDigits r2).2
     | r => wfExpPart r)

/-- A JSON number literal for the purpose of claims C7 and C9: an optional
leading minus followed by a `claimNumRun` numeric run.  This covers every
literal of the JSON number grammar (whose fraction and exponent parts are
special cases of the run grammar). -/
def numberLit (l : List Char) : Prop :=
  claimNumRun l = true ∨ ∃ r, l = '-' :: r ∧ claimNumRun r = true

/-- Characters the `readString` loop copies verbatim: anything but the
closing quote and the escape lead. -/
def plainStrChar (c : Char) : Bool :=
  c ≠ '"' ∧ c ≠ '\\'

/-- Reflexive-transitive closure of the machine steps the drain loop of
`parseChunk` actually takes: successful steps that move the cursor. -/
inductive StepsTo : Config → Config → Prop
  | refl (c : Config) : StepsTo c c
  | step {c c'' : Config} (h1 : (processNextStep c).1 = true)
      (h2 : (processNextStep c).2.pos ≠ c.pos)
      (h3 : StepsTo (processNextStep c).2 c'') : StepsTo c c''

/-- A configuration on which a machine step reports no progress and changes
nothing: the drain loop stops here, and stays here for the rest of the
chunk. -/
def StuckAt (c : Config) : Prop :=
  processNextStep c = (false, c)

/-- A breaking suffix for the `readNumber` loop: empty, or led by a
character that extends no number. -/
def BreakSuffix (rest : List Char) : Prop :=
  rest = [] ∨ ∃ c r, rest = c :: r ∧ isDigitCh c = false ∧
    c ≠ '.' ∧ c ≠ 'e' ∧ c ≠ 'E'


/-- Structure of an exponent part as produced by `wfExpPart`. -/
def ExpShape (ex : List Char) : Prop :=
  ex = [] ∨ ∃ e sign ds, (e = 'e' ∨ e = 'E') ∧
    (sign = [] ∨ sign = ['+'] ∨ sign = ['-']) ∧ ds ≠ [] ∧
    (∀ c ∈ ds, isDigitCh c = true) ∧ ex = e :: (sign ++ ds)


def deltaSum (ts : List (List Char × Token)) : Int :=
  (ts.map (fun t => braceDelta t.2)).sum


def fieldsText (fs : List (List Char × JVal)) : List Char :=
  ((toksFields fs).map Prod.fst).flatten


def elemsText (es : List JVal) : List Char :=
  ((toksElems es).map Prod.fst).flatten


def sepHead (rest : List Char) : Prop :=
  rest = [] ∨ (∃ r, rest = ',' :: r) ∨ (∃ r, rest = '\x7d' :: r) ∨
    (∃ r, rest = ']' :: r)


/-- Shape of a token's lexeme in the canonical serialization. -/
def lexOkTok : List Char × Token → Prop
  | (lex, Token.beginObject) => lex = ['\x7b']
  | (lex, Token.endObject) => lex = ['\x7d']
  | (lex, Token.beginArray) => lex = ['[']
  | (lex, Token.endArray) => lex = [']']
  | (lex, Token.nameSeparator) => lex = [':']
  | (lex, Token.valueSeparator) => lex = [',']
  | (lex, Token.string s) => lex = '"' :: s ++ ['"'] ∧ ∀ x ∈ s, rawSafe x = true
  | (lex, Token.number lx) => lex = lx ∧ canonNum lx = true
  | (lex, Token.litValue (some true)) => lex = "true".toList
  | (lex, Token.litValue (some false)) => lex = "false".toList
  | (lex, Token.litValue none) => lex = "null".toList


/-- Separator characters that legitimately follow a serialized value. -/
def sepCh (c : Char) : Prop := c = ',' ∨ c = '\x7d' ∨ c = ']'


/-- Well-formed token stream followed (in the document) by the character
`fc`: every lexeme has the canonical shape, and a number token is always
followed by a separator character (so the lexer can see that the numeric
run is over). -/
def StreamOk : List (List Char × Token) → Char → Prop
  | [], _ => True
  | [t], fc => lexOkTok t ∧ ∀ lx, t.2 = Token.number lx → sepCh fc
  | t1 :: t2 :: ts, fc =>
    lexOkTok t1 ∧ (∀ lx, t1.2 = Token.number lx → ∃ c r, t2.1 = c :: r ∧ sepCh c) ∧
      StreamOk (t2 :: ts) fc


/-- One extra character that must be buffered beyond the `k`-th token of the
stream before the lexer will produce it: needed exactly for number tokens. -/
def numNext (ts : List (List Char × Token)) (k : Nat) : Nat :=
  match ts.drop k with
  | (_, Token.number _) :: _ => 1
  | _ => 0


/-- Successor of a control point in the walk over `docText es`. -/
def progNext (es : List JVal) : Prog → Prog
  | Prog.atStart => Prog.atScanning
  | Prog.atScanning => Prog.atColon
  | Prog.atColon => Prog.atArrayStart
  | Prog.atArrayStart => Prog.atElem [] es
  | Prog.atElem _ [] => Prog.atDone es
  | Prog.atElem done (e :: todo) => Prog.inElem done e todo 1
  | Prog.inElem done e todo k =>
    if k + 1 = (toks e).length then Prog.postElem done e todo
    else Prog.inElem done e todo (k + 1)
  | Prog.postElem _ _ [] => Prog.atDone es
  | Prog.postElem done e (t :: todo) => Prog.atElem (done ++ [e]) (t :: todo)
  | Prog.atDone _ => Prog.atDone es


/-- Number of buffered characters needed before the step at a control point
makes progress: one character beyond the next token's text (for numbers),
or exactly its text (for every other token); `atDone` never progresses. -/
def progNeed (es : List JVal) : Prog → Nat
  | Prog.atStart => 1
  | Prog.atScanning => 10
  | Prog.atColon => 11
  | Prog.atArrayStart => 12
  | Prog.atElem done _ => posAtElem done + 1
  | Prog.inElem done e _ k =>
    posAtElem done + tokPrefLen (toks e) (k + 1) + numNext (toks e) k
  | Prog.postElem done e _ => posAtElem done + (sval e).length + 1
  | Prog.atDone _ => (docText es).length + 1


/-! ## Lexer lemmas and claims C4, C7, C9, C10 -/

theorem readString_fail_pos {buffer : List Char} {pos q : Nat}
    (h : readString buffer pos = (none, q)) : q = pos := by
  unfold readString at h
  split at h <;>
    first
    | exact (congrArg Prod.snd h).symm
    | exact Option.noConfusion (congrArg Prod.fst h)

theorem readNumber_fail_pos {buffer : List Char} {pos q : Nat}
    (h : readNumber buffer pos = (none, q)) : q = pos := by
  unfold readNumber at h
  dsimp only at h
  repeat' split at h
  all_goals
    first
    | exact (congrArg Prod.snd h).symm
    | exact Option.noConfusion (congrArg Prod.fst h)

theorem nextTokenAt_fail_pos {buffer : List Char} {p q : Nat}
    (h : nextTokenAt buffer p = (none, q)) : q = p := by
  unfold nextTokenAt at h
  cases hh : (buffer.drop p).head? with
  | none =>
    rw [hh] at h
    exact (congrArg Prod.snd h).symm
  | some ch =>
    rw [hh] at h
    dsimp only at h
    by_cases c1 : ch = '\x7b'
    · rw [if_pos c1] at h
      exact Option.noConfusion (congrArg Prod.fst h)
    rw [if_neg c1] at h
    by_cases c2 : ch = '\x7d'
    · rw [if_pos c2] at h
      exact Option.noConfusion (congrArg Prod.fst h)
    rw [if_neg c2] at h
    by_cases c3 : ch = '['
    · rw [if_pos c3] at h
      exact Option.noConfusion (congrArg Prod.fst h)
    rw [if_neg c3] at h
    by_cases c4 : ch = ']'
    · rw [if_pos c4] at h
      exact Option.noConfusion (congrArg Prod.fst h)
    rw [if_neg c4] at h
    by_cases c5 : ch = ':'
    · rw [if_pos c5] at h
      exact Option.noConfusion (congrArg Prod.fst h)
    rw [if_neg c5] at h
    by_cases c6 : ch = ','
    · rw [if_pos c6] at h
      exact Option.noConfusion (congrArg Prod.fst h)
    rw [if_neg c6] at h
    by_cases c7 : ch = '\"'
    · rw [if_pos c7] at h
      exact readString_fail_pos h
    rw [if_neg c7] at h
    by_cases c8 : ch = '-' ∨ ('0' ≤ ch ∧ ch ≤ '9')
    · rw [if_pos c8] at h
      exact readNumber_fail_pos h
    rw [if_neg c8] at h
    by_cases c9 : startsWithAt buffer p "true".toList = true
    · rw [if_pos c9] at h
      exact Option.noConfusion (congrArg Prod.fst h)
    rw [if_neg c9] at h
    by_cases c10 : startsWithAt buffer p "false".toList = true
    · rw [if_pos c10] at h
      exact Option.noConfusion (congrArg Prod.fst h)
    rw [if_neg c10] at h
    by_cases c11 : startsWithAt buffer p "null".toList = true
    · rw [if_pos c11] at h
      exact Option.noConfusion (congrArg Prod.fst h)
    rw [if_neg c11] at h
    exact (congrArg Prod.snd h).symm

theorem nextToken_fail_pos {buffer : List Char} {pos q : Nat}
    (h : nextToken buffer pos = (none, q)) : q = skipWsPos buffer pos :=
  nextTokenAt_fail_pos h

theorem countWs_not_ws {c : Char} (rest : List Char) (h : isJsWs c = false) :
    countWs (c :: rest) = 0 := by
  simp [countWs, h]

theorem skipWsPos_not_ws {buffer : List Char} {pos : Nat} {c : Char}
    (hc : (buffer.drop pos).head? = some c) (h : isJsWs c = false) :
    skipWsPos buffer pos = pos := by
  unfold skipWsPos
  cases hd : buffer.drop pos with
  | nil => simp [hd] at hc
  | cons x r =>
    rw [hd] at hc
    cases hc
    simp [hd, countWs_not_ws r h]

/-- The verbatim branch of the `readString` loop. -/
theorem readStrAux_verbatim (x : Char) (l acc : List Char)
    (h1 : x ≠ '"') (h2 : x ≠ '\\') :
    readStrAux (x :: l) acc = readStrAux l (acc ++ [x]) := by
  rw [readStrAux.eq_def]
  split
  · rename_i heq
    exact absurd heq (by simp)
  · rename_i rest acc2 heq
    injection heq with hx _
    exact absurd hx h2
  · rename_i rest acc2 heq
    injection heq with hx _
    exact absurd hx h1
  · rename_i c2 rest acc2 hne1 hne2 heq
    injection heq with hx hl
    subst hx
    subst hl
    rfl

/-- Plain characters are copied verbatim. -/
theorem readStrAux_plain (s : List Char) : ∀ (acc rest : List Char),
    (∀ x ∈ s, plainStrChar x = true) →
    readStrAux (s ++ rest) acc = readStrAux rest (acc ++ s) := by
  induction s with
  | nil => intro acc rest _; simp
  | cons x s' ih =>
    intro acc rest h
    have hx : plainStrChar x = true := h x (by simp)
    have hs' : ∀ y ∈ s', plainStrChar y = true := fun y hy => h y (by simp [hy])
    unfold plainStrChar at hx
    simp only [Bool.and_eq_true, decide_eq_true_eq] at hx
    rw [List.cons_append, readStrAux_verbatim x (s' ++ rest) acc hx.1 hx.2, ih (acc ++ [x]) rest hs']
    simp

/-- The default branch of the escape `switch`: any escape character other
than the eight named ones is decoded to itself. -/
theorem readStrAux_default_escape (e : Char) (l acc : List Char)
    (h : e ∉ (['n', '"', '\\', 'b', 'f', 'r', 't', 'u'] : List Char)) :
    readStrAux ('\\' :: e :: l) acc = readStrAux l (acc ++ [e]) := by
  simp only [List.mem_cons, not_or] at h
  obtain ⟨h1, h2, h3, h4, h5, h6, h7, h8, -⟩ := h
  rw [readStrAux.eq_def]
  simp [h1, h2, h3, h4, h5, h6, h7, h8]

/-- C4, counterexample: on the buffer `" t"` (a space, then the first
character of a potential `true` literal) `nextToken` produces no token, yet
the cursor ends at 1, not at its starting value 0 — the whitespace skipped
by `skipWhitespace` is never restored. -/
theorem c4_counterexample_whitespace_not_restored :
    (nextToken (" t".toList) 0).1 = none ∧ (nextToken (" t".toList) 0).2 ≠ 0 := by
  decide

/-- C4 (amended): whenever `Lexer.nextToken` fails to produce a token, the
cursor ends exactly at the position reached after skipping the leading
whitespace run (`skipWsPos`), i.e. the attempt is atomic except for the
whitespace consumed by `skipWhitespace`; with no leading whitespace the
cursor is exactly its start value. -/
theorem c4_amended_failed_attempt_restores_cursor {buffer : List Char}
    {pos q : Nat} (h : nextToken buffer pos = (none, q)) :
    q = skipWsPos buffer pos :=
  nextToken_fail_pos h

theorem c4_witness :
    nextToken ("12".toList) 0 = (none, 0) ∧ (0 : Nat) = skipWsPos ("12".toList) 0 :=
  ⟨by decide, c4_amended_failed_attempt_restores_cursor (by decide)⟩

/-- C10: for every character `c` other than `n`, `"`, `\`, `b`, `f`, `r`,
`t`, `u`, the lexer decodes the two-character escape `\c` inside a string to
the single character `c` and accepts the string: surrounded by arbitrary
verbatim characters, the whole literal lexes to a string token whose decoded
value keeps `c` in place, consuming the entire literal. -/
theorem c10_default_escape_decodes_to_itself (c : Char) (s1 s2 : List Char)
    (hc : c ∉ (['n', '"', '\\', 'b', 'f', 'r', 't', 'u'] : List Char))
    (h1 : ∀ x ∈ s1, plainStrChar x = true) (h2 : ∀ x ∈ s2, plainStrChar x = true) :
    nextToken ('"' :: s1 ++ '\\' :: c :: s2 ++ ['"']) 0 =
      (some (Token.string (s1 ++ c :: s2)), s1.length + s2.length + 4) := by
  have hhead : (('"' :: s1 ++ '\\' :: c :: s2 ++ ['"']).drop 0).head? = some '"' := by
    simp
  have hws := skipWsPos_not_ws hhead (by decide)
  have hstr : readStrAux (s1 ++ '\\' :: c :: (s2 ++ ['"'])) [] =
      some (s1 ++ c :: s2, []) := by
    rw [readStrAux_plain s1 [] ('\\' :: c :: (s2 ++ ['"'])) h1]
    rw [readStrAux_default_escape c (s2 ++ ['"']) ([] ++ s1) hc]
    rw [readStrAux_plain s2 (([] ++ s1) ++ [c]) ['"'] h2]
    rw [show ∀ acc, readStrAux ['"'] acc = some (acc, []) from fun _ => rfl]
    simp
  unfold nextToken
  rw [hws]
  unfold nextTokenAt
  simp only [List.cons_append, List.drop_zero, List.head?_cons]
  rw [if_neg (by decide : ¬('"' = '\x7b')), if_neg (by decide : ¬('"' = '\x7d')),
    if_neg (by decide : ¬('"' = '[')), if_neg (by decide : ¬('"' = ']')),
    if_neg (by decide : ¬('"' = ':')), if_neg (by decide : ¬('"' = ',')),
    if_pos trivial]
  unfold readString
  simp only [List.append_assoc, List.cons_append, List.drop_succ_cons, List.drop_zero]
  rw [hstr]
  simp only [List.length_nil, Nat.sub_zero, Prod.mk.injEq]
  refine ⟨trivial, ?_⟩
  simp only [List.length_cons, List.length_append, List.length_nil]
  omega

theorem spanDigits_append (l : List Char) :
    (spanDigits l).1 ++ (spanDigits l).2 = l := by
  induction l with
  | nil => rfl
  | cons c rest ih =>
    unfold spanDigits
    by_cases h : '0' ≤ c ∧ c ≤ '9'
    · simp [h, ih]
    · simp [h]

theorem spanDigits_digits (l : List Char) :
    ∀ c ∈ (spanDigits l).1, isDigitCh c = true := by
  induction l with
  | nil => intro c hc; simp [spanDigits] at hc
  | cons x rest ih =>
    intro c hc
    unfold spanDigits at hc
    by_cases h : '0' ≤ x ∧ x ≤ '9'
    · simp [h] at hc
      cases hc with
      | inl he => subst he; simpa [isDigitCh] using h
      | inr hm => exact ih c hm
    · simp [h] at hc

theorem spanDigits_head (l : List Char) :
    ∀ c r, (spanDigits l).2 = c :: r → isDigitCh c = false := by
  induction l with
  | nil => intro c r h; simp [spanDigits] at h
  | cons x rest ih =>
    intro c r h
    unfold spanDigits at h
    by_cases hx : '0' ≤ x ∧ x ≤ '9'
    · simp [hx] at h
      exact ih c r h
    · simp [hx] at h
      obtain ⟨h1, -⟩ := h
      subst h1
      simpa [isDigitCh] using hx

/-- One digit consumed by the `readNumber` loop. -/
theorem readNumAux_digit_step (d : Char) (l : List Char) (hd hdec hexp : Bool)
    (h : '0' ≤ d ∧ d ≤ '9') :
    readNumAux (d :: l) hd hdec hexp =
      ((readNumAux l true hdec hexp).1 + 1, (readNumAux l true hdec hexp).2) := by
  conv_lhs => rw [readNumAux.eq_def]
  simp [h]

/-- The digit branch of the `readNumber` loop, iterated over a digit run. -/
theorem readNumAux_digits (ds : List Char) : ∀ (rest : List Char) (hd hdec hexp : Bool),
    (∀ c ∈ ds, isDigitCh c = true) →
    readNumAux (ds ++ rest) hd hdec hexp =
      ((readNumAux rest (if ds.isEmpty then hd else true) hdec hexp).1 + ds.length,
        (readNumAux rest (if ds.isEmpty then hd else true) hdec hexp).2) := by
  induction ds with
  | nil => intro rest hd hdec hexp _; simp
  | cons d ds' ih =>
    intro rest hd hdec hexp h
    have hd1 : '0' ≤ d ∧ d ≤ '9' := by
      have := h d (by simp)
      simpa [isDigitCh] using this
    have hds' : ∀ c ∈ ds', isDigitCh c = true := fun c hc => h c (by simp [hc])
    rw [List.cons_append, readNumAux_digit_step d (ds' ++ rest) hd hdec hexp hd1,
      ih rest true hdec hexp hds']
    simp only [ite_self, List.isEmpty_cons, Bool.false_eq_true, if_false,
      List.length_cons, Prod.mk.injEq]
    exact ⟨by omega, trivial⟩

/-- The loop stops at a character that can extend no number. -/
theorem readNumAux_break (c : Char) (rest : List Char) (hd hdec hexp : Bool)
    (h1 : isDigitCh c = false) (h2 : c ≠ '.') (h3 : c ≠ 'e') (h4 : c ≠ 'E') :
    readNumAux (c :: rest) hd hdec hexp = (0, hd) := by
  have h1' : ¬('0' ≤ c ∧ c ≤ '9') := by simpa [isDigitCh] using h1
  conv_lhs => rw [readNumAux.eq_def]
  simp [h1', h2, h3, h4]

/-- The decimal-point branch. -/
theorem readNumAux_dot_step (rest : List Char) (hd : Bool) :
    readNumAux ('.' :: rest) hd false false =
      ((readNumAux rest hd true false).1 + 1, (readNumAux rest hd true false).2) := by
  conv_lhs => rw [readNumAux.eq_def]
  simp [show ¬('0' ≤ '.' ∧ ('.' : Char) ≤ '9') from by decide]

/-- The exponent branch when the next character carries a sign. -/
theorem readNumAux_exp_step_sign (e s : Char) (rest2 : List Char) (hdec : Bool)
    (he : e = 'e' ∨ e = 'E') (hs : s = '+' ∨ s = '-') :
    readNumAux (e :: s :: rest2) true hdec false =
      ((readNumAux rest2 false hdec true).1 + 2, (readNumAux rest2 false hdec true).2) := by
  have h1 : ¬('0' ≤ e ∧ e ≤ '9') := by rcases he with rfl | rfl <;> decide
  have h2 : e ≠ '.' := by rcases he with rfl | rfl <;> decide
  conv_lhs => rw [readNumAux.eq_def]
  simp [h1, h2, he, hs]

/-- The exponent branch when the next character carries no sign. -/
theorem readNumAux_exp_step_nosign (e s : Char) (rest2 : List Char) (hdec : Bool)
    (he : e = 'e' ∨ e = 'E') (hs : ¬(s = '+' ∨ s = '-')) :
    readNumAux (e :: s :: rest2) true hdec false =
      ((readNumAux (s :: rest2) false hdec true).1 + 1,
        (readNumAux (s :: rest2) false hdec true).2) := by
  have h1 : ¬('0' ≤ e ∧ e ≤ '9') := by rcases he with rfl | rfl <;> decide
  have h2 : e ≠ '.' := by rcases he with rfl | rfl <;> decide
  conv_lhs => rw [readNumAux.eq_def]
  simp [h1, h2, he, hs]

/-- The exponent part in full: `e`/`E`, an optional sign, then a digit run,
followed by the end of the input or a breaking character. -/
theorem readNumAux_exp (e : Char) (sign ds rest : List Char) (hdec : Bool)
    (he : e = 'e' ∨ e = 'E')
    (hs : sign = [] ∨ sign = ['+'] ∨ sign = ['-'])
    (hds : ds ≠ []) (hdig : ∀ c ∈ ds, isDigitCh c = true)
    (hrest : rest = [] ∨ ∃ c r, rest = c :: r ∧ isDigitCh c = false ∧
      c ≠ '.' ∧ c ≠ 'e' ∧ c ≠ 'E') :
    readNumAux (e :: (sign ++ ds ++ rest)) true hdec false =
      (1 + sign.length + ds.length, true) := by
  have htail : ∀ (hd0 : Bool), readNumAux (ds ++ rest) hd0 hdec true = (ds.length, true) := by
    intro hd0
    rw [readNumAux_digits ds rest hd0 hdec true hdig]
    have hflag : (if ds.isEmpty then hd0 else true) = true := by
      cases ds with
      | nil => exact absurd rfl hds
      | cons a b => simp
    rw [hflag]
    rcases hrest with h | ⟨c, r, hr, hc1, hc2, hc3, hc4⟩
    · subst h
      rw [show readNumAux [] true hdec true = (0, true) from rfl]
      simp
    · subst hr
      rw [readNumAux_break c r true hdec true hc1 hc2 hc3 hc4]
      simp
  rcases hs with h | h | h <;> subst h
  · cases hde : ds with
    | nil => exact absurd hde hds
    | cons d dtl =>
      subst hde
      have hd1 : '0' ≤ d ∧ d ≤ '9' := by
        have := hdig d (by simp)
        simpa [isDigitCh] using this
      have hnsign : ¬(d = '+' ∨ d = '-') := by
        rcases hd1 with ⟨ha, -⟩
        rintro (rfl | rfl) <;> exact absurd ha (by decide)
      rw [show ([] : List Char) ++ (d :: dtl) ++ rest = d :: (dtl ++ rest) by simp]
      rw [readNumAux_exp_step_nosign e d (dtl ++ rest) hdec he hnsign]
      rw [show d :: (dtl ++ rest) = (d :: dtl) ++ rest from rfl, htail false]
      simp only [List.length_nil, List.length_cons, Prod.mk.injEq]
      exact ⟨by omega, trivial⟩
  · rw [show (['+'] : List Char) ++ ds ++ rest = '+' :: (ds ++ rest) by simp]
    rw [readNumAux_exp_step_sign e '+' (ds ++ rest) hdec he (Or.inl rfl), htail false]
    simp only [List.length_cons, List.length_nil, Prod.mk.injEq]
    exact ⟨by omega, trivial⟩
  · rw [show (['-'] : List Char) ++ ds ++ rest = '-' :: (ds ++ rest) by simp]
    rw [readNumAux_exp_step_sign e '-' (ds ++ rest) hdec he (Or.inr rfl), htail false]
    simp only [List.length_cons, List.length_nil, Prod.mk.injEq]
    exact ⟨by omega, trivial⟩

theorem digit_ne_char {c : Char} (h : isDigitCh c = true) (x : Char)
    (hx : x.toNat < 48 ∨ 57 < x.toNat) : ¬(c = x) := by
  intro he
  subst he
  unfold isDigitCh at h
  simp only [decide_eq_true_eq] at h
  have h1 : (48 : Nat) ≤ c.toNat := h.1
  have h2 : c.toNat ≤ 57 := h.2
  omega

theorem isJsWs_of_digit {c : Char} (h : isDigitCh c = true) : isJsWs c = false := by
  unfold isDigitCh at h
  simp only [decide_eq_true_eq] at h
  have h1 : (48 : Nat) ≤ c.toNat := h.1
  have h2 : c.toNat ≤ 57 := h.2
  unfold isJsWs
  refine decide_eq_false ?_
  intro hP
  rcases hP with h | h | h | h | h | h | h | h | ⟨ha, hb⟩ | h | h | h | h | h | h
  all_goals try (subst h; revert h1 h2; decide)
  have ha' : (8192 : Nat) ≤ c.toNat := ha
  omega

/-- Dispatch of `nextToken` on `-` or a digit: `readNumber` is called. -/
theorem nextTokenAt_num (buffer : List Char) (p : Nat) (d : Char)
    (hh : (buffer.drop p).head? = some d) (hd : d = '-' ∨ isDigitCh d = true) :
    nextTokenAt buffer p = readNumber buffer p := by
  unfold nextTokenAt
  rw [hh]
  dsimp only
  rcases hd with rfl | hdig
  · rw [if_neg (by decide), if_neg (by decide), if_neg (by decide), if_neg (by decide),
      if_neg (by decide), if_neg (by decide), if_neg (by decide),
      if_pos (Or.inl rfl)]
  · have hdig' : '0' ≤ d ∧ d ≤ '9' := by
      unfold isDigitCh at hdig
      simpa using hdig
    rw [if_neg (digit_ne_char hdig '\x7b' (by decide)),
      if_neg (digit_ne_char hdig '\x7d' (by decide)),
      if_neg (digit_ne_char hdig '[' (by decide)),
      if_neg (digit_ne_char hdig ']' (by decide)),
      if_neg (digit_ne_char hdig ':' (by decide)),
      if_neg (digit_ne_char hdig ',' (by decide)),
      if_neg (digit_ne_char hdig '"' (by decide)),
      if_pos (Or.inr hdig')]

theorem wfExpPart_inv (r : List Char) (h : wfExpPart r = true) :
    r = [] ∨ ∃ e sign ds, (e = 'e' ∨ e = 'E') ∧
      (sign = [] ∨ sign = ['+'] ∨ sign = ['-']) ∧ ds ≠ [] ∧
      (∀ c ∈ ds, isDigitCh c = true) ∧ r = e :: (sign ++ ds) := by
  cases r with
  | nil => exact Or.inl rfl
  | cons c rest =>
    right
    unfold wfExpPart at h
    dsimp only at h
    by_cases hc : c = 'e' ∨ c = 'E'
    · rw [if_pos hc] at h
      cases rest with
      | nil =>
        simp [spanDigits] at h
      | cons s r2 =>
        dsimp only at h
        by_cases hs : s = '+' ∨ s = '-'
        · rw [if_pos hs] at h
          rw [Bool.and_eq_true] at h
          obtain ⟨hne, hemp⟩ := h
          refine ⟨c, [s], (spanDigits r2).1, hc, ?_, ?_, spanDigits_digits r2, ?_⟩
          · rcases hs with rfl | rfl
            · exact Or.inr (Or.inl rfl)
            · exact Or.inr (Or.inr rfl)
          · intro hx
            rw [hx] at hne
            simp at hne
          · have := spanDigits_append r2
            have h2 : (spanDigits r2).2 = [] := by
              simpa using hemp
            rw [h2, List.append_nil] at this
            simp [this]
        · rw [if_neg hs] at h
          rw [Bool.and_eq_true] at h
          obtain ⟨hne, hemp⟩ := h
          refine ⟨c, [], (spanDigits (s :: r2)).1, hc, Or.inl rfl, ?_,
            spanDigits_digits (s :: r2), ?_⟩
          · intro hx
            rw [hx] at hne
            simp at hne
          · have := spanDigits_append (s :: r2)
            have h2 : (spanDigits (s :: r2)).2 = [] := by
              simpa using hemp
            rw [h2, List.append_nil] at this
            simp [this]
    · rw [if_neg hc] at h
      exact absurd h (by simp)

/-- Structural inversion of the claim's numeric-run grammar. -/
theorem claimNumRun_inv (run : List Char) (h : claimNumRun run = true) :
    ∃ m1 frac ex, run = m1 ++ frac ++ ex ∧ m1 ≠ [] ∧
      (∀ c ∈ m1, isDigitCh c = true) ∧
      (frac = [] ∨ ∃ f1, frac = '.' :: f1 ∧ ∀ c ∈ f1, isDigitCh c = true) ∧
      ExpShape ex := by
  unfold claimNumRun at h
  dsimp only at h
  rw [Bool.and_eq_true] at h
  obtain ⟨h1, h2⟩ := h
  have hne1 : (spanDigits run).1 ≠ [] := by
    intro hx
    rw [hx] at h1
    simp at h1
  have hsplit := spanDigits_append run
  have hdig1 := spanDigits_digits run
  cases hm2 : (spanDigits run).2 with
  | nil =>
    refine ⟨(spanDigits run).1, [], [], ?_, hne1, hdig1, Or.inl rfl, Or.inl rfl⟩
    conv_lhs => rw [← hsplit]; rw [hm2]
    simp
  | cons x r2 =>
    rw [hm2] at h2
    by_cases hx : x = '.'
    · subst hx
      have hwf : wfExpPart (spanDigits r2).2 = true := h2
      have hsplit2 := spanDigits_append r2
      have hdig2 := spanDigits_digits r2
      refine ⟨(spanDigits run).1, '.' :: (spanDigits r2).1, (spanDigits r2).2, ?_, hne1,
        hdig1, Or.inr ⟨(spanDigits r2).1, rfl, hdig2⟩, wfExpPart_inv _ hwf⟩
      conv_lhs => rw [← hsplit]; rw [hm2]; rw [← hsplit2]
      simp
    · have hwf : wfExpPart (x :: r2) = true := by
        split at h2
        · rename_i heq
          injection heq with hxeq
          exact absurd hxeq hx
        · exact h2
      rcases wfExpPart_inv (x :: r2) hwf with hnil | hshape
      · exact absurd hnil (by simp)
      · refine ⟨(spanDigits run).1, [], x :: r2, ?_, hne1, hdig1, Or.inl rfl, Or.inr hshape⟩
        conv_lhs => rw [← hsplit]; rw [hm2]
        simp

theorem readNumAux_break_suffix (rest : List Char) (hd0 hdec0 hexp0 : Bool)
    (h : BreakSuffix rest) : readNumAux rest hd0 hdec0 hexp0 = (0, hd0) := by
  rcases h with h | ⟨c, r, hr, hc1, hc2, hc3, hc4⟩
  · subst h; rfl
  · subst hr; exact readNumAux_break c r hd0 hdec0 hexp0 hc1 hc2 hc3 hc4

theorem nonempty_digit_flag (m1 : List Char) (hm1 : m1 ≠ []) (b : Bool) :
    (if m1.isEmpty then b else true) = true := by
  cases m1 with
  | nil => exact absurd rfl hm1
  | cons a l => simp

/-- The `readNumber` loop consumes a full claim-grammar run and stops at a
breaking suffix, with `hasDigit` set. -/
theorem readNumAux_run (m1 frac ex rest : List Char)
    (hm1 : m1 ≠ []) (hd1 : ∀ c ∈ m1, isDigitCh c = true)
    (hfrac : frac = [] ∨ ∃ f1, frac = '.' :: f1 ∧ ∀ c ∈ f1, isDigitCh c = true)
    (hex : ExpShape ex) (hrest : BreakSuffix rest) :
    readNumAux ((m1 ++ frac ++ ex) ++ rest) false false false =
      ((m1 ++ frac ++ ex).length, true) := by
  rcases hfrac with rfl | ⟨f1, rfl, hdf⟩
  · rcases hex with rfl | ⟨e, sign, ds, he, hsgn, hds, hdig, rfl⟩
    · rw [show (m1 ++ [] ++ []) ++ rest = m1 ++ rest by simp]
      rw [readNumAux_digits m1 rest false false false hd1,
        nonempty_digit_flag m1 hm1 false,
        readNumAux_break_suffix rest true false false hrest]
      simp
    · rw [show (m1 ++ [] ++ (e :: (sign ++ ds))) ++ rest =
        m1 ++ (e :: (sign ++ ds ++ rest)) by simp]
      rw [readNumAux_digits m1 _ false false false hd1,
        nonempty_digit_flag m1 hm1 false,
        readNumAux_exp e sign ds rest false he hsgn hds hdig hrest]
      simp only [Prod.mk.injEq, List.length_append, List.length_cons, List.length_nil]
      exact ⟨by omega, trivial⟩
  · rcases hex with rfl | ⟨e, sign, ds, he, hsgn, hds, hdig, rfl⟩
    · rw [show (m1 ++ ('.' :: f1) ++ []) ++ rest = m1 ++ '.' :: (f1 ++ rest) by simp]
      rw [readNumAux_digits m1 _ false false false hd1,
        nonempty_digit_flag m1 hm1 false,
        readNumAux_dot_step _ true,
        readNumAux_digits f1 rest true true false hdf, ite_self,
        readNumAux_break_suffix rest true true false hrest]
      simp only [Prod.mk.injEq, List.length_append, List.length_cons, List.length_nil]
      exact ⟨by omega, trivial⟩
    · rw [show (m1 ++ ('.' :: f1) ++ (e :: (sign ++ ds))) ++ rest =
        m1 ++ '.' :: (f1 ++ (e :: (sign ++ ds ++ rest))) by simp]
      rw [readNumAux_digits m1 _ false false false hd1,
        nonempty_digit_flag m1 hm1 false,
        readNumAux_dot_step _ true,
        readNumAux_digits f1 _ true true false hdf, ite_self,
        readNumAux_exp e sign ds rest true he hsgn hds hdig hrest]
      simp only [Prod.mk.injEq, List.length_append, List.length_cons, List.length_nil]
      exact ⟨by omega, trivial⟩

theorem readNumAux_claimRun (run rest : List Char) (h : claimNumRun run = true)
    (hrest : BreakSuffix rest) :
    readNumAux (run ++ rest) false false false = (run.length, true) := by
  obtain ⟨m1, frac, ex, hrun, hm1, hd1, hfrac, hex⟩ := claimNumRun_inv run h
  subst hrun
  exact readNumAux_run m1 frac ex rest hm1 hd1 hfrac hex hrest

theorem spanDigits_exact (ds : List Char) : ∀ (rest : List Char),
    (∀ c ∈ ds, isDigitCh c = true) →
    (rest.head? = none ∨ ∃ c, rest.head? = some c ∧ isDigitCh c = false) →
    spanDigits (ds ++ rest) = (ds, rest) := by
  induction ds with
  | nil =>
    intro rest _ hrest
    rcases hrest with h | ⟨c, hc, hdc⟩
    · cases rest with
      | nil => rfl
      | cons a l => simp at h
    · cases rest with
      | nil => simp at hc
      | cons a l =>
        simp only [List.head?_cons, Option.some.injEq] at hc
        subst hc
        have : ¬('0' ≤ a ∧ a ≤ '9') := by simpa [isDigitCh] using hdc
        unfold spanDigits
        simp [this]
  | cons d dl ih =>
    intro rest hd hrest
    have hdd : '0' ≤ d ∧ d ≤ '9' := by
      have := hd d (by simp)
      simpa [isDigitCh] using this
    have hdl : ∀ c ∈ dl, isDigitCh c = true := fun c hc => hd c (by simp [hc])
    rw [List.cons_append]
    unfold spanDigits
    simp only [hdd, and_self, if_true, ih rest hdl hrest]

theorem not_isEmpty_of_ne_nil {α : Type} {l : List α} (h : l ≠ []) :
    l.isEmpty = false := by
  cases l with
  | nil => exact absurd rfl h
  | cons a b => rfl

theorem wfExpPart_of_shape (ex : List Char) (h : ExpShape ex) : wfExpPart ex = true := by
  rcases h with rfl | ⟨e, sign, ds, he, hsgn, hds, hdig, rfl⟩
  · rfl
  · have hspan : spanDigits ds = (ds, []) := by
      have := spanDigits_exact ds [] hdig (Or.inl rfl)
      simpa using this
    unfold wfExpPart
    dsimp only
    rw [if_pos he]
    rcases hsgn with rfl | rfl | rfl
    · cases hde : ds with
      | nil => exact absurd hde hds
      | cons d dtl =>
        have hnsign : ¬(d = '+' ∨ d = '-') := by
          have hdd := hdig d (by simp [hde])
          rintro (rfl | rfl) <;> simp [isDigitCh] at hdd
        subst hde
        simp only [List.nil_append]
        rw [if_neg hnsign, hspan]
        simp
    · simp only [List.cons_append, List.nil_append]
      rw [if_pos (Or.inl trivial), hspan]
      simp [not_isEmpty_of_ne_nil hds]
    · simp only [List.cons_append, List.nil_append]
      rw [if_pos (Or.inr trivial), hspan]
      simp [not_isEmpty_of_ne_nil hds]

theorem claimNumRun_jsNumberWf (run : List Char) (h : claimNumRun run = true) :
    jsNumberWf run = true := by
  obtain ⟨m1, frac, ex, hrun, hm1, hd1, hfrac, hex⟩ := claimNumRun_inv run h
  subst hrun
  have hm1e : m1.isEmpty = false := by
    cases m1 with
    | nil => exact absurd rfl hm1
    | cons a l => rfl
  have hexhead : ex.head? = none ∨ ∃ c, ex.head? = some c ∧ isDigitCh c = false := by
    rcases hex with rfl | ⟨e, sign, ds, he, hsgn, hds, hdig, rfl⟩
    · exact Or.inl rfl
    · refine Or.inr ⟨e, by simp, ?_⟩
      rcases he with rfl | rfl <;> rfl
  rcases hfrac with rfl | ⟨f1, rfl, hdf⟩
  · have hspan : spanDigits (m1 ++ ([] ++ ex)) = (m1, ex) := by
      have := spanDigits_exact m1 ex hd1 hexhead
      simpa using this
    unfold jsNumberWf
    dsimp only
    rw [show m1 ++ [] ++ ex = m1 ++ ([] ++ ex) by simp, hspan]
    dsimp only
    rcases hex with rfl | ⟨e, sign, ds, he, hsgn, hds, hdig, hshape⟩
    · simp [hm1e, show wfExpPart [] = true from rfl]
    · subst hshape
      have hwf := wfExpPart_of_shape _ (Or.inr ⟨e, sign, ds, he, hsgn, hds, hdig, rfl⟩)
      rcases he with rfl | rfl <;> simp [hm1e, hwf]
  · have hfhead : ('.' :: (f1 ++ ex)).head? = some '.' := rfl
    have hspan : spanDigits (m1 ++ ('.' :: (f1 ++ ex))) = (m1, '.' :: (f1 ++ ex)) := by
      exact spanDigits_exact m1 _ hd1 (Or.inr ⟨'.', hfhead, by rfl⟩)
    unfold jsNumberWf
    dsimp only
    rw [show m1 ++ ('.' :: f1) ++ ex = m1 ++ ('.' :: (f1 ++ ex)) by simp, hspan]
    have hspan2 : spanDigits (f1 ++ ex) = (f1, ex) := spanDigits_exact f1 ex hdf hexhead
    have hwf := wfExpPart_of_shape ex hex
    simp [hm1e, hspan2, hwf]

theorem readNumAux_claimRun_nil (run : List Char) (h : claimNumRun run = true) :
    readNumAux run false false false = (run.length, true) := by
  have := readNumAux_claimRun run [] h (Or.inl rfl)
  simpa using this

theorem claimRun_head_digit (run : List Char) (h : claimNumRun run = true) :
    ∃ d dl, run = d :: dl ∧ isDigitCh d = true := by
  obtain ⟨m1, frac, ex, hrun', hm1, hd1, -, -⟩ := claimNumRun_inv run h
  cases hm : m1 with
  | nil => exact absurd hm hm1
  | cons d ml =>
    refine ⟨d, ml ++ frac ++ ex, ?_, hd1 d (by simp [hm])⟩
    rw [hrun', hm]
    simp

theorem nextTokenAt_claimRun_end (run : List Char) (hrun : claimNumRun run = true)
    (buffer : List Char) (pos : Nat) (hdrop : buffer.drop pos = run) :
    nextTokenAt buffer pos = (none, pos) := by
  obtain ⟨d, dl, hshape, hd⟩ := claimRun_head_digit run hrun
  have hh : (buffer.drop pos).head? = some d := by
    rw [hdrop, hshape]; rfl
  have hlt : pos < buffer.length := by
    by_contra hge
    have : buffer.drop pos = [] := List.drop_eq_nil_of_le (by omega)
    rw [hdrop, hshape] at this
    exact absurd this (by simp)
  have hlen : buffer.length - pos = run.length := by
    have := congrArg List.length hdrop
    simpa [List.length_drop] using this
  rw [nextTokenAt_num buffer pos d hh (Or.inr hd)]
  unfold readNumber
  dsimp only
  rw [hdrop, readNumAux_claimRun_nil run hrun]
  rw [if_pos (show pos + ((run.length, true) : Nat × Bool).1 = buffer.length from by
    show pos + run.length = buffer.length
    omega)]

theorem nextTokenAt_claimRun_brk (run : List Char) (hrun : claimNumRun run = true)
    (buffer : List Char) (pos : Nat) (c : Char) (rest : List Char)
    (hdrop : buffer.drop pos = run ++ c :: rest) (hc1 : isDigitCh c = false)
    (hc2 : c ≠ '.') (hc3 : c ≠ 'e') (hc4 : c ≠ 'E') :
    nextTokenAt buffer pos = (some (Token.number run), pos + run.length) := by
  obtain ⟨d, dl, hshape, hd⟩ := claimRun_head_digit run hrun
  have hbrk : BreakSuffix (c :: rest) := Or.inr ⟨c, rest, rfl, hc1, hc2, hc3, hc4⟩
  have hstep : readNumAux (run ++ c :: rest) false false false = (run.length, true) :=
    readNumAux_claimRun run (c :: rest) hrun hbrk
  have hh : (buffer.drop pos).head? = some d := by
    rw [hdrop, hshape]; rfl
  have hlt : pos < buffer.length := by
    by_contra hge
    have : buffer.drop pos = [] := List.drop_eq_nil_of_le (by omega)
    rw [hdrop, hshape] at this
    exact absurd this (by simp)
  have hlen : buffer.length - pos = run.length + rest.length + 1 := by
    have := congrArg List.length hdrop
    simp [List.length_drop, List.length_append] at this
    omega
  rw [nextTokenAt_num buffer pos d hh (Or.inr hd)]
  unfold readNumber
  dsimp only
  rw [hdrop, hstep]
  dsimp only
  rw [if_neg (by omega), if_neg (by simp)]
  have htake : (run ++ c :: rest).take run.length = run := by simp
  rw [htake, if_neg (by simp [claimNumRun_jsNumberWf run hrun])]

/-- C7, counterexample: the claim includes runs with an optional leading
minus, but `readNumber`'s loop has no branch for `-`: on the buffer `-5,`
(a complete numeric run followed by a terminator) no token is produced at
all — the code never consumes the minus, so `hasDigit` stays false and the
attempt fails — where the claim promises a number token. -/
theorem c7_counterexample_minus_run_rejected :
    nextToken ("-5,".toList) 0 = (none, 0) := by decide

/-- C7 (amended, minus dropped): for every *non-negative* numeric run of the
claim's grammar (digits, at most one decimal point, optional exponent), a
buffer whose content from the cursor onward is exactly the run makes
`nextToken` produce no token with the cursor restored, while the same run
followed by a character that extends no number yields a number token whose
lexeme is exactly the run. -/
theorem c7_amended_number_ends_at_buffer_end (run : List Char)
    (hrun : claimNumRun run = true) :
    (∀ (buffer : List Char) (pos : Nat), buffer.drop pos = run →
      nextToken buffer pos = (none, pos)) ∧
    (∀ (buffer : List Char) (pos : Nat) (c : Char) (rest : List Char),
      buffer.drop pos = run ++ c :: rest → isDigitCh c = false →
      c ≠ '.' → c ≠ 'e' → c ≠ 'E' →
      nextToken buffer pos = (some (Token.number run), pos + run.length)) := by
  obtain ⟨d, dl, hshape, hd⟩ := claimRun_head_digit run hrun
  constructor
  · intro buffer pos hdrop
    have hh : (buffer.drop pos).head? = some d := by
      rw [hdrop, hshape]; rfl
    unfold nextToken
    rw [skipWsPos_not_ws hh (isJsWs_of_digit hd)]
    exact nextTokenAt_claimRun_end run hrun buffer pos hdrop
  · intro buffer pos c rest hdrop hc1 hc2 hc3 hc4
    have hh : (buffer.drop pos).head? = some d := by
      rw [hdrop, hshape]; rfl
    unfold nextToken
    rw [skipWsPos_not_ws hh (isJsWs_of_digit hd)]
    exact nextTokenAt_claimRun_brk run hrun buffer pos c rest hdrop hc1 hc2 hc3 hc4

/-- Witness for C7 (amended): the run `12` alone in the buffer yields no
token with cursor untouched, while `12,` yields the number token `12`. -/
theorem c7_witness :
    claimNumRun ("12".toList) = true ∧
    nextToken ("12".toList) 0 = (none, 0) ∧
    nextToken ("12,".toList) 0 = (some (Token.number ("12".toList)), 0 + ("12".toList).length) :=
  ⟨by decide,
   (c7_amended_number_ends_at_buffer_end ("12".toList) (by decide)).1 ("12".toList) 0 (by decide),
   (c7_amended_number_ends_at_buffer_end ("12".toList) (by decide)).2 ("12,".toList) 0 ',' []
     (by decide) (by decide) (by decide) (by decide) (by decide)⟩

theorem countWs_ws_append (ws rest : List Char)
    (h : ∀ c ∈ ws, isJsWs c = true) :
    countWs (ws ++ rest) = ws.length + countWs rest := by
  induction ws with
  | nil => simp
  | cons c t ih =>
    have hc : isJsWs c = true := h c (List.mem_cons_self c t)
    have ht : ∀ x ∈ t, isJsWs x = true := fun x hx => h x (List.mem_cons_of_mem c hx)
    simp [countWs, hc, ih ht]
    omega

theorem readNumAux_minus (l : List Char) :
    readNumAux ('-' :: l) false false false = (0, false) := by
  unfold readNumAux
  rw [if_neg (by decide), if_neg (by decide), if_neg (by decide)]

theorem nextTokenAt_minus (buffer : List Char) (pos : Nat) (l : List Char)
    (hdrop : buffer.drop pos = '-' :: l) :
    nextTokenAt buffer pos = (none, pos) := by
  have hh : (buffer.drop pos).head? = some '-' := by rw [hdrop]; rfl
  rw [nextTokenAt_num buffer pos '-' hh (Or.inl rfl)]
  unfold readNumber
  dsimp only
  rw [hdrop, readNumAux_minus]
  simp

theorem parseP_value_none (fuel : Nat) (buffer : List Char) (pos q : Nat)
    (h : nextToken buffer pos = (none, q)) :
    parseP (fuel + 1) PCallP.value buffer pos = (none, q) := by
  simp only [parseP, nextSigP, h]

/-- C9: the one-shot parser rejects every input that is a bare JSON number
literal, optionally preceded by whitespace — `readNumber` treats a numeric
run that reaches the end of the buffer as incomplete and yields no token
(and a leading minus is never even consumed), so `Parser.parse`'s very first
token read fails and it throws. -/
theorem c9_bare_number_input_rejected (ws lit : List Char)
    (hws : ∀ c ∈ ws, isJsWs c = true) (hlit : numberLit lit) :
    parseOneShot (ws ++ lit) = none := by
  have hnt : nextToken (ws ++ lit) 0 = (none, ws.length) := by
    rcases hlit with hrun | ⟨r, rfl, hrun⟩
    · obtain ⟨d, dl, hshape, hd⟩ := claimRun_head_digit lit hrun
      have hcount : countWs (ws ++ lit) = ws.length := by
        rw [countWs_ws_append ws lit hws, hshape,
          countWs_not_ws dl (isJsWs_of_digit hd)]
        omega
      have hskip : skipWsPos (ws ++ lit) 0 = ws.length := by
        unfold skipWsPos
        simp [hcount]
      unfold nextToken
      rw [hskip]
      exact nextTokenAt_claimRun_end lit hrun (ws ++ lit) ws.length (by simp)
    · have hcount : countWs (ws ++ '-' :: r) = ws.length := by
        rw [countWs_ws_append ws _ hws, countWs_not_ws r (by decide)]
        omega
      have hskip : skipWsPos (ws ++ '-' :: r) 0 = ws.length := by
        unfold skipWsPos
        simp [hcount]
      unfold nextToken
      rw [hskip]
      exact nextTokenAt_minus (ws ++ '-' :: r) ws.length r (by simp)
  unfold parseOneShot
  rw [show 2 * (ws ++ lit).length + 2 = (2 * (ws ++ lit).length + 1) + 1 from rfl,
    parseP_value_none (2 * (ws ++ lit).length + 1) (ws ++ lit) 0 ws.length hnt]

/-- Witness for C9: the input ` 123` (whitespace then a bare number) is
rejected by the one-shot parser. -/
theorem c9_witness :
    (∀ c ∈ (" ".toList), isJsWs c = true) ∧ numberLit ("123".toList) ∧
    parseOneShot (" ".toList ++ "123".toList) = none :=
  ⟨by decide, Or.inl (by decide),
   c9_bare_number_input_rejected (" ".toList) ("123".toList) (by decide)
     (Or.inl (by decide))⟩

/-- Witness for C10: the non-standard escape `\/` (slash) inside the string
`"a\/b"` decodes to the single character `/`. -/
theorem c10_witness :
    ('/' : Char) ∉ (['n', '"', '\\', 'b', 'f', 'r', 't', 'u'] : List Char) ∧
    nextToken ('"' :: ['a'] ++ '\\' :: '/' :: ['b'] ++ ['"']) 0 =
      (some (Token.string (['a'] ++ '/' :: ['b'])), 6) :=
  ⟨by decide,
   c10_default_escape_decodes_to_itself '/' ['a'] ['b'] (by decide)
     (by decide) (by decide)⟩

/-! ## Concrete machine runs: claims C2 and C6 -/

/-- C2: feeding the document
`\x7b"results":[\x7b"id":1,"name":"Alice"\x7d,\x7b"id":2,"name":"Bob"\x7d]\x7d`
to the streaming parser — as a single fragment, or split into 3-character
fragments — emits exactly two entries, in array order, deep-equal to the two
source objects. -/
theorem c2_concrete_doc_two_entries_any_split :
    (runChunks
        [("\x7b\"results\":[\x7b\"id\":1,\"name\":\"Alice\"\x7d,\x7b\"id\":2,\"name\":\"Bob\"\x7d]\x7d").toList]).out =
      [POut.entry (JVal.obj [("id".toList, JVal.num ("1".toList)),
                             ("name".toList, JVal.str ("Alice".toList))]),
       POut.entry (JVal.obj [("id".toList, JVal.num ("2".toList)),
                             ("name".toList, JVal.str ("Bob".toList))])] ∧
    (runChunks (chunksOf3
        (("\x7b\"results\":[\x7b\"id\":1,\"name\":\"Alice\"\x7d,\x7b\"id\":2,\"name\":\"Bob\"\x7d]\x7d").toList))).out =
      [POut.entry (JVal.obj [("id".toList, JVal.num ("1".toList)),
                             ("name".toList, JVal.str ("Alice".toList))]),
       POut.entry (JVal.obj [("id".toList, JVal.num ("2".toList)),
                             ("name".toList, JVal.str ("Bob".toList))])] :=
  ⟨rfl, rfl⟩

/-- C6, counterexample: on `\x7b1:2\x7d` the scanning handler consumes the
peeked token unconditionally before checking its type, so the number token
`1` is treated as an ordinary key to skip (`:` is consumed, the value `2` is
skipped, `\x7d` is read) and the machine reaches the DONE state — where the
claim requires that a document with a non-string key never reach it. -/
theorem c6_counterexample_nonstring_key_reaches_done :
    (runChunks [("\x7b1:2\x7d").toList]).state = PState.done := rfl

/-- C6 (amended): in the scanning state a committed non-string token is not
a lexical-level failure: it is treated exactly like a skippable key, so on
`\x7b1:2\x7d` the machine runs to the DONE state while emitting no element.
-/
theorem c6_amended_nonstring_key_skipped_to_done :
    (runChunks [("\x7b1:2\x7d").toList]).state = PState.done ∧
    (runChunks [("\x7b1:2\x7d").toList]).out = [] :=
  ⟨rfl, rfl⟩

/-! ## Claim C3: step atomicity -/

/-- C3, counterexample: with buffer `\x7b"a"` the machine reaches the
scanning state at cursor 1; the next step peeks the complete string token
`"a"`, commits it unconditionally, then fails to find the colon (the buffer
is exhausted) and reports no progress — yet the cursor has moved from 1 to
4: the declining step consumed the key token, not just whitespace,
contradicting "leaves both the parser state and the tokenizer cursor exactly
as they were". -/
theorem c3_counterexample_declining_step_consumes_token :
    (processNextStep { buffer := ("\x7b\"a\"").toList, pos := 1, state := PState.scanningForResults, out := [] }).1 = false ∧
    (processNextStep { buffer := ("\x7b\"a\"").toList, pos := 1, state := PState.scanningForResults, out := [] }).2.pos = 4 ∧
    skipWsPos (("\x7b\"a\"").toList) 1 = 1 :=
  ⟨rfl, rfl, rfl⟩

/-- C3 (amended): outside the scanning-keys state, a step that reports no
progress and logs no event leaves the parser state (and buffer) unchanged
and moves the cursor at most across leading whitespace: the final cursor is
either exactly the starting cursor or the whitespace fixpoint `skipWsPos`.
The scanning-keys handler is excluded because it commits the peeked token
before examining it, and the decode-failure path of the collecting state is
excluded by the no-new-event hypothesis. -/
theorem c3_amended_declining_step_atomic (c c' : Config)
    (hstate : c.state ≠ PState.scanningForResults)
    (h : processNextStep c = (false, c'))
    (hout : c'.out = c.out) :
    c'.state = c.state ∧ c'.buffer = c.buffer ∧
    (c'.pos = c.pos ∨ c'.pos = skipWsPos c.buffer c.pos) := by
  unfold processNextStep at h
  rcases hnt : nextToken c.buffer c.pos with ⟨ot, q⟩
  cases ot with
  | none =>
    have hns : nextSig c.buffer c.pos true = (none, q) := by
      unfold nextSig
      rw [hnt]
    rw [hns] at h
    dsimp only at h
    have hc' : c' = { c with pos := q } := (Prod.mk.injEq _ _ _ _ ▸ h).2.symm
    subst hc'
    exact ⟨rfl, rfl, Or.inr (nextToken_fail_pos hnt)⟩
  | some t =>
    have hns : nextSig c.buffer c.pos true = (some t, c.pos) := by
      unfold nextSig
      rw [hnt]
      rfl
    rw [hns] at h
    dsimp only at h
    cases hst : c.state with
    | scanningForResults => exact absurd hst hstate
    | done =>
      rw [hst] at h
      dsimp only at h
      have hc' : c' = c := (Prod.mk.injEq _ _ _ _ ▸ h).2.symm
      subst hc'
      exact ⟨hst, rfl, Or.inl rfl⟩
    | expectObjectStart =>
      rw [hst] at h
      dsimp only at h
      unfold handleExpectObjectStart at h
      by_cases ht : t = Token.beginObject
      · rw [if_pos ht] at h
        exact absurd (congrArg Prod.fst h) (by simp)
      · rw [if_neg ht] at h
        have hc' : c' = c := (Prod.mk.injEq _ _ _ _ ▸ h).2.symm
        subst hc'
        exact ⟨hst, rfl, Or.inl rfl⟩
    | expectColonAfterResults =>
      rw [hst] at h
      dsimp only at h
      unfold handleExpectColon at h
      by_cases ht : t = Token.nameSeparator
      · rw [if_pos ht] at h
        exact absurd (congrArg Prod.fst h) (by simp)
      · rw [if_neg ht] at h
        have hc' : c' = c := (Prod.mk.injEq _ _ _ _ ▸ h).2.symm
        subst hc'
        exact ⟨hst, rfl, Or.inl rfl⟩
    | expectArrayStart =>
      rw [hst] at h
      dsimp only at h
      unfold handleExpectArrayStart at h
      by_cases ht : t = Token.beginArray
      · rw [if_pos ht] at h
        exact absurd (congrArg Prod.fst h) (by simp)
      · rw [if_neg ht] at h
        have hc' : c' = c := (Prod.mk.injEq _ _ _ _ ▸ h).2.symm
        subst hc'
        exact ⟨hst, rfl, Or.inl rfl⟩
    | parsingResultsArray =>
      rw [hst] at h
      dsimp only at h
      unfold handleParsingResultsArray at h
      by_cases h1 : t = Token.endArray
      · rw [if_pos h1] at h
        exact absurd (congrArg Prod.fst h) (by simp)
      rw [if_neg h1] at h
      by_cases h2 : t = Token.valueSeparator
      · rw [if_pos h2] at h
        exact absurd (congrArg Prod.fst h) (by simp)
      rw [if_neg h2] at h
      by_cases h3 : t = Token.beginObject
      · rw [if_pos h3] at h
        exact absurd (congrArg Prod.fst h) (by simp)
      rw [if_neg h3] at h
      have hc' : c' = c := (Prod.mk.injEq _ _ _ _ ▸ h).2.symm
      subst hc'
      exact ⟨hst, rfl, Or.inl rfl⟩
    | parsingArrayEntry bc st =>
      rw [hst] at h
      dsimp only at h
      unfold handleParsingArrayEntry at h
      have hns2 : nextSig c.buffer c.pos false = (some t, q) := by
        unfold nextSig
        rw [hnt]
        rfl
      rw [hns2] at h
      cases t with
      | beginObject => exact absurd (congrArg Prod.fst h) (by simp)
      | endObject =>
        dsimp only at h
        by_cases hz : bc - 1 = 0
        · rw [if_pos hz] at h
          cases hjp : jsonParse ((c.buffer.drop st).take (q - st)) with
          | some v =>
            rw [hjp] at h
            exact absurd (congrArg Prod.fst h) (by simp)
          | none =>
            rw [hjp] at h
            have hc' : c' = { c with pos := q, state := PState.parsingArrayEntry (bc - 1) st, out := c.out ++ [POut.decodeError] } :=
              (Prod.mk.injEq _ _ _ _ ▸ h).2.symm
            rw [hc'] at hout
            exact absurd (congrArg List.length hout) (by simp)
        · rw [if_neg hz] at h
          exact absurd (congrArg Prod.fst h) (by simp)
      | string s => exact absurd (congrArg Prod.fst h) (by simp)
      | number lx => exact absurd (congrArg Prod.fst h) (by simp)
      | litValue v => exact absurd (congrArg Prod.fst h) (by simp)
      | beginArray => exact absurd (congrArg Prod.fst h) (by simp)
      | endArray => exact absurd (congrArg Prod.fst h) (by simp)
      | nameSeparator => exact absurd (congrArg Prod.fst h) (by simp)
      | valueSeparator => exact absurd (congrArg Prod.fst h) (by simp)

/-- Witness for C3 (amended): in the initial state (expecting `\x7b`) with
buffer ` ]`, the peeked token is `]`: the step declines and only the leading
space is consumed. -/
theorem c3_witness :
    ({ buffer := (" ]").toList, pos := 0, state := PState.expectObjectStart, out := [] } : Config).state ≠ PState.scanningForResults ∧
    (processNextStep { buffer := (" ]").toList, pos := 0, state := PState.expectObjectStart, out := [] }).2.state =
      PState.expectObjectStart :=
  ⟨by decide,
   (c3_amended_declining_step_atomic
      { buffer := (" ]").toList, pos := 0, state := PState.expectObjectStart, out := [] }
      (processNextStep { buffer := (" ]").toList, pos := 0, state := PState.expectObjectStart, out := [] }).2
      (by decide) rfl rfl).1⟩

/-! ## Claim C5: brace-depth invariant -/

theorem handleExpectObjectStart_frame (c : Config) (t : Token) :
    (handleExpectObjectStart c t).2.buffer = c.buffer ∧
    (handleExpectObjectStart c t).2.out = c.out ∧
    ((handleExpectObjectStart c t).2.state = c.state ∨
     (handleExpectObjectStart c t).2.state = PState.scanningForResults) := by
  unfold handleExpectObjectStart
  repeat' split
  all_goals simp

theorem handleExpectColon_frame (c : Config) (t : Token) :
    (handleExpectColon c t).2.buffer = c.buffer ∧
    (handleExpectColon c t).2.out = c.out ∧
    ((handleExpectColon c t).2.state = c.state ∨
     (handleExpectColon c t).2.state = PState.expectArrayStart) := by
  unfold handleExpectColon
  repeat' split
  all_goals simp

theorem handleExpectArrayStart_frame (c : Config) (t : Token) :
    (handleExpectArrayStart c t).2.buffer = c.buffer ∧
    (handleExpectArrayStart c t).2.out = c.out ∧
    ((handleExpectArrayStart c t).2.state = c.state ∨
     (handleExpectArrayStart c t).2.state = PState.parsingResultsArray) := by
  unfold handleExpectArrayStart
  repeat' split
  all_goals simp

theorem handleScanningForResults_frame (c : Config) (t : Token) :
    (handleScanningForResults c t).2.buffer = c.buffer ∧
    (handleScanningForResults c t).2.out = c.out ∧
    ((handleScanningForResults c t).2.state = c.state ∨
     (handleScanningForResults c t).2.state = PState.expectColonAfterResults ∨
     (handleScanningForResults c t).2.state = PState.done) := by
  unfold handleScanningForResults
  dsimp only
  generalize nextSig c.buffer c.pos false = r1
  generalize nextSig c.buffer r1.2 false = r2
  generalize skipValueS c.buffer r2.2 = r3
  generalize nextSig c.buffer r3.2 false = r4
  repeat' split
  all_goals simp

theorem handleParsingResultsArray_frame (c : Config) (t : Token) :
    (handleParsingResultsArray c t).2.buffer = c.buffer ∧
    (handleParsingResultsArray c t).2.out = c.out ∧
    ((handleParsingResultsArray c t).2.state = c.state ∨
     (handleParsingResultsArray c t).2.state = PState.done ∨
     (handleParsingResultsArray c t).2.state = PState.parsingArrayEntry 1 c.pos) := by
  unfold handleParsingResultsArray
  repeat' split
  all_goals simp

theorem handleParsingArrayEntry_frame (c : Config) (bc0 : Int) (st0 : Nat) :
    (handleParsingArrayEntry c bc0 st0).2.buffer = c.buffer ∧
    (((handleParsingArrayEntry c bc0 st0).2.out = c.out ∧
      (handleParsingArrayEntry c bc0 st0).2.state = c.state) ∨
     ((handleParsingArrayEntry c bc0 st0).2.out = c.out ∧
      (handleParsingArrayEntry c bc0 st0).2.state = PState.parsingArrayEntry (bc0 + 1) st0) ∨
     ((handleParsingArrayEntry c bc0 st0).2.out = c.out ∧ bc0 - 1 ≠ 0 ∧
      (handleParsingArrayEntry c bc0 st0).2.state = PState.parsingArrayEntry (bc0 - 1) st0) ∨
     (bc0 - 1 = 0 ∧ (∃ v, (handleParsingArrayEntry c bc0 st0).2.out = c.out ++ [POut.entry v]) ∧
      (handleParsingArrayEntry c bc0 st0).2.state = PState.parsingResultsArray) ∨
     (bc0 - 1 = 0 ∧ (handleParsingArrayEntry c bc0 st0).2.out = c.out ++ [POut.decodeError] ∧
      (handleParsingArrayEntry c bc0 st0).2.state = PState.parsingArrayEntry (bc0 - 1) st0)) := by
  unfold handleParsingArrayEntry
  dsimp only
  generalize nextSig c.buffer c.pos false = r
  repeat' split
  all_goals first
    | exact ⟨rfl, Or.inl ⟨rfl, rfl⟩⟩
    | exact ⟨rfl, Or.inr (Or.inl ⟨rfl, rfl⟩)⟩
    | exact ⟨rfl, Or.inr (Or.inr (Or.inl ⟨rfl, by assumption, rfl⟩))⟩
    | exact ⟨rfl, Or.inr (Or.inr (Or.inr (Or.inl ⟨by assumption, ⟨_, rfl⟩, rfl⟩)))⟩
    | exact ⟨rfl, Or.inr (Or.inr (Or.inr (Or.inr ⟨by assumption, rfl, rfl⟩)))⟩

theorem processNextStep_frame (c : Config) :
    (processNextStep c).2.buffer = c.buffer ∧
    (∃ tl, (processNextStep c).2.out = c.out ++ tl) ∧
    (∀ bc st, (processNextStep c).2.state = PState.parsingArrayEntry bc st →
      POut.decodeError ∉ (processNextStep c).2.out →
      (∀ bc0 st0, c.state = PState.parsingArrayEntry bc0 st0 → 1 ≤ bc0) →
      1 ≤ bc) ∧
    (∀ v, (processNextStep c).2.out = c.out ++ [POut.entry v] →
      ∃ st0, c.state = PState.parsingArrayEntry 1 st0) := by
  unfold processNextStep
  dsimp only
  rcases hnt : nextToken c.buffer c.pos with ⟨ot, q⟩
  cases ot with
  | none =>
    have hns : nextSig c.buffer c.pos true = (none, q) := by
      unfold nextSig
      rw [hnt]
    rw [hns]
    dsimp only
    refine ⟨rfl, ⟨[], by simp⟩, ?_, ?_⟩
    · intro bc st hst' hmem hinv
      exact hinv bc st hst'
    · intro v hout'
      simp at hout'
  | some t =>
    have hns : nextSig c.buffer c.pos true = (some t, c.pos) := by
      unfold nextSig
      rw [hnt]
      rfl
    rw [hns]
    dsimp only
    cases hst : c.state with
    | expectObjectStart =>
      dsimp only
      obtain ⟨hb, ho, hs⟩ := handleExpectObjectStart_frame c t
      refine ⟨hb, ⟨[], by simp [ho]⟩, ?_, ?_⟩
      · intro bc st hst' hmem hinv
        rcases hs with h | h
        · rw [h, hst] at hst'
          exact PState.noConfusion hst'
        · rw [h] at hst'
          exact PState.noConfusion hst'
      · intro v hout'
        rw [ho] at hout'
        simp at hout'
    | expectColonAfterResults =>
      dsimp only
      obtain ⟨hb, ho, hs⟩ := handleExpectColon_frame c t
      refine ⟨hb, ⟨[], by simp [ho]⟩, ?_, ?_⟩
      · intro bc st hst' hmem hinv
        rcases hs with h | h
        · rw [h, hst] at hst'
          exact PState.noConfusion hst'
        · rw [h] at hst'
          exact PState.noConfusion hst'
      · intro v hout'
        rw [ho] at hout'
        simp at hout'
    | expectArrayStart =>
      dsimp only
      obtain ⟨hb, ho, hs⟩ := handleExpectArrayStart_frame c t
      refine ⟨hb, ⟨[], by simp [ho]⟩, ?_, ?_⟩
      · intro bc st hst' hmem hinv
        rcases hs with h | h
        · rw [h, hst] at hst'
          exact PState.noConfusion hst'
        · rw [h] at hst'
          exact PState.noConfusion hst'
      · intro v hout'
        rw [ho] at hout'
        simp at hout'
    | scanningForResults =>
      dsimp only
      obtain ⟨hb, ho, hs⟩ := handleScanningForResults_frame c t
      refine ⟨hb, ⟨[], by simp [ho]⟩, ?_, ?_⟩
      · intro bc st hst' hmem hinv
        rcases hs with h | h | h
        · rw [h, hst] at hst'
          exact PState.noConfusion hst'
        · rw [h] at hst'
          exact PState.noConfusion hst'
        · rw [h] at hst'
          exact PState.noConfusion hst'
      · intro v hout'
        rw [ho] at hout'
        simp at hout'
    | parsingResultsArray =>
      dsimp only
      obtain ⟨hb, ho, hs⟩ := handleParsingResultsArray_frame c t
      refine ⟨hb, ⟨[], by simp [ho]⟩, ?_, ?_⟩
      · intro bc st hst' hmem hinv
        rcases hs with h | h | h
        · rw [h, hst] at hst'
          exact PState.noConfusion hst'
        · rw [h] at hst'
          exact PState.noConfusion hst'
        · rw [h] at hst'
          injection hst' with h1 h2
          omega
      · intro v hout'
        rw [ho] at hout'
        simp at hout'
    | done =>
      dsimp only
      refine ⟨rfl, ⟨[], by simp⟩, ?_, ?_⟩
      · intro bc st hst' hmem hinv
        rw [hst] at hst'
        exact PState.noConfusion hst'
      · intro v hout'
        simp at hout'
    | parsingArrayEntry bc0 st0 =>
      dsimp only
      obtain ⟨hb, hs⟩ := handleParsingArrayEntry_frame c bc0 st0
      refine ⟨hb, ?_, ?_, ?_⟩
      · rcases hs with ⟨ho, -⟩ | ⟨ho, -⟩ | ⟨ho, -, -⟩ | ⟨-, ⟨v, ho⟩, -⟩ | ⟨-, ho, -⟩
        · exact ⟨[], by simp [ho]⟩
        · exact ⟨[], by simp [ho]⟩
        · exact ⟨[], by simp [ho]⟩
        · exact ⟨[POut.entry v], ho⟩
        · exact ⟨[POut.decodeError], ho⟩
      · intro bc st hst' hmem hinv
        have h1 : 1 ≤ bc0 := hinv bc0 st0 rfl
        rcases hs with ⟨ho, hsx⟩ | ⟨ho, hsx⟩ | ⟨ho, hne, hsx⟩ | ⟨hz, ⟨v, ho⟩, hsx⟩ |
          ⟨hz, ho, hsx⟩
        · rw [hsx, hst] at hst'
          injection hst' with e1 e2
          omega
        · rw [hsx] at hst'
          injection hst' with e1 e2
          omega
        · rw [hsx] at hst'
          injection hst' with e1 e2
          omega
        · rw [hsx] at hst'
          exact PState.noConfusion hst'
        · rw [ho] at hmem
          simp at hmem
      · intro v' hout'
        rcases hs with ⟨ho, -⟩ | ⟨ho, -⟩ | ⟨ho, -, -⟩ | ⟨hz, ⟨v, ho⟩, -⟩ | ⟨-, ho, -⟩
        · rw [ho] at hout'
          simp at hout'
        · rw [ho] at hout'
          simp at hout'
        · rw [ho] at hout'
          simp at hout'
        · exact ⟨st0, by rw [show bc0 = (1 : Int) from by omega]⟩
        · rw [ho] at hout'
          simp at hout'

theorem drainLoop_inv (fuel : Nat) : ∀ (c : Config),
    (POut.decodeError ∉ c.out →
      ∀ bc st, c.state = PState.parsingArrayEntry bc st → 1 ≤ bc) →
    (POut.decodeError ∉ (drainLoop fuel c).out →
      ∀ bc st, (drainLoop fuel c).state = PState.parsingArrayEntry bc st →
        1 ≤ bc) := by
  induction fuel with
  | zero => exact fun c hc => hc
  | succ n ih =>
    intro c hc
    unfold drainLoop
    dsimp only
    obtain ⟨hb, ⟨tl, ho⟩, hinv3, hinv4⟩ := processNextStep_frame c
    have hc' : POut.decodeError ∉ (processNextStep c).2.out →
        ∀ bc st, (processNextStep c).2.state = PState.parsingArrayEntry bc st →
          1 ≤ bc := by
      intro hmem bc st hstate
      refine hinv3 bc st hstate hmem ?_
      intro bc0 st0 hs0
      have hmemc : POut.decodeError ∉ c.out := by
        rw [ho] at hmem
        simp at hmem
        exact hmem.1
      exact hc hmemc bc0 st0 hs0
    split
    · exact ih (processNextStep c).2 hc'
    · exact hc'

theorem parseChunk_inv (ch : List Char) (c : Config)
    (hc : POut.decodeError ∉ c.out →
      ∀ bc st, c.state = PState.parsingArrayEntry bc st → 1 ≤ bc) :
    POut.decodeError ∉ (parseChunk ch c).out →
      ∀ bc st, (parseChunk ch c).state = PState.parsingArrayEntry bc st →
        1 ≤ bc := by
  unfold parseChunk
  dsimp only
  exact drainLoop_inv _ _ (fun hmem bc st hsx => hc hmem bc st hsx)

theorem runChunks_inv (chunks : List (List Char)) :
    POut.decodeError ∉ (runChunks chunks).out →
      ∀ bc st, (runChunks chunks).state = PState.parsingArrayEntry bc st →
        1 ≤ bc := by
  have main : ∀ (cs : List (List Char)) (c : Config),
      (POut.decodeError ∉ c.out →
        ∀ bc st, c.state = PState.parsingArrayEntry bc st → 1 ≤ bc) →
      POut.decodeError ∉ (cs.foldl (fun c ch => parseChunk ch c) c).out →
        ∀ bc st,
          (cs.foldl (fun c ch => parseChunk ch c) c).state =
            PState.parsingArrayEntry bc st → 1 ≤ bc := by
    intro cs
    induction cs with
    | nil => exact fun c hc => hc
    | cons ch rest ih =>
      intro c hc
      exact ih (parseChunk ch c) (parseChunk_inv ch c hc)
  exact main chunks initConfig (fun hmem bc st hsx => PState.noConfusion hsx)

/-- C5, counterexample: on the document `\x7b"results":[\x7b"a":\x7d]\x7d`
the element slice `\x7b"a":\x7d` fails to decode; the handler has already
decremented the brace count to 0 and, on the decode failure, stays in the
collecting state with recorded depth 0 — the machine "remains in the
collecting state with depth 0", which the claim rules out for every input.
-/
theorem c5_counterexample_zero_depth_in_collecting_state :
    (runChunks [("\x7b\"results\":[\x7b\"a\":\x7d]\x7d").toList]).state =
      PState.parsingArrayEntry 0 12 := rfl

/-- C5 (amended): as long as no decode failure has been logged, the
collecting state always carries a brace depth of at least 1, over every
input and chunking; and an element is emitted exactly at the step where the
depth moves from 1 to 0 (the step that emits starts from depth 1). The
unrestricted original claim fails only on the decode-failure path (see the
counterexample). -/
theorem c5_amended_brace_depth (chunks : List (List Char)) :
    (POut.decodeError ∉ (runChunks chunks).out →
      ∀ bc st, (runChunks chunks).state = PState.parsingArrayEntry bc st →
        1 ≤ bc) ∧
    (∀ (c : Config) (v : JVal),
      (processNextStep c).2.out = c.out ++ [POut.entry v] →
      ∃ st0, c.state = PState.parsingArrayEntry 1 st0) :=
  ⟨runChunks_inv chunks,
   fun c v hout => (processNextStep_frame c).2.2.2 v hout⟩

/-- Witness for C5 (amended): after the prefix `\x7b"results":[\x7b` the
machine is collecting with depth 1 (part one), and the step that completes
the entry `\x7b\x7d` emits it from depth exactly 1 (part two). -/
theorem c5_witness :
    (1 : Int) ≤ 1 ∧
    ∃ st0, ({ buffer := ("\x7b\x7d").toList, pos := 1, state := PState.parsingArrayEntry 1 0, out := [] } : Config).state =
      PState.parsingArrayEntry 1 st0 :=
  ⟨(c5_amended_brace_depth [("\x7b\"results\":[\x7b").toList]).1
      (by
        intro hmem
        rw [show (runChunks [("\x7b\"results\":[\x7b").toList]).out = []
          from rfl] at hmem
        exact List.not_mem_nil _ hmem) 1 12 rfl,
   (c5_amended_brace_depth []).2
      { buffer := ("\x7b\x7d").toList, pos := 1, state := PState.parsingArrayEntry 1 0, out := [] }
      (JVal.obj []) rfl⟩

/-! ## Claim C8: drain-loop termination -/

theorem readStrAux_rest_lt (l acc : List Char) (v rest : List Char)
    (h : readStrAux l acc = some (v, rest)) : rest.length < l.length := by
  induction l, acc using readStrAux.induct generalizing v rest
  all_goals simp_all [readStrAux]
  case case11 => omega
  case case12 =>
    rename_i hximp
    unfold readStrAux at h
    simp at h
    split at h
    · rename_i hx
      simp_all
    · obtain ⟨⟨hx1, hx2, hx3, hx4⟩, -⟩ := h
      have hf := hximp hx1 hx2 hx3
      rw [hf] at hx4
      exact Bool.noConfusion hx4
  case case14 =>
    rename_i ih
    unfold readStrAux at h
    simp_all
    omega
  case case16 => omega
  all_goals rename_i ih
  all_goals unfold readStrAux at h
  all_goals simp at h
  all_goals (have hof := ih _ _ h; omega)

theorem readNumAux_le (l : List Char) (h d e : Bool) :
    (readNumAux l h d e).1 ≤ l.length := by
  induction l, h, d, e using readNumAux.induct
  all_goals simp_all [readNumAux]
  case case2 =>
    rename_i hc ih
    unfold readNumAux
    dsimp only
    rw [if_pos hc]
    dsimp only
    omega
  case case3 =>
    rename_i hc ih
    unfold readNumAux
    dsimp only
    rw [if_neg (by decide), if_pos (by decide)]
    dsimp only
    omega
  case case4 =>
    rename_i h3 h2 h1 hs ih
    rename_i c hd hdec hexp s rest2
    obtain ⟨he, hexpf, hdt⟩ := h1
    subst hexpf
    subst hdt
    have hnd : ¬('0' ≤ c ∧ c ≤ '9') := fun hc => absurd (h3 hc.1) (not_lt.mpr hc.2)
    have hn2 : ¬(c = '.' ∧ hdec = false) := by
      rintro ⟨rfl, -⟩
      rcases he with he | he <;> simp at he
    rw [if_neg hnd, if_neg hn2]
    dsimp only
    omega
  case case5 =>
    rename_i h3 h2 h1 hs ih
    rename_i c hd hdec hexp s rest2
    obtain ⟨he, hexpf, hdt⟩ := h1
    subst hexpf
    subst hdt
    have hnd : ¬('0' ≤ c ∧ c ≤ '9') := fun hc => absurd (h3 hc.1) (not_lt.mpr hc.2)
    have hn2 : ¬(c = '.' ∧ hdec = false) := by
      rintro ⟨rfl, -⟩
      rcases he with he | he <;> simp at he
    rw [if_neg hnd, if_neg hn2]
    dsimp only
    omega
  case case6 =>
    repeat' split
    all_goals decide
  case case7 =>
    rename_i h3 h2 h1
    rename_i c rest hd hdec hexp
    unfold readNumAux
    dsimp only
    have hnd : ¬('0' ≤ c ∧ c ≤ '9') := fun hc => absurd (h3 hc.1) (not_lt.mpr hc.2)
    have hn2 : ¬(c = '.' ∧ ¬(hdec = true) ∧ ¬(hexp = true)) := by
      rintro ⟨rfl, hb, hcx⟩
      have := h2 rfl (by cases hdec <;> simp_all)
      simp_all
    have hn3 : ¬((c = 'e' ∨ c = 'E') ∧ ¬(hexp = true) ∧ hd = true) := by
      rintro ⟨ha, hb, hcx⟩
      have := h1 ha (by cases hexp <;> simp_all)
      simp_all
    rw [if_neg hnd, if_neg hn2, if_neg hn3]
    simp

theorem countWs_le (l : List Char) : countWs l ≤ l.length := by
  induction l with
  | nil => simp [countWs]
  | cons c r ih =>
    unfold countWs
    split
    · simpa using ih
    · simp

theorem skipWsPos_bounds (buffer : List Char) (pos : Nat)
    (h : pos ≤ buffer.length) :
    pos ≤ skipWsPos buffer pos ∧ skipWsPos buffer pos ≤ buffer.length := by
  unfold skipWsPos
  have h1 := countWs_le (buffer.drop pos)
  simp [List.length_drop] at h1
  omega

theorem startsWithAt_len (buffer : List Char) (p : Nat) (s : List Char)
    (hp : p < buffer.length) (h : startsWithAt buffer p s = true) :
    p + s.length ≤ buffer.length := by
  unfold startsWithAt at h
  simp only [decide_eq_true_eq] at h
  have hlen := congrArg List.length h
  simp [List.length_take, List.length_drop] at hlen
  omega

theorem readString_bounds (buffer : List Char) (pos : Nat)
    (hp : pos < buffer.length) :
    pos ≤ (readString buffer pos).2 ∧ (readString buffer pos).2 ≤ buffer.length := by
  unfold readString
  cases hr : readStrAux ((buffer.drop pos).drop 1) [] with
  | none => exact ⟨Nat.le_refl _, Nat.le_of_lt hp⟩
  | some vr =>
    rcases vr with ⟨v, rest⟩
    dsimp only
    have hlt := readStrAux_rest_lt _ _ _ _ hr
    have hlen : ((buffer.drop pos).drop 1).length = buffer.length - pos - 1 := by
      simp [List.length_drop]
      omega
    constructor <;> omega

theorem readNumber_bounds (buffer : List Char) (pos : Nat)
    (hp : pos < buffer.length) :
    pos ≤ (readNumber buffer pos).2 ∧ (readNumber buffer pos).2 ≤ buffer.length := by
  unfold readNumber
  have hb := readNumAux_le (buffer.drop pos) false false false
  simp only [List.length_drop] at hb
  dsimp only
  repeat' split
  all_goals first
    | exact ⟨Nat.le_refl _, Nat.le_of_lt hp⟩
    | exact ⟨Nat.le_add_right _ _, by omega⟩

theorem nextTokenAt_bounds (buffer : List Char) (p : Nat)
    (hp : p ≤ buffer.length) :
    p ≤ (nextTokenAt buffer p).2 ∧ (nextTokenAt buffer p).2 ≤ buffer.length := by
  rcases hh : (buffer.drop p).head? with - | ch
  · unfold nextTokenAt
    rw [hh]
    exact ⟨Nat.le_refl _, hp⟩
  · have hplt : p < buffer.length := by
      by_contra hge
      rw [List.drop_eq_nil_of_le (by omega)] at hh
      exact Option.noConfusion hh
    unfold nextTokenAt
    rw [hh]
    dsimp only
    by_cases h1 : ch = '\x7b'
    · rw [if_pos h1]
      exact ⟨Nat.le_succ _, hplt⟩
    rw [if_neg h1]
    by_cases h2 : ch = '\x7d'
    · rw [if_pos h2]
      exact ⟨Nat.le_succ _, hplt⟩
    rw [if_neg h2]
    by_cases h3 : ch = '['
    · rw [if_pos h3]
      exact ⟨Nat.le_succ _, hplt⟩
    rw [if_neg h3]
    by_cases h4 : ch = ']'
    · rw [if_pos h4]
      exact ⟨Nat.le_succ _, hplt⟩
    rw [if_neg h4]
    by_cases h5 : ch = ':'
    · rw [if_pos h5]
      exact ⟨Nat.le_succ _, hplt⟩
    rw [if_neg h5]
    by_cases h6 : ch = ','
    · rw [if_pos h6]
      exact ⟨Nat.le_succ _, hplt⟩
    rw [if_neg h6]
    by_cases h7 : ch = '"'
    · rw [if_pos h7]
      exact readString_bounds buffer p hplt
    rw [if_neg h7]
    by_cases h8 : ch = '-' ∨ ('0' ≤ ch ∧ ch ≤ '9')
    · rw [if_pos h8]
      exact readNumber_bounds buffer p hplt
    rw [if_neg h8]
    by_cases h9 : startsWithAt buffer p "true".toList = true
    · rw [if_pos h9]
      have hl := startsWithAt_len buffer p _ hplt h9
      simp at hl
      exact ⟨by omega, by omega⟩
    rw [if_neg h9]
    by_cases h10 : startsWithAt buffer p "false".toList = true
    · rw [if_pos h10]
      have hl := startsWithAt_len buffer p _ hplt h10
      simp at hl
      exact ⟨by omega, by omega⟩
    rw [if_neg h10]
    by_cases h11 : startsWithAt buffer p "null".toList = true
    · rw [if_pos h11]
      have hl := startsWithAt_len buffer p _ hplt h11
      simp at hl
      exact ⟨by omega, by omega⟩
    rw [if_neg h11]
    exact ⟨Nat.le_refl _, hp⟩

theorem nextToken_bounds (buffer : List Char) (pos : Nat)
    (h : pos ≤ buffer.length) :
    pos ≤ (nextToken buffer pos).2 ∧ (nextToken buffer pos).2 ≤ buffer.length := by
  unfold nextToken
  obtain ⟨h1, h2⟩ := skipWsPos_bounds buffer pos h
  obtain ⟨h3, h4⟩ := nextTokenAt_bounds buffer (skipWsPos buffer pos) h2
  exact ⟨Nat.le_trans h1 h3, h4⟩

theorem nextSig_snd_bounds (buffer : List Char) (pos : Nat) (peek : Bool)
    (h : pos ≤ buffer.length) :
    pos ≤ (nextSig buffer pos peek).2 ∧ (nextSig buffer pos peek).2 ≤ buffer.length := by
  unfold nextSig
  obtain ⟨h1, h2⟩ := nextToken_bounds buffer pos h
  rcases hnt : nextToken buffer pos with ⟨ot, q⟩
  rw [hnt] at h1 h2
  cases ot with
  | none => exact ⟨h1, h2⟩
  | some t =>
    cases peek with
    | true => exact ⟨Nat.le_refl _, h⟩
    | false => exact ⟨h1, h2⟩

theorem parseS_bounds : ∀ (fuel : Nat) (call : PCall) (buffer : List Char)
    (pos : Nat) (discard : Bool), pos ≤ buffer.length →
    pos ≤ (parseS fuel call buffer pos discard).2 ∧
      (parseS fuel call buffer pos discard).2 ≤ buffer.length := by
  intro fuel
  induction fuel with
  | zero => exact fun call buffer pos discard h => ⟨Nat.le_refl _, h⟩
  | succ n ih =>
    intro call buffer pos discard h
    cases call with
    | value =>
      unfold parseS
      rcases hns : nextSig buffer pos false with ⟨ot, p1⟩
      have hb1 : pos ≤ p1 ∧ p1 ≤ buffer.length := by
        have hx := nextSig_snd_bounds buffer pos false h
        rw [hns] at hx
        exact hx
      cases ot with
      | none => exact hb1
      | some t =>
        cases t with
        | string s => exact hb1
        | number lx => exact hb1
        | litValue v => exact hb1
        | beginObject =>
          have hr := ih PCall.object buffer p1 discard hb1.2
          exact ⟨Nat.le_trans hb1.1 hr.1, hr.2⟩
        | beginArray =>
          have hr := ih PCall.array buffer p1 discard hb1.2
          exact ⟨Nat.le_trans hb1.1 hr.1, hr.2⟩
        | endObject => exact hb1
        | endArray => exact hb1
        | nameSeparator => exact hb1
        | valueSeparator => exact hb1
    | object =>
      unfold parseS
      rcases hpk : nextSig buffer pos true with ⟨otk, pk⟩
      have hbk : pos ≤ pk ∧ pk ≤ buffer.length := by
        have hx := nextSig_snd_bounds buffer pos true h
        rw [hpk] at hx
        exact hx
      cases otk with
      | none => exact hbk
      | some t =>
        cases t with
        | endObject => exact nextSig_snd_bounds buffer pos false h
        | string s => exact ih (PCall.objPairs []) buffer pos discard h
        | number lx => exact ih (PCall.objPairs []) buffer pos discard h
        | litValue v => exact ih (PCall.objPairs []) buffer pos discard h
        | beginObject => exact ih (PCall.objPairs []) buffer pos discard h
        | beginArray => exact ih (PCall.objPairs []) buffer pos discard h
        | endArray => exact ih (PCall.objPairs []) buffer pos discard h
        | nameSeparator => exact ih (PCall.objPairs []) buffer pos discard h
        | valueSeparator => exact ih (PCall.objPairs []) buffer pos discard h
    | objPairs acc =>
      unfold parseS
      rcases h1 : nextSig buffer pos false with ⟨ot1, p1⟩
      have hb1 : pos ≤ p1 ∧ p1 ≤ buffer.length := by
        have hx := nextSig_snd_bounds buffer pos false h
        rw [h1] at hx
        exact hx
      cases ot1 with
      | none => exact hb1
      | some t =>
        cases t with
        | string k =>
          dsimp only
          rcases h2 : nextSig buffer p1 false with ⟨ot2, p2⟩
          have hb2 : p1 ≤ p2 ∧ p2 ≤ buffer.length := by
            have hx := nextSig_snd_bounds buffer p1 false hb1.2
            rw [h2] at hx
            exact hx
          have hb2' : pos ≤ p2 := Nat.le_trans hb1.1 hb2.1
          cases ot2 with
          | none => exact ⟨hb2', hb2.2⟩
          | some t2 =>
            cases t2 with
            | nameSeparator =>
              dsimp only
              rcases h3 : parseS n PCall.value buffer p2 discard with ⟨ov, p3⟩
              have hb3 : p2 ≤ p3 ∧ p3 ≤ buffer.length := by
                have hx := ih PCall.value buffer p2 discard hb2.2
                rw [h3] at hx
                exact hx
              have hb3' : pos ≤ p3 := Nat.le_trans hb2' hb3.1
              cases ov with
              | none => exact ⟨hb3', hb3.2⟩
              | some v =>
                dsimp only
                rcases h4 : nextSig buffer p3 false with ⟨ot4, p4⟩
                have hb4 : p3 ≤ p4 ∧ p4 ≤ buffer.length := by
                  have hx := nextSig_snd_bounds buffer p3 false hb3.2
                  rw [h4] at hx
                  exact hx
                have hb4' : pos ≤ p4 := Nat.le_trans hb3' hb4.1
                cases ot4 with
                | none => exact ⟨hb4', hb4.2⟩
                | some t4 =>
                  cases t4 with
                  | endObject => exact ⟨hb4', hb4.2⟩
                  | valueSeparator =>
                    have hr := ih (PCall.objPairs
                      (if discard then acc else jsObjInsert acc k v)) buffer p4
                      discard hb4.2
                    exact ⟨Nat.le_trans hb4' hr.1, hr.2⟩
                  | string s => exact ⟨hb4', hb4.2⟩
                  | number lx => exact ⟨hb4', hb4.2⟩
                  | litValue vv => exact ⟨hb4', hb4.2⟩
                  | beginObject => exact ⟨hb4', hb4.2⟩
                  | beginArray => exact ⟨hb4', hb4.2⟩
                  | endArray => exact ⟨hb4', hb4.2⟩
                  | nameSeparator => exact ⟨hb4', hb4.2⟩
            | string s => exact ⟨hb2', hb2.2⟩
            | number lx => exact ⟨hb2', hb2.2⟩
            | litValue vv => exact ⟨hb2', hb2.2⟩
            | beginObject => exact ⟨hb2', hb2.2⟩
            | beginArray => exact ⟨hb2', hb2.2⟩
            | endObject => exact ⟨hb2', hb2.2⟩
            | endArray => exact ⟨hb2', hb2.2⟩
            | valueSeparator => exact ⟨hb2', hb2.2⟩
        | number lx => exact hb1
        | litValue v => exact hb1
        | beginObject => exact hb1
        | beginArray => exact hb1
        | endObject => exact hb1
        | endArray => exact hb1
        | nameSeparator => exact hb1
        | valueSeparator => exact hb1
    | array =>
      unfold parseS
      rcases hpk : nextSig buffer pos true with ⟨otk, pk⟩
      have hbk : pos ≤ pk ∧ pk ≤ buffer.length := by
        have hx := nextSig_snd_bounds buffer pos true h
        rw [hpk] at hx
        exact hx
      cases otk with
      | none => exact hbk
      | some t =>
        cases t with
        | endArray => exact nextSig_snd_bounds buffer pos false h
        | string s => exact ih (PCall.arrItems []) buffer pos discard h
        | number lx => exact ih (PCall.arrItems []) buffer pos discard h
        | litValue v => exact ih (PCall.arrItems []) buffer pos discard h
        | beginObject => exact ih (PCall.arrItems []) buffer pos discard h
        | beginArray => exact ih (PCall.arrItems []) buffer pos discard h
        | endObject => exact ih (PCall.arrItems []) buffer pos discard h
        | nameSeparator => exact ih (PCall.arrItems []) buffer pos discard h
        | valueSeparator => exact ih (PCall.arrItems []) buffer pos discard h
    | arrItems acc =>
      unfold parseS
      rcases hv : parseS n PCall.value buffer pos discard with ⟨ov, p1⟩
      have hbv : pos ≤ p1 ∧ p1 ≤ buffer.length := by
        have hx := ih PCall.value buffer pos discard h
        rw [hv] at hx
        exact hx
      cases ov with
      | none => exact hbv
      | some v =>
        dsimp only
        rcases h2 : nextSig buffer p1 false with ⟨ot2, p2⟩
        have hb2 : p1 ≤ p2 ∧ p2 ≤ buffer.length := by
          have hx := nextSig_snd_bounds buffer p1 false hbv.2
          rw [h2] at hx
          exact hx
        have hb2' : pos ≤ p2 := Nat.le_trans hbv.1 hb2.1
        cases ot2 with
        | none => exact ⟨hb2', hb2.2⟩
        | some t2 =>
          cases t2 with
          | endArray => exact ⟨hb2', hb2.2⟩
          | valueSeparator =>
            have hr := ih (PCall.arrItems (if discard then acc else acc ++ [v]))
              buffer p2 discard hb2.2
            exact ⟨Nat.le_trans hb2' hr.1, hr.2⟩
          | string s => exact ⟨hb2', hb2.2⟩
          | number lx => exact ⟨hb2', hb2.2⟩
          | litValue vv => exact ⟨hb2', hb2.2⟩
          | beginObject => exact ⟨hb2', hb2.2⟩
          | beginArray => exact ⟨hb2', hb2.2⟩
          | endObject => exact ⟨hb2', hb2.2⟩
          | nameSeparator => exact ⟨hb2', hb2.2⟩

theorem handleExpectObjectStart_pos (c : Config) (t : Token)
    (h : c.pos ≤ c.buffer.length) :
    c.pos ≤ (handleExpectObjectStart c t).2.pos ∧
      (handleExpectObjectStart c t).2.pos ≤ c.buffer.length := by
  unfold handleExpectObjectStart
  split
  · exact nextSig_snd_bounds c.buffer c.pos false h
  · exact ⟨Nat.le_refl _, h⟩

theorem handleExpectColon_pos (c : Config) (t : Token)
    (h : c.pos ≤ c.buffer.length) :
    c.pos ≤ (handleExpectColon c t).2.pos ∧
      (handleExpectColon c t).2.pos ≤ c.buffer.length := by
  unfold handleExpectColon
  split
  · exact nextSig_snd_bounds c.buffer c.pos false h
  · exact ⟨Nat.le_refl _, h⟩

theorem handleExpectArrayStart_pos (c : Config) (t : Token)
    (h : c.pos ≤ c.buffer.length) :
    c.pos ≤ (handleExpectArrayStart c t).2.pos ∧
      (handleExpectArrayStart c t).2.pos ≤ c.buffer.length := by
  unfold handleExpectArrayStart
  split
  · exact nextSig_snd_bounds c.buffer c.pos false h
  · exact ⟨Nat.le_refl _, h⟩

theorem handleParsingResultsArray_pos (c : Config) (t : Token)
    (h : c.pos ≤ c.buffer.length) :
    c.pos ≤ (handleParsingResultsArray c t).2.pos ∧
      (handleParsingResultsArray c t).2.pos ≤ c.buffer.length := by
  unfold handleParsingResultsArray
  repeat' split
  all_goals first
    | exact nextSig_snd_bounds c.buffer c.pos false h
    | exact ⟨Nat.le_refl _, h⟩

theorem handleScanningForResults_pos (c : Config) (t : Token)
    (h : c.pos ≤ c.buffer.length) :
    c.pos ≤ (handleScanningForResults c t).2.pos ∧
      (handleScanningForResults c t).2.pos ≤ c.buffer.length := by
  unfold handleScanningForResults
  dsimp only
  generalize hg1 : nextSig c.buffer c.pos false = r1
  have hb1 : c.pos ≤ r1.2 ∧ r1.2 ≤ c.buffer.length := by
    rw [← hg1]
    exact nextSig_snd_bounds c.buffer c.pos false h
  generalize hg2 : nextSig c.buffer r1.2 false = r2
  have hb2 : r1.2 ≤ r2.2 ∧ r2.2 ≤ c.buffer.length := by
    rw [← hg2]
    exact nextSig_snd_bounds c.buffer r1.2 false hb1.2
  generalize hg3 : skipValueS c.buffer r2.2 = r3
  have hb3 : r2.2 ≤ r3.2 ∧ r3.2 ≤ c.buffer.length := by
    rw [← hg3]
    exact parseS_bounds (c.buffer.length + 1) PCall.value c.buffer r2.2 true hb2.2
  generalize hg4 : nextSig c.buffer r3.2 false = r4
  have hb4 : r3.2 ≤ r4.2 ∧ r4.2 ≤ c.buffer.length := by
    rw [← hg4]
    exact nextSig_snd_bounds c.buffer r3.2 false hb3.2
  repeat' split
  all_goals first
    | exact hb1
    | exact ⟨Nat.le_trans hb1.1 hb2.1, hb2.2⟩
    | exact ⟨Nat.le_trans hb1.1 (Nat.le_trans hb2.1 hb3.1), hb3.2⟩
    | exact ⟨Nat.le_trans hb1.1
        (Nat.le_trans hb2.1 (Nat.le_trans hb3.1 hb4.1)), hb4.2⟩

theorem handleParsingArrayEntry_pos (c : Config) (bc : Int) (st : Nat)
    (h : c.pos ≤ c.buffer.length) :
    c.pos ≤ (handleParsingArrayEntry c bc st).2.pos ∧
      (handleParsingArrayEntry c bc st).2.pos ≤ c.buffer.length := by
  unfold handleParsingArrayEntry
  rcases hns : nextSig c.buffer c.pos false with ⟨ot, p⟩
  have hb : c.pos ≤ p ∧ p ≤ c.buffer.length := by
    have hx := nextSig_snd_bounds c.buffer c.pos false h
    rw [hns] at hx
    exact hx
  cases ot with
  | none => exact hb
  | some t =>
    cases t with
    | beginObject => exact hb
    | endObject =>
      dsimp only
      repeat' split
      all_goals exact hb
    | string s => exact hb
    | number lx => exact hb
    | litValue v => exact hb
    | beginArray => exact hb
    | endArray => exact hb
    | nameSeparator => exact hb
    | valueSeparator => exact hb

theorem processNextStep_pos (c : Config) (h : c.pos ≤ c.buffer.length) :
    c.pos ≤ (processNextStep c).2.pos ∧
      (processNextStep c).2.pos ≤ c.buffer.length := by
  unfold processNextStep
  dsimp only
  rcases hpk : nextSig c.buffer c.pos true with ⟨ot, pk⟩
  have hbk : c.pos ≤ pk ∧ pk ≤ c.buffer.length := by
    have hx := nextSig_snd_bounds c.buffer c.pos true h
    rw [hpk] at hx
    exact hx
  cases ot with
  | none => exact hbk
  | some t =>
    cases c.state with
    | expectObjectStart => exact handleExpectObjectStart_pos c t h
    | scanningForResults => exact handleScanningForResults_pos c t h
    | expectColonAfterResults => exact handleExpectColon_pos c t h
    | expectArrayStart => exact handleExpectArrayStart_pos c t h
    | parsingResultsArray => exact handleParsingResultsArray_pos c t h
    | parsingArrayEntry bc st => exact handleParsingArrayEntry_pos c bc st h
    | done => exact ⟨Nat.le_refl _, h⟩

theorem processNextStep_buffer (c : Config) :
    (processNextStep c).2.buffer = c.buffer :=
  (processNextStep_frame c).1

theorem drainLoop_eq_of_le (n : Nat) : ∀ (c : Config) (f1 f2 : Nat),
    c.pos ≤ c.buffer.length → c.buffer.length + 1 - c.pos ≤ n →
    c.buffer.length + 1 - c.pos ≤ f1 → c.buffer.length + 1 - c.pos ≤ f2 →
    drainLoop f1 c = drainLoop f2 c := by
  induction n with
  | zero =>
    intro c f1 f2 hp hn h1 h2
    omega
  | succ m ih =>
    intro c f1 f2 hp hn h1 h2
    rcases f1 with - | g1
    · omega
    rcases f2 with - | g2
    · omega
    unfold drainLoop
    dsimp only
    by_cases hcond : (processNextStep c).1 = true ∧
      (processNextStep c).2.pos ≠ c.pos
    · rw [if_pos hcond, if_pos hcond]
      have hb := processNextStep_buffer c
      have hpos := processNextStep_pos c hp
      have hlt : c.pos < (processNextStep c).2.pos :=
        Nat.lt_of_le_of_ne hpos.1 (Ne.symm hcond.2)
      apply ih
      · rw [hb]
        exact hpos.2
      · rw [hb]
        omega
      · rw [hb]
        omega
      · rw [hb]
        omega
    · rw [if_neg hcond, if_neg hcond]

/-- C8: each `parseChunk` call's drain loop really terminates with the fuel
the embedding gives it: every continuing iteration strictly advances the
cursor, the cursor never exceeds the buffer length (second conjunct), and a
step that leaves the cursor unchanged ends the loop — so running the drain
loop with any budget of at least `buffer.length + 1 - pos` iterations gives
exactly `parseChunk`'s result (first conjunct). -/
theorem c8_parse_chunk_drain_terminates :
    (∀ (ch : List Char) (c : Config) (fuel : Nat),
      c.pos ≤ (c.buffer ++ ch).length →
      (c.buffer ++ ch).length + 1 - c.pos ≤ fuel →
      drainLoop fuel { c with buffer := c.buffer ++ ch } = parseChunk ch c) ∧
    (∀ (c : Config), c.pos ≤ c.buffer.length →
      c.pos ≤ (processNextStep c).2.pos ∧
      (processNextStep c).2.pos ≤ c.buffer.length) := by
  constructor
  · intro ch c fuel hp hf
    unfold parseChunk
    dsimp only
    exact drainLoop_eq_of_le ((c.buffer ++ ch).length + 1 - c.pos)
      { c with buffer := c.buffer ++ ch } fuel
      ((c.buffer ++ ch).length + 1 - c.pos) hp (Nat.le_refl _) hf (Nat.le_refl _)
  · exact processNextStep_pos

/-- Witness for C8: draining the one-chunk buffer `[` with an oversized
budget of 5 iterations gives exactly `parseChunk`'s result, and the single
step from the initial configuration keeps the cursor within the (empty)
buffer. -/
theorem c8_witness :
    drainLoop 5 { buffer := ([] : List Char) ++ "[".toList, pos := 0, state := PState.expectObjectStart, out := [] } =
      parseChunk ("[".toList) initConfig ∧
    (0 ≤ (processNextStep initConfig).2.pos ∧
      (processNextStep initConfig).2.pos ≤ ([] : List Char).length) :=
  ⟨c8_parse_chunk_drain_terminates.1 ("[".toList) initConfig 5 (by decide)
      (by decide),
   c8_parse_chunk_drain_terminates.2 initConfig (by decide)⟩

/-! ## Claim C1: split invariance -/

/-- C1, counterexample: the document `\x7b"a":1,"results":[\x7b\x7d]\x7d` is
valid JSON of the expected shape, but splitting it into the two fragments
`\x7b"a"` and `:1,"results":[\x7b\x7d]\x7d` loses the entry: fed whole, the
run emits one entry and reaches DONE; fed split, the scanning step commits
the key token `"a"` before discovering that its colon has not arrived, so
the machine re-enters scanning at the colon, treats `:` as the next key, and
never finds the results array — zero entries are emitted. -/
theorem c1_counterexample_split_inside_key_loses_entries :
    ("\x7b\"a\"").toList ++ (":1,\"results\":[\x7b\x7d]\x7d").toList =
      ("\x7b\"a\":1,\"results\":[\x7b\x7d]\x7d").toList ∧
    (runChunks [("\x7b\"a\":1,\"results\":[\x7b\x7d]\x7d").toList]).out.length = 1 ∧
    (runChunks [("\x7b\"a\"").toList,
      (":1,\"results\":[\x7b\x7d]\x7d").toList]).out.length = 0 :=
  ⟨rfl, rfl, rfl⟩

theorem deltaSum_append (a b : List (List Char × Token)) :
    deltaSum (a ++ b) = deltaSum a + deltaSum b := by
  unfold deltaSum
  simp

theorem deltaSum_cons (t : List Char × Token) (ts : List (List Char × Token)) :
    deltaSum (t :: ts) = braceDelta t.2 + deltaSum ts := by
  unfold deltaSum
  simp

theorem toks_balanced_all :
    (∀ v : JVal, deltaSum (toks v) = 0) ∧
    (∀ es : List JVal, deltaSum (toksElems es) = 0) ∧
    (∀ fs : List (List Char × JVal), deltaSum (toksFields fs) = 0) := by
  apply toks.mutual_induct
  all_goals intros
  all_goals simp_all [toks, toksFields, toksElems, deltaSum_append, deltaSum_cons, deltaSum, braceDelta]

theorem deltaSum_take_append (a b : List (List Char × Token)) (k : Nat) :
    deltaSum ((a ++ b).take k) = deltaSum (a.take k) + deltaSum (b.take (k - a.length)) := by
  rw [List.take_append_eq_append_take, deltaSum_append]

theorem deltaSum_single_take (t : List Char × Token) (m : Nat) :
    deltaSum ([t].take m) = if m = 0 then 0 else braceDelta t.2 := by
  rcases m with - | m
  · rfl
  · simp [deltaSum]

theorem deltaSum_take_le (ts : List (List Char × Token)) (k : Nat)
    (h : ts.length ≤ k) : deltaSum (ts.take k) = deltaSum ts := by
  rw [List.take_of_length_le h]

theorem deltaSum_zero_cons_take (t : List Char × Token)
    (h : braceDelta t.2 = 0) (F : List (List Char × Token)) (j : Nat) :
    deltaSum ((t :: F).take j) = deltaSum (F.take (j - 1)) := by
  rcases j with - | j
  · simp [deltaSum]
  · rw [List.take_succ_cons, deltaSum_cons, h]
    simp

theorem toks_nonneg_all :
    (∀ v : JVal, ∀ k, 0 ≤ deltaSum ((toks v).take k)) ∧
    (∀ es : List JVal, ∀ k, 0 ≤ deltaSum ((toksElems es).take k)) ∧
    (∀ fs : List (List Char × JVal), ∀ k, 0 ≤ deltaSum ((toksFields fs).take k)) := by
  apply toks.mutual_induct
  all_goals intros
  case case1 x k =>
    rcases k with - | k
    · simp [deltaSum]
    · simp [toks, deltaSum, braceDelta]
  case case2 lx k =>
    rcases k with - | k
    · simp [deltaSum]
    · simp [toks, deltaSum, braceDelta]
  case case3 k =>
    rcases k with - | k
    · simp [deltaSum]
    · simp [toks, deltaSum, braceDelta]
  case case4 k =>
    rcases k with - | k
    · simp [deltaSum]
    · simp [toks, deltaSum, braceDelta]
  case case5 k =>
    rcases k with - | k
    · simp [deltaSum]
    · simp [toks, deltaSum, braceDelta]
  case case6 fs ihf k =>
    rcases k with - | k
    · simp [deltaSum]
    · rw [show toks (JVal.obj fs) = (['\x7b'], Token.beginObject) ::
        (toksFields fs ++ [(['\x7d'], Token.endObject)]) from rfl]
      rw [List.take_succ_cons, deltaSum_cons, deltaSum_take_append,
        deltaSum_single_take]
      have h1 := ihf k
      have h2 : deltaSum (toksFields fs) = 0 := toks_balanced_all.2.2 fs
      by_cases hk : k ≤ (toksFields fs).length
      · split
        · simp [braceDelta]
          omega
        · have h3 := deltaSum_take_le (toksFields fs) k
          simp [braceDelta]
          omega
      · split
        · simp [braceDelta]
          omega
        · have h3 := deltaSum_take_le (toksFields fs) k (by omega)
          simp [braceDelta]
          omega
  case case7 es ihe k =>
    rcases k with - | k
    · simp [deltaSum]
    · rw [show toks (JVal.arr es) = (['['], Token.beginArray) ::
        (toksElems es ++ [([']'], Token.endArray)]) from rfl]
      rw [List.take_succ_cons, deltaSum_cons, deltaSum_take_append,
        deltaSum_single_take]
      have h1 := ihe k
      have h2 : deltaSum (toksElems es) = 0 := toks_balanced_all.2.1 es
      by_cases hk : k ≤ (toksElems es).length
      · split
        · simp [braceDelta]
          omega
        · simp [braceDelta]
          omega
      · split
        · simp [braceDelta]
          omega
        · have h3 := deltaSum_take_le (toksElems es) k (by omega)
          simp [braceDelta]
          omega
  case case8 k =>
    simp [toksFields, deltaSum]
  case case9 key v ih k =>
    rw [show toksFields [(key, v)] = ('"' :: key ++ ['"'], Token.string key) ::
      ([':'], Token.nameSeparator) :: toks v from rfl]
    rw [deltaSum_zero_cons_take ('"' :: key ++ ['"'], Token.string key) rfl,
      deltaSum_zero_cons_take ([':'], Token.nameSeparator) rfl]
    exact ih (k - 1 - 1)
  case case10 key v rest hne ih2 ih1 k =>
    rcases rest with - | ⟨p2, rest2⟩
    · exact absurd rfl hne
    rw [show toksFields ((key, v) :: p2 :: rest2) =
      ('"' :: key ++ ['"'], Token.string key) ::
      ([':'], Token.nameSeparator) ::
      (toks v ++ ([','], Token.valueSeparator) :: toksFields (p2 :: rest2))
      from rfl]
    rw [deltaSum_zero_cons_take ('"' :: key ++ ['"'], Token.string key) rfl,
      deltaSum_zero_cons_take ([':'], Token.nameSeparator) rfl,
      deltaSum_take_append,
      deltaSum_zero_cons_take ([','], Token.valueSeparator) rfl]
    have h1 := ih2 (k - 1 - 1)
    have h2 := ih1 (k - 1 - 1 - (toks v).length - 1)
    by_cases hk : k - 1 - 1 ≤ (toks v).length
    · rw [show k - 1 - 1 - (toks v).length - 1 = 0 from by omega]
      have h3 : deltaSum ((toksFields (p2 :: rest2)).take 0) = 0 := by
        simp [deltaSum]
      omega
    · have h3 := deltaSum_take_le (toks v) (k - 1 - 1) (by omega)
      have h4 : deltaSum (toks v) = 0 := toks_balanced_all.1 v
      omega
  case case11 k =>
    simp [toksElems, deltaSum]
  case case12 e ih k =>
    rw [show toksElems [e] = toks e from rfl]
    exact ih k
  case case13 e rest hne ih2 ih1 k =>
    rcases rest with - | ⟨e2, rest2⟩
    · exact absurd rfl hne
    rw [show toksElems (e :: e2 :: rest2) =
      toks e ++ ([','], Token.valueSeparator) :: toksElems (e2 :: rest2)
      from rfl]
    rw [deltaSum_take_append,
      deltaSum_zero_cons_take ([','], Token.valueSeparator) rfl]
    have h1 := ih2 k
    have h2 := ih1 (k - (toks e).length - 1)
    by_cases hk : k ≤ (toks e).length
    · rw [show k - (toks e).length - 1 = 0 from by omega]
      have h3 : deltaSum ((toksElems (e2 :: rest2)).take 0) = 0 := by
        simp [deltaSum]
      omega
    · have h3 := deltaSum_take_le (toks e) k (by omega)
      have h4 : deltaSum (toks e) = 0 := toks_balanced_all.1 e
      omega

theorem jstr_verbatim (c : Char) (l acc : List Char) (h : rawSafe c = true) :
    jstrAux (c :: l) acc = jstrAux l (acc ++ [c]) := by
  unfold rawSafe at h
  simp only [Bool.and_eq_true, decide_eq_true_eq] at h
  rw [jstrAux.eq_def]
  split
  · rename_i heq
    exact absurd heq (by simp)
  · rename_i rest acc2 heq
    injection heq with hx _
    exact absurd hx h.2.1
  · rename_i rest acc2 heq
    injection heq with hx _
    exact absurd hx h.1
  · rename_i c2 rest acc2 hne1 hne2 heq
    injection heq with hx hl
    subst hx
    subst hl
    rw [if_neg (by omega)]

theorem jstr_plain_run (s : List Char) : ∀ (acc rest : List Char),
    (∀ x ∈ s, rawSafe x = true) →
    jstrAux (s ++ '"' :: rest) acc = some (acc ++ s, rest) := by
  induction s with
  | nil =>
    intro acc rest _
    simp [jstrAux]
  | cons x s2 ih =>
    intro acc rest h
    rw [List.cons_append, jstr_verbatim x (s2 ++ '"' :: rest) acc (h x (by simp)),
      ih (acc ++ [x]) rest (fun y hy => h y (by simp [hy]))]
    simp

theorem jnum_canon (lx rest : List Char) (h : canonNum lx = true)
    (hrest : sepHead rest) : jnum (lx ++ rest) = some (lx, rest) := by
  have hresthead : rest.head? = none ∨
      ∃ c, rest.head? = some c ∧ isDigitCh c = false := by
    rcases hrest with rfl | ⟨r, rfl⟩ | ⟨r, rfl⟩ | ⟨r, rfl⟩
    · exact Or.inl rfl
    · exact Or.inr ⟨',', rfl, by decide⟩
    · exact Or.inr ⟨'\x7d', rfl, by decide⟩
    · exact Or.inr ⟨']', rfl, by decide⟩
  have hnodotexp : ∀ (r2 : List Char), rest = r2 →
      jnum.jnumExp lx rest = some (lx, rest) := by
    intro r2 hr2
    rcases hrest with rfl | ⟨r, rfl⟩ | ⟨r, rfl⟩ | ⟨r, rfl⟩
    · rfl
    · rw [jnum.jnumExp.eq_def]
      dsimp only
      rw [if_neg (by decide)]
    · rw [jnum.jnumExp.eq_def]
      dsimp only
      rw [if_neg (by decide)]
    · rw [jnum.jnumExp.eq_def]
      dsimp only
      rw [if_neg (by decide)]
  have hfrac : jnum.jnumFrac lx rest = some (lx, rest) := by
    rcases hrest with rfl | ⟨r, rfl⟩ | ⟨r, rfl⟩ | ⟨r, rfl⟩
    · rfl
    · rw [jnum.jnumFrac.eq_def]
      dsimp only
      exact hnodotexp _ rfl
    · rw [jnum.jnumFrac.eq_def]
      dsimp only
      exact hnodotexp _ rfl
    · rw [jnum.jnumFrac.eq_def]
      dsimp only
      exact hnodotexp _ rfl
  unfold canonNum at h
  simp only [Bool.or_eq_true, decide_eq_true_eq, Bool.and_eq_true] at h
  rcases h with rfl | ⟨hne, hdig, hhead⟩
  · unfold jnum
    dsimp only
    exact hfrac
  · rcases hlx : lx with - | ⟨d, ds⟩
    · subst hlx
      simp at hne
    subst hlx
    have hd : isDigitCh d = true := by
      have := hdig
      simp [List.all_eq_true] at this
      exact this.1
    have hd19 : '1' ≤ d ∧ d ≤ '9' := by
      have h09 : '0' ≤ d ∧ d ≤ '9' := by simpa [isDigitCh] using hd
      have hne0 : d ≠ '0' := by
        intro he
        subst he
        simp at hhead
      constructor
      · have : '0' < d := lt_of_le_of_ne h09.1 (Ne.symm hne0)
        exact this
      · exact h09.2
    have hds : ∀ c ∈ ds, isDigitCh c = true := by
      intro c hc
      simp [List.all_eq_true] at hdig
      exact hdig.2 c hc
    unfold jnum
    dsimp only
    have hdminus : d ≠ '-' := by
      intro he
      rw [he] at hd
      exact absurd hd (by decide)
    have hsign : (match d :: ds ++ rest with
        | '-' :: r => ((['-'] : List Char), r)
        | x => (([] : List Char), d :: ds ++ rest)) =
        (([] : List Char), d :: ds ++ rest) := by
      split
      · rename_i r heq
        injection heq with h1 _
        exact absurd h1 hdminus
      · rfl
    rw [hsign]
    dsimp only
    have hd0 : d ≠ '0' := by
      intro he
      rw [he] at hhead
      simp at hhead
    split
    case h_2 =>
      rename_i y c r hne0 heq
      injection heq with h1 h2
      subst h1
      subst h2
      rw [if_pos hd19]
      simp only [List.append_eq]
      rw [spanDigits_exact ds rest hds hresthead]
      simpa using hfrac
    case h_1 =>
      rename_i y r heq
      injection heq with h1 h2
      exact absurd h1 hd0
    case h_3 =>
      rename_i y heq
      exact List.noConfusion heq

theorem sval_str (s : List Char) : sval (JVal.str s) = '"' :: s ++ ['"'] := by
  simp [sval, toks]

theorem sval_num (lx : List Char) : sval (JVal.num lx) = lx := by
  simp [sval, toks]

theorem sval_bool_true : sval (JVal.bool true) = "true".toList := by
  simp [sval, toks]

theorem sval_bool_false : sval (JVal.bool false) = "false".toList := by
  simp [sval, toks]

theorem sval_null : sval JVal.null = "null".toList := by
  simp [sval, toks]

theorem sval_obj (fs : List (List Char × JVal)) :
    sval (JVal.obj fs) = '\x7b' :: (fieldsText fs ++ ['\x7d']) := by
  simp [sval, toks, fieldsText]

theorem sval_arr (es : List JVal) :
    sval (JVal.arr es) = '[' :: (elemsText es ++ [']']) := by
  simp [sval, toks, elemsText]

theorem fieldsText_nil : fieldsText [] = [] := rfl

theorem fieldsText_single (k : List Char) (v : JVal) :
    fieldsText [(k, v)] = '"' :: k ++ '"' :: ':' :: sval v := by
  simp [fieldsText, toksFields, sval]

theorem fieldsText_cons (k : List Char) (v : JVal) (p : List Char × JVal)
    (fs : List (List Char × JVal)) :
    fieldsText ((k, v) :: p :: fs) =
      '"' :: k ++ '"' :: ':' :: (sval v ++ ',' :: fieldsText (p :: fs)) := by
  simp [fieldsText, toksFields, sval]

theorem elemsText_nil : elemsText [] = [] := rfl

theorem elemsText_single (e : JVal) : elemsText [e] = sval e := by
  simp [elemsText, toksElems, sval]

theorem elemsText_cons (e e2 : JVal) (es : List JVal) :
    elemsText (e :: e2 :: es) = sval e ++ ',' :: elemsText (e2 :: es) := by
  simp [elemsText, toksElems, sval]

theorem jskipWs_cons_not_ws (c : Char) (l : List Char)
    (h : jsonWsChar c = false) : jskipWs (c :: l) = c :: l := by
  simp [jskipWs, List.dropWhile_cons, h]

theorem sval_head (e : JVal) (h : GoodVal e = true) :
    ∃ c tl, sval e = c :: tl ∧ jsonWsChar c = false ∧ c ≠ ']' ∧
      c ≠ '\x7d' ∧ c ≠ ',' := by
  cases e with
  | str s => exact ⟨'"', s ++ ['"'], by rw [sval_str]; simp, by decide, by decide,
      by decide, by decide⟩
  | num lx =>
    have hcn : canonNum lx = true := by simpa [GoodVal] using h
    have hshape : ∃ d ds, lx = d :: ds ∧ isDigitCh d = true := by
      unfold canonNum at hcn
      simp only [Bool.or_eq_true, decide_eq_true_eq, Bool.and_eq_true] at hcn
      rcases hcn with rfl | ⟨h1, h2, h3⟩
      · exact ⟨'0', [], rfl, by decide⟩
      · rcases hl : lx with - | ⟨d, ds⟩
        · rw [hl] at h1
          simp at h1
        · refine ⟨d, ds, rfl, ?_⟩
          rw [hl] at h2
          simp [List.all_eq_true] at h2
          exact h2.1
    obtain ⟨d, ds, rfl, hd⟩ := hshape
    have hdB : (48 : Nat) ≤ d.toNat ∧ d.toNat ≤ 57 := by
      unfold isDigitCh at hd
      simp only [decide_eq_true_eq] at hd
      exact ⟨hd.1, hd.2⟩
    refine ⟨d, ds, by rw [sval_num], ?_, ?_, ?_, ?_⟩
    · unfold jsonWsChar
      refine decide_eq_false ?_
      rintro (rfl | rfl | rfl | rfl) <;> exact absurd hdB (by decide)
    · exact digit_ne_char hd ']' (by right; decide)
    · exact digit_ne_char hd '\x7d' (by right; decide)
    · exact digit_ne_char hd ',' (by left; decide)
  | bool b =>
    cases b with
    | true => exact ⟨'t', "rue".toList, by rw [sval_bool_true]; rfl, by decide,
        by decide, by decide, by decide⟩
    | false => exact ⟨'f', "alse".toList, by rw [sval_bool_false]; rfl, by decide,
        by decide, by decide, by decide⟩
  | null => exact ⟨'n', "ull".toList, by rw [sval_null]; rfl, by decide,
      by decide, by decide, by decide⟩
  | obj fs => exact ⟨'\x7b', fieldsText fs ++ ['\x7d'], by rw [sval_obj],
      by decide, by decide, by decide, by decide⟩
  | arr es => exact ⟨'[', elemsText es ++ [']'], by rw [sval_arr], by decide,
      by decide, by decide, by decide⟩

theorem jparse_sval_all : ∀ (fuel : Nat),
    (∀ v : JVal, GoodVal v = true → ∀ rest : List Char, sepHead rest →
      (sval v).length < fuel →
      jparseV fuel (sval v ++ rest) = some (v, rest)) ∧
    (∀ fs : List (List Char × JVal), GoodFields fs = true → fs ≠ [] →
      ∀ (acc : List (List Char × JVal)) (rest : List Char),
      (fieldsText fs).length + 1 < fuel →
      jparseFields fuel (fieldsText fs ++ '\x7d' :: rest) acc =
        some (JVal.obj (acc ++ fs), rest)) ∧
    (∀ es : List JVal, GoodElems es = true → es ≠ [] →
      ∀ (acc : List JVal) (rest : List Char),
      (elemsText es).length + 1 < fuel →
      jparseItems fuel (elemsText es ++ ']' :: rest) acc =
        some (JVal.arr (acc ++ es), rest)) := by
  intro fuel
  induction fuel using Nat.strong_induction_on with
  | _ fuel ih =>
  rcases fuel with - | f
  · refine ⟨?_, ?_, ?_⟩ <;> (intros; omega)
  refine ⟨?_, ?_, ?_⟩
  · intro v hgood rest hsep hlen
    cases v with
    | str s =>
      have hs : ∀ x ∈ s, rawSafe x = true := by
        simp only [GoodVal, List.all_eq_true] at hgood
        exact hgood
      rw [sval_str]
      unfold jparseV
      rw [show (('"' :: s ++ ['"']) ++ rest) = '"' :: (s ++ '"' :: rest) from by
        simp]
      rw [jskipWs_cons_not_ws '"' _ (by decide)]
      dsimp only
      rw [if_neg (by decide), if_neg (by decide), if_pos rfl,
        jstr_plain_run s [] rest hs]
      simp
    | num lx =>
      have hcn : canonNum lx = true := by simpa [GoodVal] using hgood
      have hshape : ∃ d ds, lx = d :: ds ∧ isDigitCh d = true := by
        unfold canonNum at hcn
        simp only [Bool.or_eq_true, decide_eq_true_eq, Bool.and_eq_true] at hcn
        rcases hcn with rfl | ⟨h1, h2, h3⟩
        · exact ⟨'0', [], rfl, by decide⟩
        · rcases hl : lx with - | ⟨d, ds⟩
          · rw [hl] at h1
            simp at h1
          · refine ⟨d, ds, rfl, ?_⟩
            rw [hl] at h2
            simp [List.all_eq_true] at h2
            exact h2.1
      obtain ⟨d, ds, rfl, hd⟩ := hshape
      have hdB : (48 : Nat) ≤ d.toNat ∧ d.toNat ≤ 57 := by
        unfold isDigitCh at hd
        simp only [decide_eq_true_eq] at hd
        exact ⟨hd.1, hd.2⟩
      rw [sval_num]
      unfold jparseV
      rw [show ((d :: ds) ++ rest) = d :: (ds ++ rest) from rfl]
      rw [jskipWs_cons_not_ws d _ (by
        unfold jsonWsChar
        refine decide_eq_false ?_
        rintro (rfl | rfl | rfl | rfl) <;> exact absurd hdB (by decide))]
      dsimp only
      rw [if_neg (digit_ne_char hd '\x7b' (by right; decide)),
        if_neg (digit_ne_char hd '[' (by right; decide)),
        if_neg (digit_ne_char hd '"' (by left; decide)),
        if_pos (Or.inr (show '0' ≤ d ∧ d ≤ '9' from ⟨hdB.1, hdB.2⟩)),
        show d :: (ds ++ rest) = (d :: ds) ++ rest from rfl,
        jnum_canon (d :: ds) rest hcn hsep]
    | bool b =>
      cases b with
      | true =>
        rw [sval_bool_true]
        unfold jparseV
        rw [show ("true".toList ++ rest) = 't' :: ('r' :: 'u' :: 'e' :: rest)
          from rfl]
        rw [jskipWs_cons_not_ws 't' _ (by decide)]
        dsimp only
        rw [if_neg (by decide), if_neg (by decide), if_neg (by decide),
          if_neg (by decide), if_pos (by simp)]
        simp
      | false =>
        rw [sval_bool_false]
        unfold jparseV
        rw [show ("false".toList ++ rest) = 'f' :: ('a' :: 'l' :: 's' :: 'e' :: rest)
          from rfl]
        rw [jskipWs_cons_not_ws 'f' _ (by decide)]
        dsimp only
        rw [if_neg (by decide), if_neg (by decide), if_neg (by decide),
          if_neg (by decide), if_neg (by simp), if_pos (by simp)]
        simp
    | null =>
      rw [sval_null]
      unfold jparseV
      rw [show ("null".toList ++ rest) = 'n' :: ('u' :: 'l' :: 'l' :: rest)
        from rfl]
      rw [jskipWs_cons_not_ws 'n' _ (by decide)]
      dsimp only
      rw [if_neg (by decide), if_neg (by decide), if_neg (by decide),
        if_neg (by decide), if_neg (by simp), if_neg (by simp),
        if_pos (by simp)]
      simp
    | obj fs =>
      have hgf : GoodFields fs = true := by simpa [GoodVal] using hgood
      rw [sval_obj]
      unfold jparseV
      rw [show (('\x7b' :: (fieldsText fs ++ ['\x7d'])) ++ rest) =
        '\x7b' :: (fieldsText fs ++ '\x7d' :: rest) from by simp]
      rw [jskipWs_cons_not_ws '\x7b' _ (by decide)]
      dsimp only
      rw [if_pos rfl]
      rcases fs with - | ⟨⟨k, v⟩, fs'⟩
      · rw [fieldsText_nil]
        simp only [List.nil_append]
        rw [jskipWs_cons_not_ws '\x7d' _ (by decide)]
        rfl
      · have hksplit : ∃ tl, fieldsText ((k, v) :: fs') = '"' :: tl := by
          rcases fs' with - | ⟨p2, fs''⟩
          · exact ⟨k ++ '"' :: ':' :: sval v, by rw [fieldsText_single]; simp⟩
          · exact ⟨k ++ '"' :: ':' :: (sval v ++ ',' :: fieldsText (p2 :: fs'')),
              by rw [fieldsText_cons]; simp⟩
        obtain ⟨tl, htl⟩ := hksplit
        rw [htl]
        rw [show (('"' :: tl) ++ '\x7d' :: rest) = '"' :: (tl ++ '\x7d' :: rest)
          from rfl]
        rw [jskipWs_cons_not_ws '"' _ (by decide)]
        have hPF := (ih f (by omega)).2.1 ((k, v) :: fs') hgf (by simp) [] rest (by
          have hsl : (sval (JVal.obj ((k, v) :: fs'))).length =
              (fieldsText ((k, v) :: fs')).length + 2 := by
            rw [sval_obj]
            simp
          omega)
        rw [htl] at hPF
        simpa using hPF
    | arr es =>
      have hge : GoodElems es = true := by simpa [GoodVal] using hgood
      rw [sval_arr]
      unfold jparseV
      rw [show (('[' :: (elemsText es ++ [']'])) ++ rest) =
        '[' :: (elemsText es ++ ']' :: rest) from by simp]
      rw [jskipWs_cons_not_ws '[' _ (by decide)]
      dsimp only
      rw [if_neg (by decide), if_pos rfl]
      rcases es with - | ⟨e1, es'⟩
      · rw [elemsText_nil]
        simp only [List.nil_append]
        rw [jskipWs_cons_not_ws ']' _ (by decide)]
        rfl
      · have hg1 : GoodVal e1 = true := by
          have := hge
          unfold GoodElems at this
          simp only [Bool.and_eq_true] at this
          exact this.1
        obtain ⟨c, tl, hsv, hws, hbr, hbc, hcm⟩ := sval_head e1 hg1
        have hesplit : ∃ T, elemsText (e1 :: es') = c :: (tl ++ T) := by
          rcases es' with - | ⟨e2, es''⟩
          · exact ⟨[], by rw [elemsText_single, hsv]; simp⟩
          · exact ⟨',' :: elemsText (e2 :: es''),
              by rw [elemsText_cons, hsv]; simp⟩
        obtain ⟨T, hT⟩ := hesplit
        rw [hT]
        rw [show ((c :: (tl ++ T)) ++ ']' :: rest) = c :: (tl ++ T ++ ']' :: rest)
          from by simp]
        rw [jskipWs_cons_not_ws c _ hws]
        have hPI := (ih f (by omega)).2.2 (e1 :: es') hge (by simp) [] rest (by
          have hsl : (sval (JVal.arr (e1 :: es'))).length =
              (elemsText (e1 :: es')).length + 2 := by
            rw [sval_arr]
            simp
          omega)
        rw [hT] at hPI
        -- the match must take the fallback arm since c is not a bracket
        have hred : (match c :: (tl ++ T ++ ']' :: rest) with
            | ']' :: r2 => some (JVal.arr [], r2)
            | x => jparseItems f (c :: (tl ++ T ++ ']' :: rest)) []) =
            jparseItems f (c :: (tl ++ T ++ ']' :: rest)) [] := by
          split
          · rename_i r2 heq
            injection heq with h1 _
            exact absurd h1 hbr
          · rfl
        rw [hred]
        simpa using hPI
  · intro fs hgood hne acc rest hlen
    rcases fs with - | ⟨⟨k, v⟩, fs'⟩
    · exact absurd rfl hne
    have hparts : (∀ x ∈ k, rawSafe x = true) ∧ GoodVal v = true ∧
        GoodFields fs' = true := by
      unfold GoodFields at hgood
      simp only [Bool.and_eq_true, List.all_eq_true] at hgood
      exact ⟨hgood.1.1, hgood.1.2, hgood.2⟩
    obtain ⟨hk, hgv, hgf'⟩ := hparts
    unfold jparseFields
    rcases fs' with - | ⟨⟨k2, v2⟩, fs''⟩
    · have hflen : (fieldsText [(k, v)]).length =
          k.length + 3 + (sval v).length := by
        rw [fieldsText_single]
        simp
        omega
      rw [fieldsText_single]
      rw [show ((('"' :: k) ++ '"' :: ':' :: sval v) ++ '\x7d' :: rest) =
        '"' :: (k ++ '"' :: (':' :: (sval v ++ '\x7d' :: rest))) from by simp]
      rw [jskipWs_cons_not_ws '"' _ (by decide)]
      split
      case h_2 =>
        rename_i hno
        exact ((hno _ rfl).elim)
      case h_1 =>
        rename_i r heq
        injection heq with h1 h2
        subst h2
        rw [jstr_plain_run k [] _ hk]
        dsimp only
        rw [jskipWs_cons_not_ws ':' _ (by decide)]
        split
        case h_2 =>
          rename_i hno
          exact ((hno _ rfl).elim)
        case h_1 =>
          rename_i r3 heq2
          injection heq2 with h3 h4
          subst h4
          rw [(ih f (by omega)).1 v hgv ('\x7d' :: rest)
            (Or.inr (Or.inr (Or.inl ⟨rest, rfl⟩))) (by omega)]
          dsimp only
          rw [jskipWs_cons_not_ws '\x7d' _ (by decide)]
          split
          case h_1 =>
            rename_i r5 heq3
            exact absurd (congrArg List.head? heq3) (by simp)
          case h_2 =>
            rename_i r5 heq3
            injection heq3 with h5 h6
            subst h6
            simp
          case h_3 =>
            rename_i hno1 hno2
            exact ((hno2 _ rfl).elim)
    · have hflen : (fieldsText ((k, v) :: (k2, v2) :: fs'')).length =
          k.length + 4 + (sval v).length +
            (fieldsText ((k2, v2) :: fs'')).length := by
        rw [fieldsText_cons]
        simp
        omega
      rw [fieldsText_cons]
      rw [show ((('"' :: k) ++ '"' :: ':' ::
          (sval v ++ ',' :: fieldsText ((k2, v2) :: fs''))) ++ '\x7d' :: rest) =
        '"' :: (k ++ '"' :: (':' :: (sval v ++
          ',' :: (fieldsText ((k2, v2) :: fs'') ++ '\x7d' :: rest))))
        from by simp]
      rw [jskipWs_cons_not_ws '"' _ (by decide)]
      split
      case h_2 =>
        rename_i hno
        exact ((hno _ rfl).elim)
      case h_1 =>
        rename_i r heq
        injection heq with h1 h2
        subst h2
        rw [jstr_plain_run k [] _ hk]
        dsimp only
        rw [jskipWs_cons_not_ws ':' _ (by decide)]
        split
        case h_2 =>
          rename_i hno
          exact ((hno _ rfl).elim)
        case h_1 =>
          rename_i r3 heq2
          injection heq2 with h3 h4
          subst h4
          rw [(ih f (by omega)).1 v hgv
            (',' :: (fieldsText ((k2, v2) :: fs'') ++ '\x7d' :: rest))
            (Or.inr (Or.inl ⟨_, rfl⟩)) (by omega)]
          dsimp only
          rw [jskipWs_cons_not_ws ',' _ (by decide)]
          split
          case h_1 =>
            rename_i r5 heq3
            injection heq3 with h5 h6
            subst h6
            rw [(ih f (by omega)).2.1 ((k2, v2) :: fs'') hgf' (by simp)
              (acc ++ [([] ++ k, v)]) rest (by omega)]
            simp
          case h_2 =>
            rename_i r5 heq3
            injection heq3 with h5 h6
            exact absurd h5 (by decide)
          case h_3 =>
            rename_i hno1 hno2
            exact ((hno1 _ rfl).elim)
  · intro es hgood hne acc rest hlen
    rcases es with - | ⟨e1, es'⟩
    · exact absurd rfl hne
    have hparts : GoodVal e1 = true ∧ GoodElems es' = true := by
      unfold GoodElems at hgood
      simp only [Bool.and_eq_true] at hgood
      exact hgood
    obtain ⟨hg1, hge'⟩ := hparts
    unfold jparseItems
    rcases es' with - | ⟨e2, es''⟩
    · have helen : (elemsText [e1]).length = (sval e1).length := by
        rw [elemsText_single]
      rw [elemsText_single]
      rw [(ih f (by omega)).1 e1 hg1 (']' :: rest)
        (Or.inr (Or.inr (Or.inr ⟨rest, rfl⟩))) (by omega)]
      try dsimp only
      rw [jskipWs_cons_not_ws ']' _ (by decide)]
      simp
    · have helen : (elemsText (e1 :: e2 :: es'')).length =
          (sval e1).length + 1 + (elemsText (e2 :: es'')).length := by
        rw [elemsText_cons]
        simp
        omega
      rw [elemsText_cons]
      rw [show ((sval e1 ++ ',' :: elemsText (e2 :: es'')) ++ ']' :: rest) =
        sval e1 ++ (',' :: (elemsText (e2 :: es'') ++ ']' :: rest))
        from by simp]
      rw [(ih f (by omega)).1 e1 hg1
        (',' :: (elemsText (e2 :: es'') ++ ']' :: rest))
        (Or.inr (Or.inl ⟨_, rfl⟩)) (by omega)]
      dsimp only
      rw [jskipWs_cons_not_ws ',' _ (by decide)]
      split
      case h_1 =>
        rename_i r2 heq
        injection heq with h1 h2
        subst h2
        rw [(ih f (by omega)).2.2 (e2 :: es'') hge' (by simp)
          (acc ++ [e1]) rest (by omega)]
        simp
      case h_2 =>
        rename_i r2 heq
        injection heq with h1 h2
        exact absurd h1 (by decide)
      case h_3 =>
        rename_i hno1 hno2
        exact ((hno1 _ rfl).elim)

theorem jsonParse_sval (e : JVal) (h : GoodVal e = true) :
    jsonParse (sval e) = some e := by
  unfold jsonParse
  have hp := (jparse_sval_all ((sval e).length + 1)).1 e h [] (Or.inl rfl)
    (by omega)
  rw [show sval e ++ [] = sval e from by simp] at hp
  rw [hp]
  rfl

theorem nextToken_empty (buffer : List Char) (pos : Nat)
    (hdrop : buffer.drop pos = []) : nextToken buffer pos = (none, pos) := by
  have hskip : skipWsPos buffer pos = pos := by
    unfold skipWsPos
    rw [hdrop]
    rfl
  unfold nextToken
  rw [hskip]
  unfold nextTokenAt
  rw [hdrop]
  rfl

theorem nextToken_punct (buffer : List Char) (pos : Nat) (ch : Char)
    (rest : List Char) (t : Token) (hdrop : buffer.drop pos = ch :: rest)
    (hch : (ch = '\x7b' ∧ t = Token.beginObject) ∨
      (ch = '\x7d' ∧ t = Token.endObject) ∨
      (ch = '[' ∧ t = Token.beginArray) ∨
      (ch = ']' ∧ t = Token.endArray) ∨
      (ch = ':' ∧ t = Token.nameSeparator) ∨
      (ch = ',' ∧ t = Token.valueSeparator)) :
    nextToken buffer pos = (some t, pos + 1) := by
  have hh : (buffer.drop pos).head? = some ch := by rw [hdrop]; rfl
  unfold nextToken
  rcases hch with ⟨rfl, rfl⟩ | ⟨rfl, rfl⟩ | ⟨rfl, rfl⟩ | ⟨rfl, rfl⟩ |
    ⟨rfl, rfl⟩ | ⟨rfl, rfl⟩ <;>
    (rw [skipWsPos_not_ws hh (by decide)]
     unfold nextTokenAt
     rw [hh]
     dsimp only) <;>
    simp

theorem rawSafe_plain {c : Char} (h : rawSafe c = true) : plainStrChar c = true := by
  unfold rawSafe at h
  unfold plainStrChar
  simp only [Bool.and_eq_true, decide_eq_true_eq] at h ⊢
  exact ⟨h.1, h.2.1⟩

theorem readStrAux_close (acc rest : List Char) :
    readStrAux ('"' :: rest) acc = some (acc, rest) := by
  rfl

theorem readStrAux_all_plain_none (s : List Char) : ∀ acc,
    (∀ x ∈ s, plainStrChar x = true) → readStrAux s acc = none := by
  induction s with
  | nil => intro acc _; rfl
  | cons x s' ih =>
    intro acc h
    have hx := h x (by simp)
    unfold plainStrChar at hx
    simp only [Bool.and_eq_true, decide_eq_true_eq] at hx
    rw [readStrAux_verbatim x s' acc hx.1 hx.2]
    exact ih _ (fun y hy => h y (by simp [hy]))

theorem nextToken_string_complete (buffer : List Char) (pos : Nat)
    (s rest : List Char)
    (hdrop : buffer.drop pos = '"' :: (s ++ '"' :: rest))
    (hs : ∀ x ∈ s, plainStrChar x = true) :
    nextToken buffer pos = (some (Token.string s), pos + s.length + 2) := by
  have hh : (buffer.drop pos).head? = some '"' := by rw [hdrop]; rfl
  have hpos : pos ≤ buffer.length := by
    by_contra hlt
    push_neg at hlt
    rw [List.drop_eq_nil_of_le (le_of_lt hlt)] at hdrop
    exact List.noConfusion hdrop
  have hlen : buffer.length - pos = s.length + rest.length + 2 := by
    have h2 := congrArg List.length hdrop
    simp [List.length_drop] at h2
    omega
  unfold nextToken
  rw [skipWsPos_not_ws hh (by decide)]
  unfold nextTokenAt
  rw [hh]
  dsimp only
  rw [if_neg (by decide), if_neg (by decide), if_neg (by decide),
    if_neg (by decide), if_neg (by decide), if_neg (by decide), if_pos rfl]
  unfold readString
  rw [hdrop]
  simp only [List.drop_succ_cons, List.drop_zero]
  rw [readStrAux_plain s [] ('"' :: rest) hs, readStrAux_close]
  simp only [List.nil_append]
  have : buffer.length - rest.length = pos + s.length + 2 := by omega
  rw [this]

theorem nextToken_string_partial (buffer : List Char) (pos : Nat)
    (s' : List Char) (hdrop : buffer.drop pos = '"' :: s')
    (hs : ∀ x ∈ s', plainStrChar x = true) :
    nextToken buffer pos = (none, pos) := by
  have hh : (buffer.drop pos).head? = some '"' := by rw [hdrop]; rfl
  unfold nextToken
  rw [skipWsPos_not_ws hh (by decide)]
  unfold nextTokenAt
  rw [hh]
  dsimp only
  rw [if_neg (by decide), if_neg (by decide), if_neg (by decide),
    if_neg (by decide), if_neg (by decide), if_neg (by decide), if_pos rfl]
  unfold readString
  rw [hdrop]
  simp only [List.drop_succ_cons, List.drop_zero]
  rw [readStrAux_all_plain_none s' [] hs]

theorem canonNum_claimRun {lx : List Char} (h : canonNum lx = true) :
    claimNumRun lx = true := by
  unfold canonNum at h
  simp only [Bool.or_eq_true, Bool.and_eq_true, decide_eq_true_eq,
    Bool.not_eq_true'] at h
  rcases h with h0 | ⟨hne, hall, -⟩
  · subst h0; decide
  · unfold claimNumRun
    have hsp : spanDigits (lx ++ []) = (lx, []) :=
      spanDigits_exact lx []
        (fun c hc => by
          have := List.all_eq_true.mp hall c hc
          simpa using this)
        (Or.inl rfl)
    rw [List.append_nil] at hsp
    rw [hsp]
    dsimp only
    cases lx with
    | nil => simp at hne
    | cons a l => simp [wfExpPart]

theorem nextToken_number_complete (buffer : List Char) (pos : Nat)
    (lx : List Char) (c : Char) (rest : List Char)
    (hlx : canonNum lx = true)
    (hdrop : buffer.drop pos = lx ++ c :: rest)
    (hc1 : isDigitCh c = false) (hc2 : c ≠ '.') (hc3 : c ≠ 'e')
    (hc4 : c ≠ 'E') :
    nextToken buffer pos = (some (Token.number lx), pos + lx.length) := by
  have hrun := canonNum_claimRun hlx
  obtain ⟨d, dl, hshape, hd⟩ := claimRun_head_digit lx hrun
  have hh : (buffer.drop pos).head? = some d := by
    rw [hdrop, hshape]; rfl
  unfold nextToken
  rw [skipWsPos_not_ws hh (isJsWs_of_digit hd)]
  exact nextTokenAt_claimRun_brk lx hrun buffer pos c rest hdrop hc1 hc2 hc3 hc4

theorem nextToken_number_partial (buffer : List Char) (pos : Nat)
    (lx : List Char) (hlx : canonNum lx = true)
    (hdrop : buffer.drop pos = lx) :
    nextToken buffer pos = (none, pos) := by
  have hrun := canonNum_claimRun hlx
  obtain ⟨d, dl, hshape, hd⟩ := claimRun_head_digit lx hrun
  have hh : (buffer.drop pos).head? = some d := by
    rw [hdrop, hshape]; rfl
  unfold nextToken
  rw [skipWsPos_not_ws hh (isJsWs_of_digit hd)]
  exact nextTokenAt_claimRun_end lx hrun buffer pos hdrop

theorem canonNum_take {lx : List Char} (h : canonNum lx = true) (m : Nat)
    (hm : 1 ≤ m) : canonNum (lx.take m) = true := by
  unfold canonNum at h ⊢
  simp only [Bool.or_eq_true, Bool.and_eq_true, decide_eq_true_eq,
    Bool.not_eq_true'] at h ⊢
  rcases h with h0 | ⟨hne, hall, hhd⟩
  · subst h0
    left
    cases m with
    | zero => omega
    | succ k => simp
  · right
    cases lx with
    | nil => simp at hne
    | cons a l =>
      cases m with
      | zero => omega
      | succ k =>
        refine ⟨by simp, ?_, ?_⟩
        · simp only [List.take_succ_cons, List.all_cons, Bool.and_eq_true] at hall ⊢
          exact ⟨hall.1, List.all_eq_true.mpr fun c hc =>
            List.all_eq_true.mp hall.2 c (List.mem_of_mem_take hc)⟩
        · simpa using hhd

theorem nextTokenAt_else (buffer : List Char) (pos : Nat) (c : Char)
    (hh : (buffer.drop pos).head? = some c)
    (h1 : c ≠ '\x7b') (h2 : c ≠ '\x7d') (h3 : c ≠ '[') (h4 : c ≠ ']')
    (h5 : c ≠ ':') (h6 : c ≠ ',') (h7 : c ≠ '"')
    (h8 : ¬(c = '-' ∨ ('0' ≤ c ∧ c ≤ '9')))
    (h9 : startsWithAt buffer pos ['t', 'r', 'u', 'e'] = false)
    (h10 : startsWithAt buffer pos ['f', 'a', 'l', 's', 'e'] = false)
    (h11 : startsWithAt buffer pos ['n', 'u', 'l', 'l'] = false) :
    nextTokenAt buffer pos = (none, pos) := by
  unfold nextTokenAt
  rw [hh]
  dsimp only
  rw [if_neg h1, if_neg h2, if_neg h3, if_neg h4, if_neg h5, if_neg h6,
    if_neg h7, if_neg h8, if_neg (by simp [h9]), if_neg (by simp [h10]),
    if_neg (by simp [h11])]

theorem nextToken_lit_true (buffer : List Char) (pos : Nat) (rest : List Char)
    (hdrop : buffer.drop pos = 't' :: 'r' :: 'u' :: 'e' :: rest) :
    nextToken buffer pos = (some (Token.litValue (some true)), pos + 4) := by
  have hh : (buffer.drop pos).head? = some 't' := by rw [hdrop]; rfl
  unfold nextToken
  rw [skipWsPos_not_ws hh (by decide)]
  unfold nextTokenAt
  rw [hh]
  dsimp only
  rw [if_neg (by decide), if_neg (by decide), if_neg (by decide),
    if_neg (by decide), if_neg (by decide), if_neg (by decide),
    if_neg (by decide), if_neg (by decide),
    if_pos (show startsWithAt buffer pos "true".toList = true by
      simp [startsWithAt, hdrop])]

theorem nextToken_lit_false (buffer : List Char) (pos : Nat) (rest : List Char)
    (hdrop : buffer.drop pos = 'f' :: 'a' :: 'l' :: 's' :: 'e' :: rest) :
    nextToken buffer pos = (some (Token.litValue (some false)), pos + 5) := by
  have hh : (buffer.drop pos).head? = some 'f' := by rw [hdrop]; rfl
  unfold nextToken
  rw [skipWsPos_not_ws hh (by decide)]
  unfold nextTokenAt
  rw [hh]
  dsimp only
  rw [if_neg (by decide), if_neg (by decide), if_neg (by decide),
    if_neg (by decide), if_neg (by decide), if_neg (by decide),
    if_neg (by decide), if_neg (by decide),
    if_neg (by simp [startsWithAt, hdrop]),
    if_pos (show startsWithAt buffer pos "false".toList = true by
      simp [startsWithAt, hdrop])]

theorem nextToken_lit_null (buffer : List Char) (pos : Nat) (rest : List Char)
    (hdrop : buffer.drop pos = 'n' :: 'u' :: 'l' :: 'l' :: rest) :
    nextToken buffer pos = (some (Token.litValue none), pos + 4) := by
  have hh : (buffer.drop pos).head? = some 'n' := by rw [hdrop]; rfl
  unfold nextToken
  rw [skipWsPos_not_ws hh (by decide)]
  unfold nextTokenAt
  rw [hh]
  dsimp only
  rw [if_neg (by decide), if_neg (by decide), if_neg (by decide),
    if_neg (by decide), if_neg (by decide), if_neg (by decide),
    if_neg (by decide), if_neg (by decide),
    if_neg (by simp [startsWithAt, hdrop]),
    if_neg (by simp [startsWithAt, hdrop]),
    if_pos (show startsWithAt buffer pos "null".toList = true by
      simp [startsWithAt, hdrop])]

theorem nextToken_lit_partial (buffer : List Char) (pos : Nat)
    (w : List Char) (m : Nat)
    (hw : w = "true".toList ∨ w = "false".toList ∨ w = "null".toList)
    (hm1 : 1 ≤ m) (hm2 : m < w.length)
    (hdrop : buffer.drop pos = w.take m) :
    nextToken buffer pos = (none, pos) := by
  rcases hw with rfl | rfl | rfl
  · have hm4 : m < 4 := by simpa using hm2
    have hc : buffer.drop pos = ['t'] ∨ buffer.drop pos = ['t', 'r'] ∨
        buffer.drop pos = ['t', 'r', 'u'] := by
      interval_cases m
      · exact Or.inl hdrop
      · exact Or.inr (Or.inl hdrop)
      · exact Or.inr (Or.inr hdrop)
    have hh : (buffer.drop pos).head? = some 't' := by
      rcases hc with h | h | h <;> rw [h] <;> rfl
    unfold nextToken
    rw [skipWsPos_not_ws hh (by decide)]
    refine nextTokenAt_else buffer pos 't' hh (by decide) (by decide)
      (by decide) (by decide) (by decide) (by decide) (by decide)
      (by decide) ?_ ?_ ?_ <;>
      (rcases hc with h | h | h <;> simp [startsWithAt, h])
  · have hm5 : m < 5 := by simpa using hm2
    have hc : buffer.drop pos = ['f'] ∨ buffer.drop pos = ['f', 'a'] ∨
        buffer.drop pos = ['f', 'a', 'l'] ∨
        buffer.drop pos = ['f', 'a', 'l', 's'] := by
      interval_cases m
      · exact Or.inl hdrop
      · exact Or.inr (Or.inl hdrop)
      · exact Or.inr (Or.inr (Or.inl hdrop))
      · exact Or.inr (Or.inr (Or.inr hdrop))
    have hh : (buffer.drop pos).head? = some 'f' := by
      rcases hc with h | h | h | h <;> rw [h] <;> rfl
    unfold nextToken
    rw [skipWsPos_not_ws hh (by decide)]
    refine nextTokenAt_else buffer pos 'f' hh (by decide) (by decide)
      (by decide) (by decide) (by decide) (by decide) (by decide)
      (by decide) ?_ ?_ ?_ <;>
      (rcases hc with h | h | h | h <;> simp [startsWithAt, h])
  · have hm4 : m < 4 := by simpa using hm2
    have hc : buffer.drop pos = ['n'] ∨ buffer.drop pos = ['n', 'u'] ∨
        buffer.drop pos = ['n', 'u', 'l'] := by
      interval_cases m
      · exact Or.inl hdrop
      · exact Or.inr (Or.inl hdrop)
      · exact Or.inr (Or.inr hdrop)
    have hh : (buffer.drop pos).head? = some 'n' := by
      rcases hc with h | h | h <;> rw [h] <;> rfl
    unfold nextToken
    rw [skipWsPos_not_ws hh (by decide)]
    refine nextTokenAt_else buffer pos 'n' hh (by decide) (by decide)
      (by decide) (by decide) (by decide) (by decide) (by decide)
      (by decide) ?_ ?_ ?_ <;>
      (rcases hc with h | h | h <;> simp [startsWithAt, h])

theorem sepElems_cons_ne (e : JVal) (rest : List JVal) (h : rest ≠ []) :
    sepElems (e :: rest) = sval e ++ ',' :: sepElems rest := by
  cases rest with
  | nil => exact absurd rfl h
  | cons t ts => rfl

theorem sepElems_append (a b : List JVal) (hb : b ≠ []) :
    sepElems (a ++ b) =
      sepElems a ++ (if a.isEmpty then [] else [',']) ++ sepElems b := by
  induction a with
  | nil => simp [sepElems]
  | cons x a' ih =>
    rw [List.cons_append, sepElems_cons_ne x (a' ++ b) (by simp [hb]), ih]
    cases a' with
    | nil => simp [sepElems]
    | cons y a'' =>
      rw [sepElems_cons_ne x (y :: a'') (by simp)]
      simp

theorem doc_drop_atElem (es done todo : List JVal) (h : es = done ++ todo)
    (hde : done ≠ [] → todo ≠ []) :
    (docText es).drop (posAtElem done) = sepElems todo ++ ']' :: ['\x7d'] := by
  cases hd : done with
  | nil =>
    subst hd
    simp only [List.nil_append] at h
    subst h
    unfold docText posAtElem
    simp [sepElems]
  | cons d ds =>
    have htodo : todo ≠ [] := hde (by simp [hd])
    subst h
    unfold docText posAtElem
    rw [sepElems_append done todo htodo]
    rw [hd]
    simp only [List.isEmpty_cons, Bool.false_eq_true, if_false,
      List.isEmpty_eq_true]
    have hassoc : "\x7b\"results\":[".toList ++
        (sepElems (d :: ds) ++ [','] ++ sepElems todo) ++ "]\x7d".toList =
        ("\x7b\"results\":[".toList ++ sepElems (d :: ds) ++ [',']) ++
          (sepElems todo ++ "]\x7d".toList) := by simp
    have hlen : 12 + (sepElems (d :: ds)).length + 1 =
        ("\x7b\"results\":[".toList ++ sepElems (d :: ds) ++ [',']).length := by
      simp
      omega
    rw [hassoc, hlen, List.drop_left]
    rfl

theorem doc_drop_postElem (es done todo : List JVal) (e : JVal)
    (h : es = done ++ e :: todo) :
    (docText es).drop (posAtElem done + (sval e).length) =
      (if todo.isEmpty then [] else ',' :: sepElems todo) ++ ']' :: ['\x7d'] := by
  have hA := doc_drop_atElem es done (e :: todo) h (fun _ => by simp)
  have hsep : sepElems (e :: todo) =
      sval e ++ (if todo.isEmpty then [] else ',' :: sepElems todo) := by
    cases todo with
    | nil => simp [sepElems]
    | cons t ts => rw [sepElems_cons_ne e (t :: ts) (by simp)]; simp
  have hdd : (docText es).drop (posAtElem done + (sval e).length) =
      ((docText es).drop (posAtElem done)).drop (sval e).length := by
    rw [List.drop_drop]
  rw [hdd, hA, hsep, List.append_assoc]
  exact List.drop_left _ _

theorem tokPrefLen_zero (ts : List (List Char × Token)) : tokPrefLen ts 0 = 0 := rfl

theorem tokPrefLen_cons_succ (t : List Char × Token)
    (ts : List (List Char × Token)) (k : Nat) :
    tokPrefLen (t :: ts) (k + 1) = t.1.length + tokPrefLen ts k := by
  simp [tokPrefLen]

theorem tokPrefLen_succ_drop (ts : List (List Char × Token)) : ∀ (k : Nat)
    (t : List Char × Token) (ts' : List (List Char × Token)),
    ts.drop k = t :: ts' →
    tokPrefLen ts (k + 1) = tokPrefLen ts k + t.1.length := by
  induction ts with
  | nil => intro k t ts' h; simp at h
  | cons a ts2 ih =>
    intro k t ts' h
    cases k with
    | zero =>
      simp only [List.drop_zero] at h
      injection h with h1 h2
      subst h1
      simp [tokPrefLen]
    | succ k' =>
      simp only [List.drop_succ_cons] at h
      rw [tokPrefLen_cons_succ, tokPrefLen_cons_succ, ih k' t ts' h]
      omega

theorem braceCnt_succ_drop (ts : List (List Char × Token)) : ∀ (k : Nat)
    (t : List Char × Token) (ts' : List (List Char × Token)),
    ts.drop k = t :: ts' →
    braceCnt ts (k + 1) = braceCnt ts k + braceDelta t.2 := by
  induction ts with
  | nil => intro k t ts' h; simp at h
  | cons a ts2 ih =>
    intro k t ts' h
    cases k with
    | zero =>
      simp only [List.drop_zero] at h
      injection h with h1 h2
      subst h1
      simp [braceCnt]
    | succ k' =>
      simp only [List.drop_succ_cons] at h
      simp only [braceCnt, List.take_succ_cons, List.map_cons, List.sum_cons]
      have := ih k' t ts' h
      simp only [braceCnt] at this
      omega

theorem tokPrefLen_full (ts : List (List Char × Token)) :
    tokPrefLen ts ts.length = ((ts.map Prod.fst).flatten).length := by
  induction ts with
  | nil => rfl
  | cons t ts' ih =>
    rw [List.length_cons, tokPrefLen_cons_succ]
    simp [ih]

theorem flatten_drop_tokPrefLen (ts : List (List Char × Token)) : ∀ (k : Nat),
    ((ts.map Prod.fst).flatten).drop (tokPrefLen ts k) =
      (((ts.drop k).map Prod.fst)).flatten := by
  induction ts with
  | nil => intro k; simp [tokPrefLen]
  | cons t ts' ih =>
    intro k
    cases k with
    | zero => simp [tokPrefLen]
    | succ k' =>
      rw [tokPrefLen_cons_succ]
      simp only [List.map_cons, List.flatten_cons, List.drop_succ_cons]
      rw [← List.drop_drop, List.drop_left]
      exact ih k'

theorem braceCnt_deltaSum (ts : List (List Char × Token)) (k : Nat) :
    braceCnt ts k = deltaSum (ts.take k) := rfl

theorem toks_obj_len (fs : List (List Char × JVal)) :
    (toks (JVal.obj fs)).length = (toksFields fs).length + 2 := by
  simp [toks]

theorem braceCnt_obj_pos (fs : List (List Char × JVal)) (k : Nat)
    (h1 : 1 ≤ k) (h2 : k < (toks (JVal.obj fs)).length) :
    1 ≤ braceCnt (toks (JVal.obj fs)) k := by
  rw [toks_obj_len] at h2
  obtain ⟨j, rfl⟩ : ∃ j, k = j + 1 := ⟨k - 1, by omega⟩
  rw [braceCnt_deltaSum]
  show 1 ≤ deltaSum (((['\x7b'], Token.beginObject) ::
    (toksFields fs ++ [(['\x7d'], Token.endObject)])).take (j + 1))
  rw [List.take_succ_cons, deltaSum_cons]
  have hj : j ≤ (toksFields fs).length := by omega
  rw [List.take_append_of_le_length hj]
  have := toks_nonneg_all.2.2 fs j
  simp only [braceDelta]
  omega

theorem braceCnt_obj_full (fs : List (List Char × JVal)) :
    braceCnt (toks (JVal.obj fs)) ((toks (JVal.obj fs)).length) = 0 := by
  rw [braceCnt_deltaSum, List.take_length]
  exact toks_balanced_all.1 (JVal.obj fs)

theorem streamOk_tail (t : List Char × Token) (ts : List (List Char × Token))
    (fc : Char) (h : StreamOk (t :: ts) fc) : StreamOk ts fc := by
  cases ts with
  | nil => trivial
  | cons t2 ts' => exact h.2.2

theorem streamOk_head (t : List Char × Token) (ts : List (List Char × Token))
    (fc : Char) (h : StreamOk (t :: ts) fc) : lexOkTok t := by
  cases ts with
  | nil => exact h.1
  | cons t2 ts' => exact h.1

theorem streamOk_drop (k : Nat) : ∀ (ts : List (List Char × Token)) (fc : Char),
    StreamOk ts fc → StreamOk (ts.drop k) fc := by
  induction k with
  | zero => intro ts fc h; simpa using h
  | succ k' ih =>
    intro ts fc h
    cases ts with
    | nil => trivial
    | cons t ts' =>
      rw [List.drop_succ_cons]
      exact ih ts' fc (streamOk_tail t ts' fc h)

theorem streamOk_cons_triv (t : List Char × Token)
    (rest : List (List Char × Token)) (fc : Char)
    (h1 : lexOkTok t) (h2 : ∀ lx, t.2 ≠ Token.number lx)
    (h3 : StreamOk rest fc) : StreamOk (t :: rest) fc := by
  cases rest with
  | nil => exact ⟨h1, fun lx h => absurd h (h2 lx)⟩
  | cons t2 ts => exact ⟨h1, fun lx h => absurd h (h2 lx), h3⟩

theorem streamOk_append_cons (A : List (List Char × Token))
    (b : List Char × Token) (bs : List (List Char × Token)) (fc c : Char)
    (r : List Char) (hb1 : b.1 = c :: r) (hc : sepCh c)
    (hB : StreamOk (b :: bs) fc) (hA : StreamOk A c) :
    StreamOk (A ++ b :: bs) fc := by
  induction A with
  | nil => simpa using hB
  | cons t A' ih =>
    cases A' with
    | nil =>
      exact ⟨hA.1, fun lx h => ⟨c, r, hb1, hc⟩, hB⟩
    | cons t2 ts =>
      exact ⟨hA.1, hA.2.1, ih hA.2.2⟩

theorem streamOk_toks_all :
    (∀ v : JVal, GoodVal v = true → ∀ fc, sepCh fc → StreamOk (toks v) fc) ∧
    (∀ es : List JVal, GoodElems es = true → ∀ fc, sepCh fc →
      StreamOk (toksElems es) fc) ∧
    (∀ fs : List (List Char × JVal), GoodFields fs = true → ∀ fc, sepCh fc →
      StreamOk (toksFields fs) fc) := by
  apply toks.mutual_induct
  · intro s h fc hfc
    refine ⟨⟨rfl, ?_⟩, fun lx hnum => Token.noConfusion hnum⟩
    intro x hx
    exact List.all_eq_true.mp (by simpa [GoodVal] using h) x hx
  · intro lx h fc hfc
    exact ⟨⟨rfl, by simpa [GoodVal] using h⟩, fun lx' hnum => hfc⟩
  · intro h fc hfc
    exact ⟨rfl, fun lx hnum => Token.noConfusion hnum⟩
  · intro h fc hfc
    exact ⟨rfl, fun lx hnum => Token.noConfusion hnum⟩
  · intro h fc hfc
    exact ⟨rfl, fun lx hnum => Token.noConfusion hnum⟩
  · intro fs ihf h fc hfc
    show StreamOk ((['\x7b'], Token.beginObject) ::
      (toksFields fs ++ [(['\x7d'], Token.endObject)])) fc
    refine streamOk_cons_triv _ _ _ rfl (fun lx h => Token.noConfusion h) ?_
    refine streamOk_append_cons (toksFields fs) _ [] fc '\x7d' [] rfl
      (Or.inr (Or.inl rfl))
      ⟨rfl, fun lx hnum => Token.noConfusion hnum⟩
      (ihf (by simpa [GoodVal] using h) '\x7d' (Or.inr (Or.inl rfl)))
  · intro es ihe h fc hfc
    show StreamOk ((['['], Token.beginArray) ::
      (toksElems es ++ [([']'], Token.endArray)])) fc
    refine streamOk_cons_triv _ _ _ rfl (fun lx h => Token.noConfusion h) ?_
    refine streamOk_append_cons (toksElems es) _ [] fc ']' [] rfl
      (Or.inr (Or.inr rfl))
      ⟨rfl, fun lx hnum => Token.noConfusion hnum⟩
      (ihe (by simpa [GoodVal] using h) ']' (Or.inr (Or.inr rfl)))
  · intro h fc hfc
    trivial
  · intro k v ihv h fc hfc
    have hg : (k.all rawSafe = true ∧ GoodVal v = true) := by
      simpa [GoodFields] using h
    show StreamOk (('"' :: k ++ ['"'], Token.string k) ::
      ([':'], Token.nameSeparator) :: toks v) fc
    refine streamOk_cons_triv _ _ _
      ⟨rfl, fun x hx => List.all_eq_true.mp hg.1 x hx⟩
      (fun lx h => Token.noConfusion h) ?_
    refine streamOk_cons_triv _ _ _ rfl (fun lx h => Token.noConfusion h) ?_
    exact ihv hg.2 fc hfc
  · intro k v rest hne ihv ihr h fc hfc
    cases rest with
    | nil => exact absurd rfl hne
    | cons f2 rest2 =>
      have hg : k.all rawSafe = true ∧ GoodVal v = true ∧
          GoodFields (f2 :: rest2) = true := by
        have h2 := h
        simp only [GoodFields, Bool.and_eq_true] at h2
        exact ⟨h2.1.1, h2.1.2, by
          have h3 := h2.2
          simp only [GoodFields, Bool.and_eq_true]
          exact h3⟩
      show StreamOk (('"' :: k ++ ['"'], Token.string k) ::
        ([':'], Token.nameSeparator) ::
          (toks v ++ ([','], Token.valueSeparator) :: toksFields (f2 :: rest2))) fc
      refine streamOk_cons_triv _ _ _
        ⟨rfl, fun x hx => List.all_eq_true.mp hg.1 x hx⟩
        (fun lx h => Token.noConfusion h) ?_
      refine streamOk_cons_triv _ _ _ rfl (fun lx h => Token.noConfusion h) ?_
      refine streamOk_append_cons (toks v) _ _ fc ',' [] rfl (Or.inl rfl) ?_ ?_
      · refine streamOk_cons_triv _ _ _ rfl (fun lx h => Token.noConfusion h) ?_
        exact ihr hg.2.2 fc hfc
      · exact ihv hg.2.1 ',' (Or.inl rfl)
  · intro h fc hfc
    trivial
  · intro e ihe h fc hfc
    show StreamOk (toks e) fc
    exact ihe (by simpa [GoodElems] using h) fc hfc
  · intro e rest hne ihe ihr h fc hfc
    cases rest with
    | nil => exact absurd rfl hne
    | cons e2 rest2 =>
      have hg : GoodVal e = true ∧ GoodElems (e2 :: rest2) = true := by
        simpa [GoodElems] using h
      show StreamOk (toks e ++ ([','], Token.valueSeparator) ::
        toksElems (e2 :: rest2)) fc
      refine streamOk_append_cons (toks e) _ _ fc ',' [] rfl (Or.inl rfl) ?_ ?_
      · refine streamOk_cons_triv _ _ _ rfl (fun lx h => Token.noConfusion h) ?_
        exact ihr hg.2 fc hfc
      · exact ihe hg.1 ',' (Or.inl rfl)

theorem nextSig_peek_some (buffer : List Char) (pos p' : Nat) (t : Token)
    (h : nextToken buffer pos = (some t, p')) :
    nextSig buffer pos true = (some t, pos) := by
  unfold nextSig
  rw [h]
  rfl

theorem nextSig_consume_some (buffer : List Char) (pos p' : Nat) (t : Token)
    (h : nextToken buffer pos = (some t, p')) :
    nextSig buffer pos false = (some t, p') := by
  unfold nextSig
  rw [h]
  rfl

theorem nextSig_none_eq (buffer : List Char) (pos p' : Nat) (peek : Bool)
    (h : nextToken buffer pos = (none, p')) :
    nextSig buffer pos peek = (none, p') := by
  unfold nextSig
  rw [h]

theorem step_stall (c : Config) (h : nextToken c.buffer c.pos = (none, c.pos)) :
    processNextStep c = (false, c) := by
  unfold processNextStep
  rw [nextSig_none_eq _ _ _ true h]

theorem step_done_some (c : Config) (t : Token) (p' : Nat)
    (hst : c.state = PState.done)
    (h : nextToken c.buffer c.pos = (some t, p')) :
    processNextStep c = (false, c) := by
  unfold processNextStep
  rw [nextSig_peek_some _ _ _ _ h]
  dsimp only
  rw [hst]

theorem take_drop_at (l : List Char) (n p : Nat) :
    (l.take n).drop p = (l.drop p).take (n - p) := by
  rw [List.drop_take]

theorem docText_head (es : List JVal) :
    docText es = '\x7b' :: ('"' :: ('r' :: ('e' :: ('s' :: ('u' :: ('l' :: ('t'
      :: ('s' :: ('"' :: (':' :: ('[' :: (sepElems es ++ ']' :: ['\x7d'])))))))))))) := by
  unfold docText
  rfl

theorem step_atStart (es : List JVal) (n : Nat) (h1 : 1 ≤ n) :
    processNextStep (progConfig ((docText es).take n) Prog.atStart) =
      (true, progConfig ((docText es).take n) Prog.atScanning) := by
  have hdrop : ((docText es).take n).drop 0 = '\x7b' ::
      (((docText es).drop 1).take (n - 1)) := by
    rw [List.drop_zero]
    rw [docText_head]
    obtain ⟨m, rfl⟩ : ∃ m, n = m + 1 := ⟨n - 1, by omega⟩
    rw [List.take_succ_cons]
    simp
  have hpk := nextToken_punct _ 0 '\x7b' _ Token.beginObject hdrop
    (Or.inl ⟨rfl, rfl⟩)
  show processNextStep { buffer := (docText es).take n, pos := 0, state := PState.expectObjectStart, out := [] } = _
  unfold processNextStep
  rw [nextSig_peek_some _ _ _ _ hpk]
  dsimp only
  unfold handleExpectObjectStart
  rw [if_pos rfl]
  dsimp only
  rw [nextSig_consume_some _ _ _ _ hpk]
  rfl

theorem nextToken_string_cut (buffer : List Char) (pos : Nat) (s : List Char)
    (j : Nat) (hs : ∀ x ∈ s, plainStrChar x = true) (h1 : 1 ≤ j)
    (h2 : j ≤ s.length + 1)
    (hdrop : buffer.drop pos = ('"' :: (s ++ ['"'])).take j) :
    nextToken buffer pos = (none, pos) := by
  obtain ⟨i, rfl⟩ : ∃ i, j = i + 1 := ⟨j - 1, by omega⟩
  rw [List.take_succ_cons, List.take_append_of_le_length (by omega)] at hdrop
  exact nextToken_string_partial _ _ _ hdrop
    (fun x hx => hs x (List.mem_of_mem_take hx))

theorem step_atScanning (es : List JVal) (n : Nat) (h1 : 10 ≤ n) :
    processNextStep (progConfig ((docText es).take n) Prog.atScanning) =
      (true, progConfig ((docText es).take n) Prog.atColon) := by
  obtain ⟨m, rfl⟩ : ∃ m, n = m + 10 := ⟨n - 10, by omega⟩
  have hdrop : ((docText es).take (m + 10)).drop 1 = '"' ::
      ("results".toList ++ '"' ::
        ((':' :: ('[' :: (sepElems es ++ ']' :: ['\x7d']))).take (m + 10 - 10))) := by
    rw [take_drop_at, docText_head]
    simp only [List.drop_succ_cons, List.drop_zero]
    rw [show m + 10 - 1 =
      ((((((((m + 1) + 1) + 1) + 1) + 1) + 1) + 1) + 1) + 1 from by omega]
    simp only [List.take_succ_cons]
    rw [show m + 10 - 10 = m from by omega]
    rfl
  have hpk := nextToken_string_complete _ 1 "results".toList _ hdrop (by decide)
  show processNextStep { buffer := (docText es).take (m + 10), pos := 1, state := PState.scanningForResults, out := [] } = _
  unfold processNextStep
  rw [nextSig_peek_some _ _ _ _ hpk]
  dsimp only
  unfold handleScanningForResults
  dsimp only
  rw [nextSig_consume_some _ _ _ _ hpk, if_pos rfl]
  rfl

theorem step_atScanning_stall (es : List JVal) (n : Nat) (h1 : 1 ≤ n)
    (h2 : n < 10) :
    processNextStep (progConfig ((docText es).take n) Prog.atScanning) =
      (false, progConfig ((docText es).take n) Prog.atScanning) := by
  have hdoc1 : (docText es).drop 1 =
      ('"' :: ("results".toList ++ ['"'])) ++
        (':' :: ('[' :: (sepElems es ++ ']' :: ['\x7d']))) := by
    rw [docText_head]
    rfl
  have hdrop : ((docText es).take n).drop 1 =
      ('"' :: ("results".toList ++ ['"'])).take (n - 1) := by
    rw [take_drop_at, hdoc1, List.take_append_of_le_length (by simp; omega)]
  refine step_stall _ ?_
  show nextToken ((docText es).take n) 1 = (none, 1)
  rcases Nat.eq_or_lt_of_le h1 with heq | hlt
  · refine nextToken_empty _ _ ?_
    rw [hdrop, ← heq]
    rfl
  · exact nextToken_string_cut _ _ "results".toList (n - 1) (by decide)
      (by omega) (by simp; omega) hdrop

theorem step_atStart_stall (es : List JVal) :
    processNextStep (progConfig ((docText es).take 0) Prog.atStart) =
      (false, progConfig ((docText es).take 0) Prog.atStart) :=
  step_stall _ (nextToken_empty _ _ rfl)

theorem step_atColon (es : List JVal) (n : Nat) (h1 : 11 ≤ n) :
    processNextStep (progConfig ((docText es).take n) Prog.atColon) =
      (true, progConfig ((docText es).take n) Prog.atArrayStart) := by
  obtain ⟨m, rfl⟩ : ∃ m, n = m + 11 := ⟨n - 11, by omega⟩
  have hdrop : ((docText es).take (m + 11)).drop 10 = ':' ::
      (('[' :: (sepElems es ++ ']' :: ['\x7d'])).take (m + 11 - 11)) := by
    rw [take_drop_at, docText_head]
    simp only [List.drop_succ_cons, List.drop_zero]
    rw [show m + 11 - 10 = m + 1 from by omega, List.take_succ_cons]
    rw [show m + 11 - 11 = m from by omega]
  have hpk := nextToken_punct _ 10 ':' _ Token.nameSeparator hdrop
    (Or.inr (Or.inr (Or.inr (Or.inr (Or.inl ⟨rfl, rfl⟩)))))
  show processNextStep { buffer := (docText es).take (m + 11), pos := 10, state := PState.expectColonAfterResults, out := [] } = _
  unfold processNextStep
  rw [nextSig_peek_some _ _ _ _ hpk]
  dsimp only
  unfold handleExpectColon
  rw [if_pos rfl]
  dsimp only
  rw [nextSig_consume_some _ _ _ _ hpk]
  rfl

theorem step_atColon_stall (es : List JVal) (n : Nat) (h1 : 10 ≤ n)
    (h2 : n < 11) :
    processNextStep (progConfig ((docText es).take n) Prog.atColon) =
      (false, progConfig ((docText es).take n) Prog.atColon) := by
  have hn : n = 10 := by omega
  subst hn
  refine step_stall _ (nextToken_empty _ _ ?_)
  show ((docText es).take 10).drop 10 = []
  rw [take_drop_at]
  simp

theorem step_atArrayStart (es : List JVal) (n : Nat) (h1 : 12 ≤ n) :
    processNextStep (progConfig ((docText es).take n) Prog.atArrayStart) =
      (true, progConfig ((docText es).take n) (Prog.atElem [] es)) := by
  obtain ⟨m, rfl⟩ : ∃ m, n = m + 12 := ⟨n - 12, by omega⟩
  have hdrop : ((docText es).take (m + 12)).drop 11 = '[' ::
      ((sepElems es ++ ']' :: ['\x7d']).take (m + 12 - 12)) := by
    rw [take_drop_at, docText_head]
    simp only [List.drop_succ_cons, List.drop_zero]
    rw [show m + 12 - 11 = m + 1 from by omega, List.take_succ_cons]
    rw [show m + 12 - 12 = m from by omega]
  have hpk := nextToken_punct _ 11 '[' _ Token.beginArray hdrop
    (Or.inr (Or.inr (Or.inl ⟨rfl, rfl⟩)))
  show processNextStep { buffer := (docText es).take (m + 12), pos := 11, state := PState.expectArrayStart, out := [] } = _
  unfold processNextStep
  rw [nextSig_peek_some _ _ _ _ hpk]
  dsimp only
  unfold handleExpectArrayStart
  rw [if_pos rfl]
  dsimp only
  rw [nextSig_consume_some _ _ _ _ hpk]
  rfl

theorem step_atArrayStart_stall (es : List JVal) (n : Nat) (h1 : 11 ≤ n)
    (h2 : n < 12) :
    processNextStep (progConfig ((docText es).take n) Prog.atArrayStart) =
      (false, progConfig ((docText es).take n) Prog.atArrayStart) := by
  have hn : n = 11 := by omega
  subst hn
  refine step_stall _ (nextToken_empty _ _ ?_)
  show ((docText es).take 11).drop 11 = []
  rw [take_drop_at]
  simp

theorem sepElems_cons_split (e : JVal) (todo : List JVal) :
    sepElems (e :: todo) =
      sval e ++ (if todo.isEmpty then [] else ',' :: sepElems todo) := by
  cases todo with
  | nil => simp [sepElems]
  | cons t ts => rw [sepElems_cons_ne e (t :: ts) (by simp)]; simp

theorem tokPrefLen_le (ts : List (List Char × Token)) : ∀ (k : Nat),
    tokPrefLen ts k ≤ ((ts.map Prod.fst).flatten).length := by
  induction ts with
  | nil => intro k; simp [tokPrefLen]
  | cons t ts' ih =>
    intro k
    cases k with
    | zero => simp [tokPrefLen]
    | succ k' =>
      rw [tokPrefLen_cons_succ]
      simp only [List.map_cons, List.flatten_cons, List.length_append]
      exact Nat.add_le_add_left (ih k') _

theorem doc_drop_atElem_sval (es done todo : List JVal) (e : JVal)
    (h : es = done ++ e :: todo) :
    (docText es).drop (posAtElem done) =
      sval e ++ ((if todo.isEmpty then [] else ',' :: sepElems todo) ++
        ']' :: ['\x7d']) := by
  have hA := doc_drop_atElem es done (e :: todo) h (fun _ => by simp)
  rw [hA, sepElems_cons_split, List.append_assoc]

theorem inElem_drop (es done todo : List JVal) (e : JVal) (k : Nat)
    (h : es = done ++ e :: todo)
    (lex : List Char) (tok : Token) (ts' : List (List Char × Token))
    (hdk : (toks e).drop k = (lex, tok) :: ts') :
    (docText es).drop (posAtElem done + tokPrefLen (toks e) k) =
      lex ++ ((ts'.map Prod.fst).flatten ++
        ((if todo.isEmpty then [] else ',' :: sepElems todo) ++
          ']' :: ['\x7d'])) := by
  have hsv := doc_drop_atElem_sval es done todo e h
  have hdd : (docText es).drop (posAtElem done + tokPrefLen (toks e) k) =
      ((docText es).drop (posAtElem done)).drop (tokPrefLen (toks e) k) := by
    rw [List.drop_drop]
  rw [show sval e = ((toks e).map Prod.fst).flatten from rfl] at hsv
  rw [hdd, hsv, List.drop_append_of_le_length (tokPrefLen_le _ _)]
  rw [flatten_drop_tokPrefLen, hdk]
  simp

theorem sepCh_break {c : Char} (h : sepCh c) :
    isDigitCh c = false ∧ c ≠ '.' ∧ c ≠ 'e' ∧ c ≠ 'E' := by
  rcases h with rfl | rfl | rfl <;>
    exact ⟨by decide, by decide, by decide, by decide⟩

theorem nextToken_tok (buffer : List Char) (pos : Nat) (lex : List Char)
    (tok : Token) (after : List Char) (hlex : lexOkTok (lex, tok))
    (hnum : ∀ lx, tok = Token.number lx → ∃ c r, after = c :: r ∧ sepCh c)
    (hdrop : buffer.drop pos = lex ++ after) :
    nextToken buffer pos = (some tok, pos + lex.length) := by
  cases tok with
  | beginObject =>
    rw [show lex = ['\x7b'] from hlex] at hdrop ⊢
    exact nextToken_punct _ _ _ _ _ hdrop (Or.inl ⟨rfl, rfl⟩)
  | endObject =>
    rw [show lex = ['\x7d'] from hlex] at hdrop ⊢
    exact nextToken_punct _ _ _ _ _ hdrop (Or.inr (Or.inl ⟨rfl, rfl⟩))
  | beginArray =>
    rw [show lex = ['['] from hlex] at hdrop ⊢
    exact nextToken_punct _ _ _ _ _ hdrop (Or.inr (Or.inr (Or.inl ⟨rfl, rfl⟩)))
  | endArray =>
    rw [show lex = [']'] from hlex] at hdrop ⊢
    exact nextToken_punct _ _ _ _ _ hdrop
      (Or.inr (Or.inr (Or.inr (Or.inl ⟨rfl, rfl⟩))))
  | nameSeparator =>
    rw [show lex = [':'] from hlex] at hdrop ⊢
    exact nextToken_punct _ _ _ _ _ hdrop
      (Or.inr (Or.inr (Or.inr (Or.inr (Or.inl ⟨rfl, rfl⟩)))))
  | valueSeparator =>
    rw [show lex = [','] from hlex] at hdrop ⊢
    exact nextToken_punct _ _ _ _ _ hdrop
      (Or.inr (Or.inr (Or.inr (Or.inr (Or.inr ⟨rfl, rfl⟩)))))
  | string s =>
    obtain ⟨hl, hsafe⟩ := hlex
    rw [hl] at hdrop ⊢
    rw [show ('"' :: s ++ ['"']) ++ after = '"' :: (s ++ '"' :: after) from
      by simp] at hdrop
    rw [nextToken_string_complete _ _ s after hdrop
      (fun x hx => rawSafe_plain (hsafe x hx))]
    simp
    omega
  | number lx =>
    obtain ⟨hl, hcn⟩ := hlex
    obtain ⟨c, r, hafter, hsep⟩ := hnum lx rfl
    obtain ⟨hd1, hd2, hd3, hd4⟩ := sepCh_break hsep
    rw [hl] at hdrop ⊢
    rw [hafter] at hdrop
    exact nextToken_number_complete _ _ lx c r hcn hdrop hd1 hd2 hd3 hd4
  | litValue v =>
    match v with
    | some true =>
      rw [show lex = "true".toList from hlex] at hdrop ⊢
      exact nextToken_lit_true _ _ after hdrop
    | some false =>
      rw [show lex = "false".toList from hlex] at hdrop ⊢
      exact nextToken_lit_false _ _ after hdrop
    | none =>
      rw [show lex = "null".toList from hlex] at hdrop ⊢
      exact nextToken_lit_null _ _ after hdrop

theorem nextToken_tok_cut (buffer : List Char) (pos : Nat) (lex : List Char)
    (tok : Token) (m : Nat) (hlex : lexOkTok (lex, tok))
    (hm : m < lex.length ∨ (∃ lx, tok = Token.number lx ∧ m ≤ lex.length))
    (hdrop : buffer.drop pos = lex.take m) :
    nextToken buffer pos = (none, pos) := by
  rcases Nat.eq_zero_or_pos m with hm0 | hm1
  · subst hm0
    rw [List.take_zero] at hdrop
    exact nextToken_empty _ _ hdrop
  cases tok with
  | beginObject =>
    rw [show lex = ['\x7b'] from hlex] at hm
    rcases hm with h | ⟨lx, h, -⟩
    · simp at h; omega
    · exact Token.noConfusion h
  | endObject =>
    rw [show lex = ['\x7d'] from hlex] at hm
    rcases hm with h | ⟨lx, h, -⟩
    · simp at h; omega
    · exact Token.noConfusion h
  | beginArray =>
    rw [show lex = ['['] from hlex] at hm
    rcases hm with h | ⟨lx, h, -⟩
    · simp at h; omega
    · exact Token.noConfusion h
  | endArray =>
    rw [show lex = [']'] from hlex] at hm
    rcases hm with h | ⟨lx, h, -⟩
    · simp at h; omega
    · exact Token.noConfusion h
  | nameSeparator =>
    rw [show lex = [':'] from hlex] at hm
    rcases hm with h | ⟨lx, h, -⟩
    · simp at h; omega
    · exact Token.noConfusion h
  | valueSeparator =>
    rw [show lex = [','] from hlex] at hm
    rcases hm with h | ⟨lx, h, -⟩
    · simp at h; omega
    · exact Token.noConfusion h
  | string s =>
    obtain ⟨hl, hsafe⟩ := hlex
    rw [hl] at hdrop hm
    have hmlt : m < s.length + 2 := by
      rcases hm with h | ⟨lx, h, -⟩
      · simpa using h
      · exact Token.noConfusion h
    rw [show ('"' :: s ++ ['"']) = '"' :: (s ++ ['"']) from by simp] at hdrop
    exact nextToken_string_cut _ _ s m
      (fun x hx => rawSafe_plain (hsafe x hx)) hm1 (by omega) hdrop
  | number lx =>
    obtain ⟨hl, hcn⟩ := hlex
    rw [hl] at hdrop hm
    have hmle : m ≤ lx.length := by
      rcases hm with h | ⟨lx', h, hle⟩
      · omega
      · exact hle
    exact nextToken_number_partial _ _ (lx.take m) (canonNum_take hcn m hm1)
      (by rw [hdrop])
  | litValue v =>
    have hw : lex = "true".toList ∨ lex = "false".toList ∨
        lex = "null".toList := by
      match v with
      | some true => exact Or.inl hlex
      | some false => exact Or.inr (Or.inl hlex)
      | none => exact Or.inr (Or.inr hlex)
    have hmlt : m < lex.length := by
      rcases hm with h | ⟨lx, h, -⟩
      · exact h
      · exact Token.noConfusion h
    exact nextToken_lit_partial _ _ lex m hw hm1 hmlt hdrop

theorem step_atElem_obj (es : List JVal) (n : Nat) (done todo : List JVal)
    (fs : List (List Char × JVal))
    (h : es = done ++ JVal.obj fs :: todo)
    (h1 : posAtElem done + 1 ≤ n) :
    processNextStep (progConfig ((docText es).take n)
        (Prog.atElem done (JVal.obj fs :: todo))) =
      (true, progConfig ((docText es).take n)
        (Prog.inElem done (JVal.obj fs) todo 1)) := by
  have hdoc := doc_drop_atElem_sval es done todo (JVal.obj fs) h
  rw [sval_obj] at hdoc
  have hdrop : ((docText es).take n).drop (posAtElem done) = '\x7b' ::
      (((fieldsText fs ++ ['\x7d']) ++
        ((if todo.isEmpty then [] else ',' :: sepElems todo) ++
          ']' :: ['\x7d'])).take (n - posAtElem done - 1)) := by
    rw [take_drop_at, hdoc]
    obtain ⟨m, hm⟩ : ∃ m, n - posAtElem done = m + 1 :=
      ⟨n - posAtElem done - 1, by omega⟩
    rw [hm, List.cons_append, List.take_succ_cons, Nat.add_sub_cancel]
  have hpk := nextToken_punct _ (posAtElem done) '\x7b' _ Token.beginObject
    hdrop (Or.inl ⟨rfl, rfl⟩)
  show processNextStep { buffer := (docText es).take n, pos := posAtElem done, state := PState.parsingResultsArray, out := done.map POut.entry } = _
  unfold processNextStep
  rw [nextSig_peek_some _ _ _ _ hpk]
  dsimp only
  unfold handleParsingResultsArray
  rw [if_neg (by decide), if_neg (by decide), if_pos rfl]
  dsimp only
  rw [nextSig_consume_some _ _ _ _ hpk]
  rfl

theorem step_atElem_nil (n : Nat) (h1 : 13 ≤ n) :
    processNextStep (progConfig ((docText []).take n) (Prog.atElem [] [])) =
      (true, progConfig ((docText []).take n) (Prog.atDone [])) := by
  have hdrop : ((docText []).take n).drop 12 = ']' ::
      (['\x7d'].take (n - 13)) := by
    rw [take_drop_at]
    rw [show docText [] = "\x7b\"results\":[]\x7d".toList from rfl]
    obtain ⟨m, hm⟩ : ∃ m, n - 12 = m + 1 := ⟨n - 13, by omega⟩
    rw [show n - 13 = m from by omega, hm]
    rw [show ("\x7b\"results\":[]\x7d".toList).drop 12 = ']' :: ['\x7d'] from rfl]
    rw [List.take_succ_cons]
  have hpk := nextToken_punct _ 12 ']' _ Token.endArray hdrop
    (Or.inr (Or.inr (Or.inr (Or.inl ⟨rfl, rfl⟩))))
  show processNextStep { buffer := (docText []).take n, pos := 12, state := PState.parsingResultsArray, out := [] } = _
  unfold processNextStep
  rw [nextSig_peek_some _ _ _ _ hpk]
  dsimp only
  unfold handleParsingResultsArray
  rw [if_pos rfl]
  dsimp only
  rw [nextSig_consume_some _ _ _ _ hpk]
  rfl

theorem step_stall_empty (doc : List Char) (n : Nat) (P : Prog)
    (h : n ≤ progPos P) :
    processNextStep (progConfig (doc.take n) P) =
      (false, progConfig (doc.take n) P) := by
  refine step_stall _ (nextToken_empty _ _ ?_)
  show (doc.take n).drop (progPos P) = []
  rw [take_drop_at, Nat.sub_eq_zero_of_le h, List.take_zero]

theorem posAtElem_snoc (done : List JVal) (e : JVal) :
    posAtElem (done ++ [e]) = posAtElem done + (sval e).length + 1 := by
  unfold posAtElem
  rw [sepElems_append done [e] (by simp)]
  cases done with
  | nil => simp [sepElems]
  | cons d ds =>
    simp [sepElems]
    omega

theorem step_postElem_cons (es : List JVal) (n : Nat) (done todo : List JVal)
    (e t : JVal) (h : es = done ++ e :: t :: todo)
    (h1 : posAtElem done + (sval e).length + 1 ≤ n) :
    processNextStep (progConfig ((docText es).take n)
        (Prog.postElem done e (t :: todo))) =
      (true, progConfig ((docText es).take n)
        (Prog.atElem (done ++ [e]) (t :: todo))) := by
  have hdoc := doc_drop_postElem es done (t :: todo) e h
  simp only [List.isEmpty_cons, Bool.false_eq_true, if_false] at hdoc
  have hdrop : ((docText es).take n).drop (posAtElem done + (sval e).length) =
      ',' :: ((sepElems (t :: todo) ++ ']' :: ['\x7d']).take
        (n - (posAtElem done + (sval e).length) - 1)) := by
    rw [take_drop_at, hdoc]
    obtain ⟨m, hm⟩ : ∃ m, n - (posAtElem done + (sval e).length) = m + 1 :=
      ⟨n - (posAtElem done + (sval e).length) - 1, by omega⟩
    rw [hm, List.cons_append, List.take_succ_cons, Nat.add_sub_cancel]
  have hpk := nextToken_punct _ (posAtElem done + (sval e).length) ',' _
    Token.valueSeparator hdrop
    (Or.inr (Or.inr (Or.inr (Or.inr (Or.inr ⟨rfl, rfl⟩)))))
  show processNextStep { buffer := (docText es).take n, pos := posAtElem done + (sval e).length, state := PState.parsingResultsArray, out := (done ++ [e]).map POut.entry } = _
  unfold processNextStep
  rw [nextSig_peek_some _ _ _ _ hpk]
  dsimp only
  unfold handleParsingResultsArray
  rw [if_neg (by decide), if_pos rfl]
  dsimp only
  rw [nextSig_consume_some _ _ _ _ hpk]
  show (true, ({ buffer := (docText es).take n, pos := posAtElem done + (sval e).length + 1, state := PState.parsingResultsArray, out := (done ++ [e]).map POut.entry } : Config)) = _
  rw [show progConfig ((docText es).take n) (Prog.atElem (done ++ [e]) (t :: todo)) = { buffer := (docText es).take n, pos := posAtElem (done ++ [e]), state := PState.parsingResultsArray, out := (done ++ [e]).map POut.entry } from rfl]
  rw [posAtElem_snoc]

theorem step_postElem_nil (es : List JVal) (n : Nat) (done : List JVal)
    (e : JVal) (h : es = done ++ [e])
    (h1 : posAtElem done + (sval e).length + 1 ≤ n) :
    processNextStep (progConfig ((docText es).take n)
        (Prog.postElem done e [])) =
      (true, progConfig ((docText es).take n) (Prog.atDone es)) := by
  have hdoc := doc_drop_postElem es done [] e h
  simp only [List.isEmpty_nil, if_true, List.nil_append] at hdoc
  have hdrop : ((docText es).take n).drop (posAtElem done + (sval e).length) =
      ']' :: (['\x7d'].take (n - (posAtElem done + (sval e).length) - 1)) := by
    rw [take_drop_at, hdoc]
    obtain ⟨m, hm⟩ : ∃ m, n - (posAtElem done + (sval e).length) = m + 1 :=
      ⟨n - (posAtElem done + (sval e).length) - 1, by omega⟩
    rw [hm, List.take_succ_cons, Nat.add_sub_cancel]
  have hpk := nextToken_punct _ (posAtElem done + (sval e).length) ']' _
    Token.endArray hdrop (Or.inr (Or.inr (Or.inr (Or.inl ⟨rfl, rfl⟩))))
  show processNextStep { buffer := (docText es).take n, pos := posAtElem done + (sval e).length, state := PState.parsingResultsArray, out := (done ++ [e]).map POut.entry } = _
  unfold processNextStep
  rw [nextSig_peek_some _ _ _ _ hpk]
  dsimp only
  unfold handleParsingResultsArray
  rw [if_pos rfl]
  dsimp only
  rw [nextSig_consume_some _ _ _ _ hpk]
  show (true, ({ buffer := (docText es).take n, pos := posAtElem done + (sval e).length + 1, state := PState.done, out := (done ++ [e]).map POut.entry } : Config)) = _
  rw [show progConfig ((docText es).take n) (Prog.atDone es) = { buffer := (docText es).take n, pos := 12 + (sepElems es).length + 1, state := PState.done, out := es.map POut.entry } from rfl]
  have hpos : posAtElem done + (sval e).length + 1 =
      12 + (sepElems es).length + 1 := by
    have h2 := posAtElem_snoc done e
    rw [← h] at h2
    rw [← h2]
    unfold posAtElem
    rw [show es.isEmpty = false from by rw [h]; simp]
    simp
  rw [hpos, h]

theorem numNext_eq_one (ts : List (List Char × Token)) (k : Nat)
    (lex lx : List Char) (ts' : List (List Char × Token))
    (hdk : ts.drop k = (lex, Token.number lx) :: ts') : numNext ts k = 1 := by
  unfold numNext
  rw [hdk]

theorem numNext_eq_zero (ts : List (List Char × Token)) (k : Nat)
    (lex : List Char) (tok : Token) (ts' : List (List Char × Token))
    (hdk : ts.drop k = (lex, tok) :: ts')
    (h : ∀ lx, tok ≠ Token.number lx) : numNext ts k = 0 := by
  unfold numNext
  rw [hdk]
  cases tok <;> first | rfl | exact absurd rfl (h _)

theorem drop_lt_cons (ts : List (List Char × Token)) (k : Nat)
    (h : k < ts.length) :
    ∃ lex tok ts', ts.drop k = (lex, tok) :: ts' := by
  cases hd : ts.drop k with
  | nil =>
    have hlen := congrArg List.length hd
    simp [List.length_drop] at hlen
    omega
  | cons a b => exact ⟨a.1, a.2, b, rfl⟩

theorem isObjVal_obj (e : JVal) (h : isObjVal e = true) :
    ∃ fs, e = JVal.obj fs := by
  cases e with
  | obj fs => exact ⟨fs, rfl⟩
  | str s => exact absurd h (by simp [isObjVal])
  | num lx => exact absurd h (by simp [isObjVal])
  | bool b => exact absurd h (by simp [isObjVal])
  | null => exact absurd h (by simp [isObjVal])
  | arr es => exact absurd h (by simp [isObjVal])

theorem inElem_nextToken (es done todo : List JVal) (e : JVal) (k : Nat)
    (lex : List Char) (tok : Token) (ts' : List (List Char × Token)) (n : Nat)
    (h : es = done ++ e :: todo) (hgood : GoodVal e = true)
    (hdk : (toks e).drop k = (lex, tok) :: ts')
    (hneed : posAtElem done + tokPrefLen (toks e) (k + 1) +
      numNext (toks e) k ≤ n) :
    nextToken ((docText es).take n) (posAtElem done + tokPrefLen (toks e) k) =
      (some tok, posAtElem done + tokPrefLen (toks e) k + lex.length) := by
  have hsucc : tokPrefLen (toks e) (k + 1) =
      tokPrefLen (toks e) k + lex.length := by
    simpa using tokPrefLen_succ_drop (toks e) k (lex, tok) ts' hdk
  have hfc : sepCh (if todo.isEmpty then ']' else ',') := by
    cases todo with
    | nil => exact Or.inr (Or.inr rfl)
    | cons t ts => exact Or.inl rfl
  have hstream : StreamOk ((lex, tok) :: ts')
      (if todo.isEmpty then ']' else ',') := by
    rw [← hdk]
    exact streamOk_drop k _ _ (streamOk_toks_all.1 _ hgood _ hfc)
  have hlex : lexOkTok (lex, tok) := streamOk_head _ _ _ hstream
  have hdocdrop := inElem_drop es done todo e k h lex tok ts' hdk
  have hnum0 : ∀ lx, tok = Token.number lx →
      ∃ c r, ((ts'.map Prod.fst).flatten ++
        ((if todo.isEmpty then [] else ',' :: sepElems todo) ++
          ']' :: ['\x7d'])) = c :: r ∧ sepCh c := by
    intro lx htok
    cases ts' with
    | nil =>
      have hs := hstream.2 lx htok
      cases htd : todo with
      | nil =>
        refine ⟨']', ['\x7d'], by simp [htd], Or.inr (Or.inr rfl)⟩
      | cons t ts =>
        refine ⟨',', sepElems (t :: ts) ++ ']' :: ['\x7d'], by simp [htd], Or.inl rfl⟩
    | cons t2 ts2 =>
      obtain ⟨c, r, ht2, hc⟩ := hstream.2.1 lx htok
      refine ⟨c, r ++ ((ts2.map Prod.fst).flatten ++
        ((if todo.isEmpty then [] else ',' :: sepElems todo) ++
          ']' :: ['\x7d'])), ?_, hc⟩
      simp [ht2]
  have hbufdrop : (((docText es).take n)).drop
      (posAtElem done + tokPrefLen (toks e) k) =
      lex ++ (((ts'.map Prod.fst).flatten ++
        ((if todo.isEmpty then [] else ',' :: sepElems todo) ++
          ']' :: ['\x7d'])).take
        (n - (posAtElem done + tokPrefLen (toks e) k) - lex.length)) := by
    rw [take_drop_at, hdocdrop, List.take_append_eq_append_take,
      List.take_all_of_le (by omega)]
  have hafter : ∀ lx, tok = Token.number lx → ∃ c r,
      (((ts'.map Prod.fst).flatten ++
        ((if todo.isEmpty then [] else ',' :: sepElems todo) ++
          ']' :: ['\x7d'])).take
        (n - (posAtElem done + tokPrefLen (toks e) k) - lex.length)) =
        c :: r ∧ sepCh c := by
    intro lx htok
    obtain ⟨c, r, hREST, hc⟩ := hnum0 lx htok
    have hone : numNext (toks e) k = 1 := by
      refine numNext_eq_one _ _ lex lx ts' ?_
      rw [hdk, htok]
    have hge1 : 1 ≤ n - (posAtElem done + tokPrefLen (toks e) k) -
        lex.length := by omega
    obtain ⟨m, hm⟩ : ∃ m, n - (posAtElem done + tokPrefLen (toks e) k) -
        lex.length = m + 1 :=
      ⟨n - (posAtElem done + tokPrefLen (toks e) k) - lex.length - 1,
        by omega⟩
    refine ⟨c, r.take m, ?_, hc⟩
    rw [hREST, hm, List.take_succ_cons]
  exact nextToken_tok _ _ lex tok _ hlex hafter hbufdrop

theorem step_inElem (es : List JVal) (n : Nat) (done todo : List JVal)
    (fs : List (List Char × JVal)) (k : Nat)
    (h : es = done ++ JVal.obj fs :: todo)
    (hgood : GoodVal (JVal.obj fs) = true)
    (hk1 : 1 ≤ k) (hk2 : k < (toks (JVal.obj fs)).length)
    (hneed : posAtElem done + tokPrefLen (toks (JVal.obj fs)) (k + 1) +
      numNext (toks (JVal.obj fs)) k ≤ n) :
    processNextStep (progConfig ((docText es).take n)
        (Prog.inElem done (JVal.obj fs) todo k)) =
      (true, progConfig ((docText es).take n)
        (progNext es (Prog.inElem done (JVal.obj fs) todo k))) := by
  obtain ⟨lex, tok, ts', hdk⟩ := drop_lt_cons _ k hk2
  have hpk := inElem_nextToken es done todo (JVal.obj fs) k lex tok ts' n h
    hgood hdk hneed
  have hsucc : tokPrefLen (toks (JVal.obj fs)) (k + 1) =
      tokPrefLen (toks (JVal.obj fs)) k + lex.length := by
    simpa using tokPrefLen_succ_drop (toks (JVal.obj fs)) k (lex, tok) ts' hdk
  have hbc : braceCnt (toks (JVal.obj fs)) (k + 1) =
      braceCnt (toks (JVal.obj fs)) k + braceDelta tok := by
    simpa using braceCnt_succ_drop (toks (JVal.obj fs)) k (lex, tok) ts' hdk
  have hbcpos : 1 ≤ braceCnt (toks (JVal.obj fs)) k :=
    braceCnt_obj_pos fs k hk1 hk2
  have hklen : k + 1 ≤ (toks (JVal.obj fs)).length := hk2
  show processNextStep { buffer := (docText es).take n, pos := posAtElem done + tokPrefLen (toks (JVal.obj fs)) k, state := PState.parsingArrayEntry (braceCnt (toks (JVal.obj fs)) k) (posAtElem done), out := done.map POut.entry } = _
  unfold processNextStep
  rw [nextSig_peek_some _ _ _ _ hpk]
  dsimp only
  unfold handleParsingArrayEntry
  cases tok with
  | beginObject =>
    rw [nextSig_consume_some _ _ _ _ hpk]
    dsimp only
    have hb1 : braceCnt (toks (JVal.obj fs)) (k + 1) =
        braceCnt (toks (JVal.obj fs)) k + 1 := by
      simpa [braceDelta] using hbc
    have hne : k + 1 ≠ (toks (JVal.obj fs)).length := by
      intro hc
      have h0 := braceCnt_obj_full fs
      rw [← hc] at h0
      omega
    rw [show progNext es (Prog.inElem done (JVal.obj fs) todo k) =
      Prog.inElem done (JVal.obj fs) todo (k + 1) from by
        simp only [progNext]; rw [if_neg hne]]
    show _ = (true, ({ buffer := (docText es).take n, pos := posAtElem done + tokPrefLen (toks (JVal.obj fs)) (k + 1), state := PState.parsingArrayEntry (braceCnt (toks (JVal.obj fs)) (k + 1)) (posAtElem done), out := done.map POut.entry } : Config))
    rw [show posAtElem done + tokPrefLen (toks (JVal.obj fs)) (k + 1) =
      posAtElem done + tokPrefLen (toks (JVal.obj fs)) k + lex.length from by
        omega]
    rw [hb1]
  | endObject =>
    rw [nextSig_consume_some _ _ _ _ hpk]
    dsimp only
    have hb1 : braceCnt (toks (JVal.obj fs)) (k + 1) =
        braceCnt (toks (JVal.obj fs)) k - 1 := by
      have h2 := hbc
      simp [braceDelta] at h2
      omega
    by_cases hlen : k + 1 = (toks (JVal.obj fs)).length
    · have hz : braceCnt (toks (JVal.obj fs)) k - 1 = 0 := by
        have h0 := braceCnt_obj_full fs
        rw [← hlen] at h0
        omega
      rw [if_pos hz]
      have hfull : tokPrefLen (toks (JVal.obj fs)) (k + 1) =
          (sval (JVal.obj fs)).length := by
        rw [hlen, tokPrefLen_full]
        rfl
      have hslice : ((((docText es).take n)).drop (posAtElem done)).take
          (posAtElem done + tokPrefLen (toks (JVal.obj fs)) k + lex.length -
            posAtElem done) = sval (JVal.obj fs) := by
        rw [take_drop_at]
        rw [show posAtElem done + tokPrefLen (toks (JVal.obj fs)) k +
          lex.length - posAtElem done = (sval (JVal.obj fs)).length from by
            omega]
        rw [doc_drop_atElem_sval es done todo (JVal.obj fs) h]
        rw [List.take_take, min_eq_left (by omega)]
        rw [show sval (JVal.obj fs) ++
          ((if todo.isEmpty then [] else ',' :: sepElems todo) ++
            ']' :: ['\x7d']) = sval (JVal.obj fs) ++
          ((if todo.isEmpty then [] else ',' :: sepElems todo) ++
            ']' :: ['\x7d']) from rfl]
        rw [show (sval (JVal.obj fs)).length =
          (sval (JVal.obj fs)).length from rfl]
        exact List.take_left _ _
      have hjp : jsonParse (((((docText es).take n)).drop
          (posAtElem done)).take
          (posAtElem done + tokPrefLen (toks (JVal.obj fs)) k + lex.length -
            posAtElem done)) = some (JVal.obj fs) := by
        rw [hslice]
        exact jsonParse_sval _ hgood
      rw [hjp]
      dsimp only
      rw [show progNext es (Prog.inElem done (JVal.obj fs) todo k) =
        Prog.postElem done (JVal.obj fs) todo from by
          simp only [progNext]; rw [if_pos hlen]]
      show _ = (true, ({ buffer := (docText es).take n, pos := posAtElem done + (sval (JVal.obj fs)).length, state := PState.parsingResultsArray, out := (done ++ [JVal.obj fs]).map POut.entry } : Config))
      rw [show (done ++ [JVal.obj fs]).map POut.entry =
        done.map POut.entry ++ [POut.entry (JVal.obj fs)] from by simp]
      rw [show posAtElem done + (sval (JVal.obj fs)).length =
        posAtElem done + tokPrefLen (toks (JVal.obj fs)) k + lex.length from
          by omega]
    · have hkl : k + 1 < (toks (JVal.obj fs)).length := by omega
      have hp1 : 1 ≤ braceCnt (toks (JVal.obj fs)) (k + 1) :=
        braceCnt_obj_pos fs (k + 1) (by omega) hkl
      rw [if_neg (show ¬(braceCnt (toks (JVal.obj fs)) k - 1 = 0) from by
        omega)]
      rw [show progNext es (Prog.inElem done (JVal.obj fs) todo k) =
        Prog.inElem done (JVal.obj fs) todo (k + 1) from by
          simp only [progNext]; rw [if_neg hlen]]
      show _ = (true, ({ buffer := (docText es).take n, pos := posAtElem done + tokPrefLen (toks (JVal.obj fs)) (k + 1), state := PState.parsingArrayEntry (braceCnt (toks (JVal.obj fs)) (k + 1)) (posAtElem done), out := done.map POut.entry } : Config))
      rw [show posAtElem done + tokPrefLen (toks (JVal.obj fs)) (k + 1) =
        posAtElem done + tokPrefLen (toks (JVal.obj fs)) k + lex.length from by
          omega]
      rw [hb1]
  | beginArray =>
    rw [nextSig_consume_some _ _ _ _ hpk]
    dsimp only
    have hb0 : braceCnt (toks (JVal.obj fs)) (k + 1) =
        braceCnt (toks (JVal.obj fs)) k := by
      simpa [braceDelta] using hbc
    have hne : k + 1 ≠ (toks (JVal.obj fs)).length := by
      intro hc
      have h0 := braceCnt_obj_full fs
      rw [← hc] at h0
      omega
    rw [show progNext es (Prog.inElem done (JVal.obj fs) todo k) =
      Prog.inElem done (JVal.obj fs) todo (k + 1) from by
        simp only [progNext]; rw [if_neg hne]]
    show _ = (true, ({ buffer := (docText es).take n, pos := posAtElem done + tokPrefLen (toks (JVal.obj fs)) (k + 1), state := PState.parsingArrayEntry (braceCnt (toks (JVal.obj fs)) (k + 1)) (posAtElem done), out := done.map POut.entry } : Config))
    rw [show posAtElem done + tokPrefLen (toks (JVal.obj fs)) (k + 1) =
      posAtElem done + tokPrefLen (toks (JVal.obj fs)) k + lex.length from by
        omega]
    rw [hb0]
  | endArray =>
    rw [nextSig_consume_some _ _ _ _ hpk]
    dsimp only
    have hb0 : braceCnt (toks (JVal.obj fs)) (k + 1) =
        braceCnt (toks (JVal.obj fs)) k := by
      simpa [braceDelta] using hbc
    have hne : k + 1 ≠ (toks (JVal.obj fs)).length := by
      intro hc
      have h0 := braceCnt_obj_full fs
      rw [← hc] at h0
      omega
    rw [show progNext es (Prog.inElem done (JVal.obj fs) todo k) =
      Prog.inElem done (JVal.obj fs) todo (k + 1) from by
        simp only [progNext]; rw [if_neg hne]]
    show _ = (true, ({ buffer := (docText es).take n, pos := posAtElem done + tokPrefLen (toks (JVal.obj fs)) (k + 1), state := PState.parsingArrayEntry (braceCnt (toks (JVal.obj fs)) (k + 1)) (posAtElem done), out := done.map POut.entry } : Config))
    rw [show posAtElem done + tokPrefLen (toks (JVal.obj fs)) (k + 1) =
      posAtElem done + tokPrefLen (toks (JVal.obj fs)) k + lex.length from by
        omega]
    rw [hb0]
  | nameSeparator =>
    rw [nextSig_consume_some _ _ _ _ hpk]
    dsimp only
    have hb0 : braceCnt (toks (JVal.obj fs)) (k + 1) =
        braceCnt (toks (JVal.obj fs)) k := by
      simpa [braceDelta] using hbc
    have hne : k + 1 ≠ (toks (JVal.obj fs)).length := by
      intro hc
      have h0 := braceCnt_obj_full fs
      rw [← hc] at h0
      omega
    rw [show progNext es (Prog.inElem done (JVal.obj fs) todo k) =
      Prog.inElem done (JVal.obj fs) todo (k + 1) from by
        simp only [progNext]; rw [if_neg hne]]
    show _ = (true, ({ buffer := (docText es).take n, pos := posAtElem done + tokPrefLen (toks (JVal.obj fs)) (k + 1), state := PState.parsingArrayEntry (braceCnt (toks (JVal.obj fs)) (k + 1)) (posAtElem done), out := done.map POut.entry } : Config))
    rw [show posAtElem done + tokPrefLen (toks (JVal.obj fs)) (k + 1) =
      posAtElem done + tokPrefLen (toks (JVal.obj fs)) k + lex.length from by
        omega]
    rw [hb0]
  | valueSeparator =>
    rw [nextSig_consume_some _ _ _ _ hpk]
    dsimp only
    have hb0 : braceCnt (toks (JVal.obj fs)) (k + 1) =
        braceCnt (toks (JVal.obj fs)) k := by
      simpa [braceDelta] using hbc
    have hne : k + 1 ≠ (toks (JVal.obj fs)).length := by
      intro hc
      have h0 := braceCnt_obj_full fs
      rw [← hc] at h0
      omega
    rw [show progNext es (Prog.inElem done (JVal.obj fs) todo k) =
      Prog.inElem done (JVal.obj fs) todo (k + 1) from by
        simp only [progNext]; rw [if_neg hne]]
    show _ = (true, ({ buffer := (docText es).take n, pos := posAtElem done + tokPrefLen (toks (JVal.obj fs)) (k + 1), state := PState.parsingArrayEntry (braceCnt (toks (JVal.obj fs)) (k + 1)) (posAtElem done), out := done.map POut.entry } : Config))
    rw [show posAtElem done + tokPrefLen (toks (JVal.obj fs)) (k + 1) =
      posAtElem done + tokPrefLen (toks (JVal.obj fs)) k + lex.length from by
        omega]
    rw [hb0]
  | string s =>
    rw [nextSig_consume_some _ _ _ _ hpk]
    dsimp only
    have hb0 : braceCnt (toks (JVal.obj fs)) (k + 1) =
        braceCnt (toks (JVal.obj fs)) k := by
      simpa [braceDelta] using hbc
    have hne : k + 1 ≠ (toks (JVal.obj fs)).length := by
      intro hc
      have h0 := braceCnt_obj_full fs
      rw [← hc] at h0
      omega
    rw [show progNext es (Prog.inElem done (JVal.obj fs) todo k) =
      Prog.inElem done (JVal.obj fs) todo (k + 1) from by
        simp only [progNext]; rw [if_neg hne]]
    show _ = (true, ({ buffer := (docText es).take n, pos := posAtElem done + tokPrefLen (toks (JVal.obj fs)) (k + 1), state := PState.parsingArrayEntry (braceCnt (toks (JVal.obj fs)) (k + 1)) (posAtElem done), out := done.map POut.entry } : Config))
    rw [show posAtElem done + tokPrefLen (toks (JVal.obj fs)) (k + 1) =
      posAtElem done + tokPrefLen (toks (JVal.obj fs)) k + lex.length from by
        omega]
    rw [hb0]
  | number lx =>
    rw [nextSig_consume_some _ _ _ _ hpk]
    dsimp only
    have hb0 : braceCnt (toks (JVal.obj fs)) (k + 1) =
        braceCnt (toks (JVal.obj fs)) k := by
      simpa [braceDelta] using hbc
    have hne : k + 1 ≠ (toks (JVal.obj fs)).length := by
      intro hc
      have h0 := braceCnt_obj_full fs
      rw [← hc] at h0
      omega
    rw [show progNext es (Prog.inElem done (JVal.obj fs) todo k) =
      Prog.inElem done (JVal.obj fs) todo (k + 1) from by
        simp only [progNext]; rw [if_neg hne]]
    show _ = (true, ({ buffer := (docText es).take n, pos := posAtElem done + tokPrefLen (toks (JVal.obj fs)) (k + 1), state := PState.parsingArrayEntry (braceCnt (toks (JVal.obj fs)) (k + 1)) (posAtElem done), out := done.map POut.entry } : Config))
    rw [show posAtElem done + tokPrefLen (toks (JVal.obj fs)) (k + 1) =
      posAtElem done + tokPrefLen (toks (JVal.obj fs)) k + lex.length from by
        omega]
    rw [hb0]
  | litValue v =>
    rw [nextSig_consume_some _ _ _ _ hpk]
    dsimp only
    have hb0 : braceCnt (toks (JVal.obj fs)) (k + 1) =
        braceCnt (toks (JVal.obj fs)) k := by
      simpa [braceDelta] using hbc
    have hne : k + 1 ≠ (toks (JVal.obj fs)).length := by
      intro hc
      have h0 := braceCnt_obj_full fs
      rw [← hc] at h0
      omega
    rw [show progNext es (Prog.inElem done (JVal.obj fs) todo k) =
      Prog.inElem done (JVal.obj fs) todo (k + 1) from by
        simp only [progNext]; rw [if_neg hne]]
    show _ = (true, ({ buffer := (docText es).take n, pos := posAtElem done + tokPrefLen (toks (JVal.obj fs)) (k + 1), state := PState.parsingArrayEntry (braceCnt (toks (JVal.obj fs)) (k + 1)) (posAtElem done), out := done.map POut.entry } : Config))
    rw [show posAtElem done + tokPrefLen (toks (JVal.obj fs)) (k + 1) =
      posAtElem done + tokPrefLen (toks (JVal.obj fs)) k + lex.length from by
        omega]
    rw [hb0]

theorem numNext_le_one (ts : List (List Char × Token)) (k : Nat) :
    numNext ts k ≤ 1 := by
  unfold numNext
  split <;> omega

theorem step_inElem_stall (es : List JVal) (n : Nat) (done todo : List JVal)
    (fs : List (List Char × JVal)) (k : Nat)
    (h : es = done ++ JVal.obj fs :: todo)
    (hgood : GoodVal (JVal.obj fs) = true)
    (hk2 : k < (toks (JVal.obj fs)).length)
    (hlow : posAtElem done + tokPrefLen (toks (JVal.obj fs)) k ≤ n)
    (hhigh : n < posAtElem done + tokPrefLen (toks (JVal.obj fs)) (k + 1) +
      numNext (toks (JVal.obj fs)) k) :
    processNextStep (progConfig ((docText es).take n)
        (Prog.inElem done (JVal.obj fs) todo k)) =
      (false, progConfig ((docText es).take n)
        (Prog.inElem done (JVal.obj fs) todo k)) := by
  obtain ⟨lex, tok, ts', hdk⟩ := drop_lt_cons _ k hk2
  have hsucc : tokPrefLen (toks (JVal.obj fs)) (k + 1) =
      tokPrefLen (toks (JVal.obj fs)) k + lex.length := by
    simpa using tokPrefLen_succ_drop (toks (JVal.obj fs)) k (lex, tok) ts' hdk
  have hfc : sepCh (if todo.isEmpty then ']' else ',') := by
    cases todo with
    | nil => exact Or.inr (Or.inr rfl)
    | cons t ts => exact Or.inl rfl
  have hstream : StreamOk ((lex, tok) :: ts')
      (if todo.isEmpty then ']' else ',') := by
    rw [← hdk]
    exact streamOk_drop k _ _ (streamOk_toks_all.1 _ hgood _ hfc)
  have hlex : lexOkTok (lex, tok) := streamOk_head _ _ _ hstream
  have hdocdrop := inElem_drop es done todo (JVal.obj fs) k h lex tok ts' hdk
  have hn1 := numNext_le_one (toks (JVal.obj fs)) k
  have hmle : n - (posAtElem done + tokPrefLen (toks (JVal.obj fs)) k) ≤
      lex.length := by omega
  have hdropcut : ((docText es).take n).drop
      (posAtElem done + tokPrefLen (toks (JVal.obj fs)) k) =
      lex.take (n - (posAtElem done + tokPrefLen (toks (JVal.obj fs)) k)) := by
    rw [take_drop_at, hdocdrop, List.take_append_of_le_length hmle]
  have hm : n - (posAtElem done + tokPrefLen (toks (JVal.obj fs)) k) <
      lex.length ∨ (∃ lx, tok = Token.number lx ∧
        n - (posAtElem done + tokPrefLen (toks (JVal.obj fs)) k) ≤
          lex.length) := by
    cases tok with
    | number lx => exact Or.inr ⟨lx, rfl, hmle⟩
    | beginObject =>
      have h0 := numNext_eq_zero _ _ _ _ _ hdk
        (fun lx hc => Token.noConfusion hc)
      exact Or.inl (by omega)
    | endObject =>
      have h0 := numNext_eq_zero _ _ _ _ _ hdk
        (fun lx hc => Token.noConfusion hc)
      exact Or.inl (by omega)
    | beginArray =>
      have h0 := numNext_eq_zero _ _ _ _ _ hdk
        (fun lx hc => Token.noConfusion hc)
      exact Or.inl (by omega)
    | endArray =>
      have h0 := numNext_eq_zero _ _ _ _ _ hdk
        (fun lx hc => Token.noConfusion hc)
      exact Or.inl (by omega)
    | nameSeparator =>
      have h0 := numNext_eq_zero _ _ _ _ _ hdk
        (fun lx hc => Token.noConfusion hc)
      exact Or.inl (by omega)
    | valueSeparator =>
      have h0 := numNext_eq_zero _ _ _ _ _ hdk
        (fun lx hc => Token.noConfusion hc)
      exact Or.inl (by omega)
    | string s =>
      have h0 := numNext_eq_zero _ _ _ _ _ hdk
        (fun lx hc => Token.noConfusion hc)
      exact Or.inl (by omega)
    | litValue v =>
      have h0 := numNext_eq_zero _ _ _ _ _ hdk
        (fun lx hc => Token.noConfusion hc)
      exact Or.inl (by omega)
  exact step_stall _ (nextToken_tok_cut _ _ lex tok _ hlex hm hdropcut)

theorem doc_drop_last (es : List JVal) :
    (docText es).drop (12 + (sepElems es).length + 1) = ['\x7d'] := by
  unfold docText
  rw [show "\x7b\"results\":[".toList ++ sepElems es ++ "]\x7d".toList =
    ("\x7b\"results\":[".toList ++ sepElems es ++ [']']) ++ ['\x7d'] from by
      simp]
  rw [show 12 + (sepElems es).length + 1 =
    ("\x7b\"results\":[".toList ++ sepElems es ++ [']']).length from by
      simp; omega]
  exact List.drop_left _ _

theorem step_atDone (es : List JVal) (n : Nat)
    (hn : n ≤ (docText es).length) :
    processNextStep (progConfig ((docText es).take n) (Prog.atDone es)) =
      (false, progConfig ((docText es).take n) (Prog.atDone es)) := by
  by_cases hle : n ≤ progPos (Prog.atDone es)
  · exact step_stall_empty _ _ _ hle
  · have hpos : 12 + (sepElems es).length + 1 + 1 ≤ n := by
      have : progPos (Prog.atDone es) = 12 + (sepElems es).length + 1 := rfl
      omega
    have hdrop : ((docText es).take n).drop (12 + (sepElems es).length + 1) =
        '\x7d' :: ([] : List Char) := by
      rw [take_drop_at, doc_drop_last]
      rw [List.take_of_length_le (by simp; omega)]
    have hpk := nextToken_punct _ (12 + (sepElems es).length + 1) '\x7d' _
      Token.endObject hdrop (Or.inr (Or.inl ⟨rfl, rfl⟩))
    exact step_done_some _ _ _ rfl hpk

theorem GoodElems_mem (es : List JVal) (h : GoodElems es = true) :
    ∀ e ∈ es, GoodVal e = true := by
  induction es with
  | nil => intro e he; simp at he
  | cons x es' ih =>
    intro e he
    simp only [GoodElems, Bool.and_eq_true] at h
    rcases List.mem_cons.mp he with rfl | hm
    · exact h.1
    · exact ih h.2 e hm

theorem canonNum_ne_nil {lx : List Char} (h : canonNum lx = true) : lx ≠ [] := by
  unfold canonNum at h
  simp only [Bool.or_eq_true, Bool.and_eq_true, decide_eq_true_eq,
    Bool.not_eq_true'] at h
  rcases h with h0 | ⟨hne, -, -⟩
  · subst h0; simp
  · intro hc; subst hc; simp at hne

theorem lexOk_len_pos (lex : List Char) (tok : Token)
    (h : lexOkTok (lex, tok)) : 1 ≤ lex.length := by
  cases tok with
  | beginObject => rw [show lex = ['\x7b'] from h]; simp
  | endObject => rw [show lex = ['\x7d'] from h]; simp
  | beginArray => rw [show lex = ['['] from h]; simp
  | endArray => rw [show lex = [']'] from h]; simp
  | nameSeparator => rw [show lex = [':'] from h]; simp
  | valueSeparator => rw [show lex = [','] from h]; simp
  | string s => rw [h.1]; simp
  | number lx =>
    rw [h.1]
    have := canonNum_ne_nil h.2
    cases lx with
    | nil => simp at this
    | cons a l => simp
  | litValue v =>
    match v with
    | some true => rw [show lex = "true".toList from h]; simp
    | some false => rw [show lex = "false".toList from h]; simp
    | none => rw [show lex = "null".toList from h]; simp

theorem tokPrefLen_one_obj (fs : List (List Char × JVal)) :
    tokPrefLen (toks (JVal.obj fs)) 1 = 1 := by
  simp [toks, tokPrefLen]

theorem prog_step (es : List JVal) (hes : GoodElems es = true)
    (hobj : es.all isObjVal = true) (P : Prog) (hwf : ProgWF es P) (n : Nat)
    (hn : n ≤ (docText es).length) (hpos : progPos P ≤ n) :
    (n < progNeed es P →
      processNextStep (progConfig ((docText es).take n) P) =
        (false, progConfig ((docText es).take n) P)) ∧
    (progNeed es P ≤ n →
      processNextStep (progConfig ((docText es).take n) P) =
        (true, progConfig ((docText es).take n) (progNext es P)) ∧
      ProgWF es (progNext es P) ∧
      progPos P < progPos (progNext es P) ∧
      progPos (progNext es P) ≤ progNeed es P) := by
  cases P with
  | atStart =>
    constructor
    · intro hlt
      have h1 : n < 1 := hlt
      refine step_stall_empty _ _ _ ?_
      show n ≤ 0
      omega
    · intro hge
      exact ⟨step_atStart es n hge, trivial, by show 0 < 1; omega,
        by show 1 ≤ 1; omega⟩
  | atScanning =>
    constructor
    · intro hlt
      exact step_atScanning_stall es n hpos hlt
    · intro hge
      exact ⟨step_atScanning es n hge, trivial, by show 1 < 10; omega,
        by show 10 ≤ 10; omega⟩
  | atColon =>
    constructor
    · intro hlt
      exact step_atColon_stall es n hpos hlt
    · intro hge
      exact ⟨step_atColon es n hge, trivial, by show 10 < 11; omega,
        by show 11 ≤ 11; omega⟩
  | atArrayStart =>
    constructor
    · intro hlt
      exact step_atArrayStart_stall es n hpos hlt
    · intro hge
      refine ⟨step_atArrayStart es n hge, ?_, by show 11 < 12; omega,
        by show 12 ≤ 12; omega⟩
      show es = [] ++ es ∧ (es = [] → [] = [])
      exact ⟨by simp, fun _ => rfl⟩
  | atElem done todo =>
    obtain ⟨hsplit, hnil⟩ := hwf
    constructor
    · intro hlt
      refine step_stall_empty _ _ _ ?_
      show n ≤ posAtElem done
      have : n < posAtElem done + 1 := hlt
      omega
    · intro hge
      cases todo with
      | nil =>
        have hdone : done = [] := hnil rfl
        subst hdone
        simp only [List.append_nil] at hsplit
        subst hsplit
        have h13 : 13 ≤ n := by
          have : posAtElem ([] : List JVal) + 1 ≤ n := hge
          have hpa : posAtElem ([] : List JVal) = 12 := rfl
          omega
        refine ⟨step_atElem_nil n h13, rfl, ?_, ?_⟩
        · show posAtElem ([] : List JVal) < 12 + (sepElems []).length + 1
          show (12 : Nat) < 12 + 0 + 1
          omega
        · show 12 + (sepElems ([] : List JVal)).length + 1 ≤
            posAtElem ([] : List JVal) + 1
          show 12 + 0 + 1 ≤ 12 + 1
          omega
      | cons e todo' =>
        have hmem : e ∈ es := by rw [hsplit]; simp
        obtain ⟨fs, rfl⟩ := isObjVal_obj e (List.all_eq_true.mp hobj e hmem)
        have hgood : GoodVal (JVal.obj fs) = true :=
          GoodElems_mem es hes _ hmem
        refine ⟨step_atElem_obj es n done todo' fs hsplit hge, ?_, ?_, ?_⟩
        · refine ⟨hsplit, le_refl 1, ?_⟩
          rw [toks_obj_len]
          omega
        · show posAtElem done < posAtElem done +
            tokPrefLen (toks (JVal.obj fs)) 1
          rw [tokPrefLen_one_obj]
          omega
        · show posAtElem done + tokPrefLen (toks (JVal.obj fs)) 1 ≤
            posAtElem done + 1
          rw [tokPrefLen_one_obj]
  | postElem done e todo =>
    have hsplit := hwf
    constructor
    · intro hlt
      refine step_stall_empty _ _ _ ?_
      show n ≤ posAtElem done + (sval e).length
      have : n < posAtElem done + (sval e).length + 1 := hlt
      omega
    · intro hge
      cases todo with
      | nil =>
        refine ⟨step_postElem_nil es n done e hsplit hge, rfl, ?_, ?_⟩
        · show posAtElem done + (sval e).length <
            12 + (sepElems es).length + 1
          have h2 := posAtElem_snoc done e
          rw [← hsplit] at h2
          have h3 : posAtElem es = 12 + (sepElems es).length + 1 := by
            unfold posAtElem
            rw [show es.isEmpty = false from by rw [hsplit]; simp]
            simp
          omega
        · show 12 + (sepElems es).length + 1 ≤
            posAtElem done + (sval e).length + 1
          have h2 := posAtElem_snoc done e
          rw [← hsplit] at h2
          have h3 : posAtElem es = 12 + (sepElems es).length + 1 := by
            unfold posAtElem
            rw [show es.isEmpty = false from by rw [hsplit]; simp]
            simp
          omega
      | cons t todo' =>
        refine ⟨step_postElem_cons es n done todo' e t hsplit hge, ?_, ?_, ?_⟩
        · show es = (done ++ [e]) ++ t :: todo' ∧ _
          refine ⟨by rw [hsplit]; simp, fun hc => List.noConfusion hc⟩
        · show posAtElem done + (sval e).length < posAtElem (done ++ [e])
          rw [posAtElem_snoc]
          omega
        · show posAtElem (done ++ [e]) ≤
            posAtElem done + (sval e).length + 1
          rw [posAtElem_snoc]
  | inElem done e todo k =>
    obtain ⟨hsplit, hk1, hk2⟩ := hwf
    have hmem : e ∈ es := by rw [hsplit]; simp
    obtain ⟨fs, rfl⟩ := isObjVal_obj e (List.all_eq_true.mp hobj e hmem)
    have hgood : GoodVal (JVal.obj fs) = true := GoodElems_mem es hes _ hmem
    obtain ⟨lex, tok, ts', hdk⟩ := drop_lt_cons _ k hk2
    have hsucc : tokPrefLen (toks (JVal.obj fs)) (k + 1) =
        tokPrefLen (toks (JVal.obj fs)) k + lex.length := by
      simpa using tokPrefLen_succ_drop (toks (JVal.obj fs)) k (lex, tok)
        ts' hdk
    have hfc : sepCh (if todo.isEmpty then ']' else ',') := by
      cases todo with
      | nil => exact Or.inr (Or.inr rfl)
      | cons t ts => exact Or.inl rfl
    have hstream : StreamOk ((lex, tok) :: ts')
        (if todo.isEmpty then ']' else ',') := by
      rw [← hdk]
      exact streamOk_drop k _ _ (streamOk_toks_all.1 _ hgood _ hfc)
    have hlexpos : 1 ≤ lex.length :=
      lexOk_len_pos lex tok (streamOk_head _ _ _ hstream)
    constructor
    · intro hlt
      exact step_inElem_stall es n done todo fs k hsplit hgood hk2 hpos hlt
    · intro hge
      refine ⟨step_inElem es n done todo fs k hsplit hgood hk1 hk2 hge,
        ?_, ?_, ?_⟩
      · show ProgWF es (progNext es (Prog.inElem done (JVal.obj fs) todo k))
        simp only [progNext]
        by_cases hlen : k + 1 = (toks (JVal.obj fs)).length
        · rw [if_pos hlen]
          exact hsplit
        · rw [if_neg hlen]
          exact ⟨hsplit, by omega, by omega⟩
      · show progPos (Prog.inElem done (JVal.obj fs) todo k) <
          progPos (progNext es (Prog.inElem done (JVal.obj fs) todo k))
        simp only [progNext]
        by_cases hlen : k + 1 = (toks (JVal.obj fs)).length
        · rw [if_pos hlen]
          show posAtElem done + tokPrefLen (toks (JVal.obj fs)) k <
            posAtElem done + (sval (JVal.obj fs)).length
          have hfull : tokPrefLen (toks (JVal.obj fs)) (k + 1) =
              (sval (JVal.obj fs)).length := by
            rw [hlen, tokPrefLen_full]
            rfl
          omega
        · rw [if_neg hlen]
          show posAtElem done + tokPrefLen (toks (JVal.obj fs)) k <
            posAtElem done + tokPrefLen (toks (JVal.obj fs)) (k + 1)
          omega
      · show progPos (progNext es (Prog.inElem done (JVal.obj fs) todo k)) ≤
          posAtElem done + tokPrefLen (toks (JVal.obj fs)) (k + 1) +
            numNext (toks (JVal.obj fs)) k
        simp only [progNext]
        by_cases hlen : k + 1 = (toks (JVal.obj fs)).length
        · rw [if_pos hlen]
          show posAtElem done + (sval (JVal.obj fs)).length ≤ _
          have hfull : tokPrefLen (toks (JVal.obj fs)) (k + 1) =
              (sval (JVal.obj fs)).length := by
            rw [hlen, tokPrefLen_full]
            rfl
          omega
        · rw [if_neg hlen]
          show posAtElem done + tokPrefLen (toks (JVal.obj fs)) (k + 1) ≤ _
          omega
  | atDone es' =>
    have hes' : es' = es := hwf
    subst hes'
    constructor
    · intro hlt
      exact step_atDone es' n hn
    · intro hge
      exact absurd hge (by
        show ¬((docText es').length + 1 ≤ n)
        omega)

theorem drain_reach (es : List JVal) (hes : GoodElems es = true)
    (hobj : es.all isObjVal = true) : ∀ (fuel : Nat) (P : Prog) (n : Nat),
    ProgWF es P → n ≤ (docText es).length → progPos P ≤ n →
    n + 1 - progPos P ≤ fuel →
    ∃ P', ProgWF es P' ∧ progPos P' ≤ n ∧ n < progNeed es P' ∧
      drainLoop fuel (progConfig ((docText es).take n) P) =
        progConfig ((docText es).take n) P' := by
  intro fuel
  induction fuel with
  | zero =>
    intro P n hwf hn hpos hfuel
    omega
  | succ fuel' ih =>
    intro P n hwf hn hpos hfuel
    by_cases hng : n < progNeed es P
    · have hstep := (prog_step es hes hobj P hwf n hn hpos).1 hng
      refine ⟨P, hwf, hpos, hng, ?_⟩
      show (let old := (progConfig ((docText es).take n) P).pos;
        let r := processNextStep (progConfig ((docText es).take n) P);
        if r.1 ∧ r.2.pos ≠ old then drainLoop fuel' r.2 else r.2) = _
      rw [hstep]
      simp
    · have hge : progNeed es P ≤ n := by omega
      obtain ⟨hstep, hwf', hlt', hle'⟩ :=
        (prog_step es hes hobj P hwf n hn hpos).2 hge
      have hne : (progConfig ((docText es).take n) (progNext es P)).pos ≠
          (progConfig ((docText es).take n) P).pos := by
        show progPos (progNext es P) ≠ progPos P
        omega
      obtain ⟨P', hwf2, hpos2, hng2, hdl⟩ := ih (progNext es P) n hwf' hn
        (by omega) (by omega)
      refine ⟨P', hwf2, hpos2, hng2, ?_⟩
      show (let old := (progConfig ((docText es).take n) P).pos;
        let r := processNextStep (progConfig ((docText es).take n) P);
        if r.1 ∧ r.2.pos ≠ old then drainLoop fuel' r.2 else r.2) = _
      rw [hstep]
      rw [if_pos ⟨rfl, hne⟩]
      exact hdl

theorem parseChunk_prog (es : List JVal) (hes : GoodElems es = true)
    (hobj : es.all isObjVal = true) (P : Prog) (n n' : Nat)
    (ch : List Char) (hwf : ProgWF es P) (hpos : progPos P ≤ n)
    (hge : n ≤ n') (hn' : n' ≤ (docText es).length)
    (hcat : (docText es).take n ++ ch = (docText es).take n') :
    ∃ P', ProgWF es P' ∧ progPos P' ≤ n' ∧ n' < progNeed es P' ∧
      parseChunk ch (progConfig ((docText es).take n) P) =
        progConfig ((docText es).take n') P' := by
  have hlen : ((docText es).take n').length = n' := by
    rw [List.length_take]
    omega
  have hc0 : parseChunk ch (progConfig ((docText es).take n) P) =
      drainLoop (n' + 1 - progPos P)
        (progConfig ((docText es).take n') P) := by
    show drainLoop (((docText es).take n ++ ch).length + 1 - progPos P) { buffer := (docText es).take n ++ ch, pos := progPos P, state := progState P, out := progOut P } = _
    rw [hcat, hlen]
    rfl
  rw [hc0]
  exact drain_reach es hes hobj (n' + 1 - progPos P) P n' hwf hn'
    (by omega) (by omega)

theorem docText_len (es : List JVal) :
    (docText es).length = 14 + (sepElems es).length := by
  unfold docText
  simp
  omega

theorem posAtElem_le_doc (es done todo : List JVal) (h : es = done ++ todo)
    (hde : done ≠ [] → todo ≠ []) :
    posAtElem done + (sepElems todo).length + 2 = (docText es).length := by
  have hA := doc_drop_atElem es done todo h hde
  have hlen := congrArg List.length hA
  simp only [List.length_drop, List.length_append, List.length_cons,
    List.length_singleton, List.length_nil] at hlen
  have hle : posAtElem done ≤ (docText es).length := by
    by_contra hgt
    push_neg at hgt
    rw [List.drop_eq_nil_of_le (by omega)] at hA
    have := congrArg List.length hA
    simp at this
  omega

theorem progNeed_le_D (es : List JVal) (P : Prog) (hwf : ProgWF es P)
    (hP : ∀ es', P ≠ Prog.atDone es') :
    progNeed es P ≤ (docText es).length := by
  have hD := docText_len es
  cases P with
  | atStart => show 1 ≤ _; omega
  | atScanning => show 10 ≤ _; omega
  | atColon => show 11 ≤ _; omega
  | atArrayStart => show 12 ≤ _; omega
  | atElem done todo =>
    obtain ⟨hsplit, hnil⟩ := hwf
    have := posAtElem_le_doc es done todo hsplit (fun hd ht => hd (hnil ht))
    show posAtElem done + 1 ≤ _
    omega
  | postElem done e todo =>
    have hsplit := hwf
    have h2 := posAtElem_le_doc es done (e :: todo) hsplit (fun _ => by simp)
    have h3 : (sepElems (e :: todo)).length =
        (sval e).length +
          (if todo.isEmpty then [] else ',' :: sepElems todo).length := by
      rw [sepElems_cons_split]
      simp
    show posAtElem done + (sval e).length + 1 ≤ _
    omega
  | inElem done e todo k =>
    obtain ⟨hsplit, hk1, hk2⟩ := hwf
    obtain ⟨lex, tok, ts', hdk⟩ := drop_lt_cons _ k hk2
    have hdd := inElem_drop es done todo e k hsplit lex tok ts' hdk
    have hsucc : tokPrefLen (toks e) (k + 1) =
        tokPrefLen (toks e) k + lex.length := by
      simpa using tokPrefLen_succ_drop (toks e) k (lex, tok) ts' hdk
    have hnum := numNext_le_one (toks e) k
    have hle : posAtElem done + tokPrefLen (toks e) k ≤
        (docText es).length := by
      by_contra hgt
      push_neg at hgt
      rw [List.drop_eq_nil_of_le (by omega)] at hdd
      have h9 := congrArg List.length hdd
      simp at h9
      omega
    have hlen := congrArg List.length hdd
    simp only [List.length_drop, List.length_append, List.length_cons,
      List.length_singleton, List.length_nil] at hlen
    show posAtElem done + tokPrefLen (toks e) (k + 1) +
      numNext (toks e) k ≤ _
    omega
  | atDone es' => exact absurd rfl (hP es')

theorem prefix_take_eq (l a : List Char) (n : Nat) (hn : n ≤ l.length)
    (hpre : (l.take n ++ a) <+: l) : l.take n ++ a = l.take (n + a.length) := by
  have h1 := List.prefix_iff_eq_take.mp hpre
  rw [h1]
  congr 1
  rw [List.length_append, List.length_take]
  omega

theorem runChunks_prog_aux (es : List JVal) (hes : GoodElems es = true)
    (hobj : es.all isObjVal = true) : ∀ (cs : List (List Char)) (P : Prog)
    (n : Nat), ProgWF es P → progPos P ≤ n → n < progNeed es P →
    n + cs.flatten.length ≤ (docText es).length →
    (docText es).take n ++ cs.flatten =
      (docText es).take (n + cs.flatten.length) →
    ∃ P', ProgWF es P' ∧ progPos P' ≤ n + cs.flatten.length ∧
      n + cs.flatten.length < progNeed es P' ∧
      List.foldl (fun c ch => parseChunk ch c)
        (progConfig ((docText es).take n) P) cs =
        progConfig ((docText es).take (n + cs.flatten.length)) P' := by
  intro cs
  induction cs with
  | nil =>
    intro P n hwf hpos hstk hnD hcat
    exact ⟨P, hwf, by simpa using hpos, by simpa using hstk, by simp⟩
  | cons ch cs' ih =>
    intro P n hwf hpos hstk hnD hcat
    have hflat : (ch :: cs').flatten = ch ++ cs'.flatten := by simp
    rw [hflat] at hcat hnD ⊢
    have hlen0 : (ch ++ cs'.flatten).length =
        ch.length + cs'.flatten.length := by
      rw [List.length_append]
    have hpretotal : (docText es).take n ++ (ch ++ cs'.flatten) <+:
        docText es := by
      rw [hcat]
      exact List.take_prefix _ _
    have hpre1 : (docText es).take n ++ ch <+: docText es := by
      refine List.IsPrefix.trans ⟨cs'.flatten, ?_⟩ hpretotal
      rw [List.append_assoc]
    have hcat1 : (docText es).take n ++ ch =
        (docText es).take (n + ch.length) :=
      prefix_take_eq _ _ _ (by omega) hpre1
    obtain ⟨P1, hwf1, hpos1, hstk1, hpc⟩ := parseChunk_prog es hes hobj P n
      (n + ch.length) ch hwf hpos (by omega) (by omega) hcat1
    have hpre2 : (docText es).take (n + ch.length) ++ cs'.flatten <+:
        docText es := by
      rw [← hcat1, List.append_assoc]
      exact hpretotal
    have hcat2 : (docText es).take (n + ch.length) ++ cs'.flatten =
        (docText es).take (n + ch.length + cs'.flatten.length) :=
      prefix_take_eq _ _ _ (by omega) hpre2
    obtain ⟨P2, hwf2, hpos2, hstk2, hfold⟩ := ih P1 (n + ch.length) hwf1
      hpos1 hstk1 (by omega) hcat2
    refine ⟨P2, hwf2, by rw [hlen0]; omega, by rw [hlen0]; omega, ?_⟩
    rw [show List.foldl (fun c ch => parseChunk ch c)
      (progConfig ((docText es).take n) P) (ch :: cs') =
      List.foldl (fun c ch => parseChunk ch c)
        (parseChunk ch (progConfig ((docText es).take n) P)) cs' from rfl]
    rw [hpc, hfold]
    rw [show n + (ch ++ cs'.flatten).length =
      n + ch.length + cs'.flatten.length from by rw [hlen0]; omega]

theorem runChunks_prog (es : List JVal) (hes : GoodElems es = true)
    (hobj : es.all isObjVal = true) (cs : List (List Char))
    (hflat : cs.flatten = docText es) :
    runChunks cs = progConfig (docText es) (Prog.atDone es) := by
  obtain ⟨P', hwf', hpos', hstk', hfold⟩ := runChunks_prog_aux es hes hobj cs
    Prog.atStart 0 trivial (Nat.le_refl 0) (by show 0 < 1; omega)
    (by rw [hflat]; omega) (by rw [hflat]; simp)
  rw [hflat] at hstk' hfold
  simp only [Nat.zero_add] at hstk' hfold
  rw [List.take_length] at hfold
  have hforce : P' = Prog.atDone es := by
    cases P' with
    | atStart =>
      have := progNeed_le_D es Prog.atStart trivial
        (fun es' hc => Prog.noConfusion hc)
      omega
    | atScanning =>
      have := progNeed_le_D es Prog.atScanning trivial
        (fun es' hc => Prog.noConfusion hc)
      omega
    | atColon =>
      have := progNeed_le_D es Prog.atColon trivial
        (fun es' hc => Prog.noConfusion hc)
      omega
    | atArrayStart =>
      have := progNeed_le_D es Prog.atArrayStart trivial
        (fun es' hc => Prog.noConfusion hc)
      omega
    | atElem done todo =>
      have := progNeed_le_D es (Prog.atElem done todo) hwf'
        (fun es' hc => Prog.noConfusion hc)
      omega
    | postElem done e todo =>
      have := progNeed_le_D es (Prog.postElem done e todo) hwf'
        (fun es' hc => Prog.noConfusion hc)
      omega
    | inElem done e todo k =>
      have := progNeed_le_D es (Prog.inElem done e todo k) hwf'
        (fun es' hc => Prog.noConfusion hc)
      omega
    | atDone es2 =>
      rw [show es2 = es from hwf']
  rw [hforce] at hfold
  show List.foldl (fun c ch => parseChunk ch c) initConfig cs = _
  rw [show initConfig = progConfig ((docText es).take 0) Prog.atStart
    from rfl]
  exact hfold

/-- C1, amended: for the compact canonical documents
`\x7b"results":[e1,...,en]\x7d` (results as first and only key, elements
well-formed objects), every way of splitting the text into fragments at
arbitrary boundaries (including inside strings and numbers) produces the
same emission sequence as the unsplit text, namely exactly the array's
elements in order. -/
theorem c1_amended_chunking_invariance (es : List JVal)
    (cs : List (List Char)) (hes : GoodElems es = true)
    (hobj : es.all isObjVal = true) (hflat : cs.flatten = docText es) :
    (runChunks cs).out = (runChunks [docText es]).out ∧
    (runChunks cs).out = es.map POut.entry := by
  have h1 := runChunks_prog es hes hobj cs hflat
  have h2 := runChunks_prog es hes hobj [docText es] (by simp)
  rw [h1, h2]
  exact ⟨rfl, rfl⟩

theorem c1_witness :
    (runChunks (chunksOf3 (docText [JVal.obj []]))).out =
      (runChunks [docText [JVal.obj []]]).out ∧
    (runChunks (chunksOf3 (docText [JVal.obj []]))).out =
      [JVal.obj []].map POut.entry :=
  c1_amended_chunking_invariance [JVal.obj []]
    (chunksOf3 (docText [JVal.obj []])) (by decide) (by decide) (by decide)
